import Mathlib

/-!
# Shiboken runtime object model (libshiboken/basewrapper.cpp)

A shallow embedding of the wrapper object model of libshiboken: the private
data of a wrapper (`SbkObjectPrivate`), the parent/child links (`ParentInfo`),
the reference-keeping table (`RefCountMap`), the binding manager table and the
operations of `namespace Shiboken::Object` that work on them.

Conventions of the embedding.

* A pointer is a natural number, `NULL` is `0`, `Py_None` is the address of the
  `None` singleton.  The heap is a family of total maps indexed by address:
  `s.d o` is `o->d`, `s.ob_refcnt o` is `o->ob_refcnt`, and so on.
* A pointer to an owned record that may be null (`ParentInfo*`, `RefCountMap*`,
  `void** cptr`) is an `Option`.
* `std::set<SbkObject*>` is a list of addresses kept strictly increasing by
  `ChildrenList.insert`; `std::map<std::string, std::list<PyObject*>>` is an
  association list kept strictly increasing in the key by `RefCountMap.assign`.
  The operations do not need these container invariants to run, theorems that
  need them state them.
* `Py_DECREF` decrements the counter; when the counter reaches zero CPython
  hands the object to its `tp_dealloc`.  That hand-off is recorded in
  `tp_dealloc_log`, the deallocation itself is the separate entry point
  `SbkDeallocWrapper` and is not run by `Py_DECREF`.  A run of the model is
  therefore the run of the code as long as no reference count reaches zero,
  that is as long as `tp_dealloc_log` does not grow; a theorem whose statement
  depends on this says so.
* Recursive functions and loops take a fuel argument and return `none` when it
  runs out; `none` is also the result of dereferencing a null `ParentInfo*` or
  `cptr`.  An `SbkObject*` argument that the source dereferences without a test
  is taken to be the address of a wrapper.
* The error indicator of the interpreter is not a field of the state: a
  function that may set an error returns the error it sets next to its result
  (`isValid`, the integer conversion `IntPrimitive.toCpp` of sbkconverter.h).
* The address of a newly allocated object is an argument of the function that
  allocates it (`SbkObjectTpNew`, `newObject`, `SbkObjectTypeTpNew`).
* A call through a function pointer stored in a type (`cpp_dtor`,
  `subtype_init`) is recorded as a pair in a list; what the callee does is
  outside the model.  With each destructor call the wrappers freed so far are
  recorded (`dtorFreed`), so that a theorem can say what had been torn down
  when the destructor ran.
* The converters of sbkconverter.h see a Python object through the checks they
  make (`PyNumber`, `PyValue`); a result that C++ leaves undefined is `none`.
* The generator table `m_nbFuncs` of cppgenerator.cpp (a `QHash`) and the
  local table of `writeTypeAsNumberDefinition` (a `QMap`) are association
  lists kept increasing in the key.  Qt leaves the order of `QHash::keys()`
  unspecified; the model takes the increasing one.  The text a generator
  function writes is the list of the assignments it emits.
-/

namespace Shiboken

/-- An address; `0` is the null pointer. -/
abbrev Ptr := Nat

/-- The null pointer. -/
abbrev NULL : Ptr := 0

/-- Address of the `None` singleton. -/
abbrev Py_None : Ptr := 1

/-! ## Containers -/

/-- The type `typedef std::set<SbkObject*> ChildrenList`: the elements in increasing order. -/
abbrev ChildrenList := List Ptr

/-- The operation `std::set::insert`: ordered insertion, an element already present is not
added again. -/
def ChildrenList.insert (x : Ptr) : ChildrenList → ChildrenList
  | [] => [x]
  | y :: ys =>
    if x < y then x :: y :: ys
    else if x = y then y :: ys
    else y :: ChildrenList.insert x ys

/-- The type `std::map<std::string, std::list<PyObject*> >`: the entries in increasing key
order. -/
abbrev RefCountMap := List (String × List Ptr)

/-- The operation `std::map::find`: the list stored under `key`, `none` for `end()`. -/
def RefCountMap.find (key : String) : RefCountMap → Option (List Ptr)
  | [] => none
  | (k, v) :: rest => if k = key then some v else RefCountMap.find key rest

/-- The operation `std::map::erase(iterator)` for the iterator returned by `find key`. -/
def RefCountMap.erase (key : String) : RefCountMap → RefCountMap
  | [] => []
  | (k, v) :: rest => if k = key then rest else (k, v) :: RefCountMap.erase key rest

/-- The assignment `refCountMap[key] = objects`: replaces the entry, or inserts it in key order. -/
def RefCountMap.assign (key : String) (objects : List Ptr) : RefCountMap → RefCountMap
  | [] => [(key, objects)]
  | (k, v) :: rest =>
    if k = key then (key, objects) :: rest
    else if key < k then (key, objects) :: (k, v) :: rest
    else (k, v) :: RefCountMap.assign key objects rest

/-! ## Data model -/

/-- Modelled from the spec: `struct ParentInfo` is declared in basewrapper_p.h, which is not
among the sources; its constructor leaves `parent` null, `children` empty and
`hasWrapperRef` false. -/
structure ParentInfo where
  /-- The field `SbkObject* parent`. -/
  parent : Ptr := NULL
  /-- The field `ChildrenList children`. -/
  children : ChildrenList := []
  /-- The field `bool hasWrapperRef`. -/
  hasWrapperRef : Bool := false
  deriving DecidableEq, Repr

/-- The record `struct SbkObjectPrivate`; the defaults are the values set by `SbkObjectTpNew`. -/
structure SbkObjectPrivate where
  /-- The array `void** cptr` of native pointers, `none` once the array is deleted. -/
  cptr : Option (List Ptr) := some [NULL]
  hasOwnership : Bool := true
  containsCppWrapper : Bool := false
  validCppObject : Bool := false
  cppObjectCreated : Bool := false
  /-- The field `ParentInfo* parentInfo`. -/
  parentInfo : Option ParentInfo := none
  /-- The field `RefCountMap* referredObjects`. -/
  referredObjects : Option RefCountMap := none
  deriving DecidableEq, Repr

/-- Modelled from the spec: `BEHAVIOUR_VALUETYPE` is a constant of basewrapper_p.h, which is
not among the sources; it marks the pure-value types for which `releaseOwnership` does
nothing. -/
def BEHAVIOUR_VALUETYPE : Nat := 1

/-- The record `struct SbkObjectTypePrivate`; function pointers are addresses, `0` for a null
hook. -/
structure SbkObjectTypePrivate where
  mi_offsets : Ptr := NULL
  mi_init : Ptr := NULL
  mi_specialcast : Ptr := NULL
  type_discovery : Ptr := NULL
  ext_isconvertible : Ptr := NULL
  ext_tocpp : Ptr := NULL
  /-- The field `ObjectDestructor cpp_dtor`. -/
  cpp_dtor : Ptr := NULL
  is_multicpp : Bool := false
  is_user_type : Bool := false
  type_behaviour : Nat := 0
  original_name : Option String := none
  user_data : Ptr := NULL
  d_func : Ptr := NULL
  subtype_init : Ptr := NULL
  deriving DecidableEq, Repr

/-- The part of the interpreter and library state the object model reads and writes. -/
structure State where
  /-- The reference count `o->ob_refcnt`. -/
  ob_refcnt : Ptr → Int
  /-- The type `o->ob_type`. -/
  ob_type : Ptr → Ptr
  /-- The field `o->ob_dict` of a wrapper. -/
  ob_dict : Ptr → Ptr
  /-- The field `o->weakreflist` of a wrapper. -/
  weakreflist : Ptr → Ptr
  /-- The private data `o->d` of a wrapper. -/
  d : Ptr → SbkObjectPrivate
  /-- The private data `t->d` of a wrapper type. -/
  typeD : Ptr → SbkObjectTypePrivate
  /-- The bases `t->tp_bases`. -/
  tp_bases : Ptr → List Ptr
  /-- The test `PyType_IsSubtype(t, &SbkObject_Type)`. -/
  isSbkSubtype : Ptr → Bool
  /-- The items of `o` when `PySequence_Check(o)` holds, `none` otherwise. -/
  sequence : Ptr → Option (List Ptr)
  /-- The binding manager table: pairs (native pointer, wrapper). -/
  wrapperMapper : List (Ptr × Ptr)
  /-- The native destructor calls made so far: pairs (destructor, native pointer). -/
  dtorCalls : List (Ptr × Ptr)
  /-- Objects whose reference count reached zero in a `Py_DECREF`, latest first. -/
  tp_dealloc_log : List Ptr
  /-- Wrappers passed to `tp_free`, latest first. -/
  tp_free_log : List Ptr
  /-- For each native destructor call made so far, in order: the value of `tp_free_log` when the
  call was made, that is the wrappers that had been freed by then. -/
  dtorFreed : List (List Ptr) := []

/-! ## Interpreter primitives -/

/-- The macro `Py_INCREF(o)`. -/
def Py_INCREF (s : State) (o : Ptr) : State :=
  { s with ob_refcnt := Function.update s.ob_refcnt o (s.ob_refcnt o + 1) }

/-- The macro `Py_DECREF(o)`: decrement, and hand the object to `tp_dealloc` when zero is reached. -/
def Py_DECREF (s : State) (o : Ptr) : State :=
  { s with
    ob_refcnt := Function.update s.ob_refcnt o (s.ob_refcnt o - 1)
    tp_dealloc_log := if s.ob_refcnt o - 1 = 0 then o :: s.tp_dealloc_log else s.tp_dealloc_log }

/-- The macro `Py_XDECREF(o)`. -/
def Py_XDECREF (s : State) (o : Ptr) : State :=
  if o = NULL then s else Py_DECREF s o

/-- The function `Object::checkType(pyObj)`: the type of `pyObj` derives from `SbkObject_Type`. -/
def Object.checkType (s : State) (pyObj : Ptr) : Bool :=
  s.isSbkSubtype (s.ob_type pyObj)

/-- The call `PySequence_Check(o)`. -/
def PySequence_Check (s : State) (o : Ptr) : Bool :=
  (s.sequence o).isSome

/-- The items of `PySequence_Fast(o, 0)`; no items when the call fails. -/
def PySequence_Fast (s : State) (o : Ptr) : List Ptr :=
  (s.sequence o).getD []

/-! ## State access -/

/-- Write `o->d`. -/
def State.setD (s : State) (o : Ptr) (v : SbkObjectPrivate) : State :=
  { s with d := Function.update s.d o v }

/-- Write `o->d->parentInfo`. -/
def State.setParentInfo (s : State) (o : Ptr) (v : Option ParentInfo) : State :=
  s.setD o { s.d o with parentInfo := v }

/-- The parent `o->d->parentInfo->parent`, null when there is no `ParentInfo`. -/
def parentOf (s : State) (o : Ptr) : Ptr :=
  match (s.d o).parentInfo with
  | some pInfo => pInfo.parent
  | none => NULL

/-- The children `o->d->parentInfo->children`, empty when there is no `ParentInfo`. -/
def childrenOf (s : State) (o : Ptr) : ChildrenList :=
  match (s.d o).parentInfo with
  | some pInfo => pInfo.children
  | none => []

/-! ## Binding manager -/

/-- Modelled from the spec: `BindingManager::releaseWrapper` is defined in bindingmanager.cpp,
which is not among the sources; it removes all mappings owned by the wrapper. -/
def BindingManager.releaseWrapper (s : State) (wrapper : Ptr) : State :=
  { s with wrapperMapper := s.wrapperMapper.filter (fun e => e.2 ≠ wrapper) }

/-- Modelled from the spec: `BindingManager::retrieveWrapper` is defined in bindingmanager.cpp,
which is not among the sources; it resolves a native pointer to its wrapper, null when the
pointer is not registered. -/
def BindingManager.retrieveWrapper (s : State) (cptr : Ptr) : Ptr :=
  match s.wrapperMapper.find? (fun e => e.1 = cptr) with
  | some e => e.2
  | none => NULL

/-- Modelled from the spec: `BindingManager::hasWrapper` is defined in bindingmanager.cpp,
which is not among the sources; it is the existence check for a native pointer. -/
def BindingManager.hasWrapper (s : State) (cptr : Ptr) : Bool :=
  s.wrapperMapper.any (fun e => e.1 = cptr)

namespace Object

/-- Modelled from the spec: the default arguments of `removeParent` are declared in
basewrapper.h, which is not among the sources; a plain `removeParent(child)` returns the
ownership to the scripting side (`giveOwnershipBack = true`). -/
def removeParent_giveOwnershipBack : Bool := true

/-- Modelled from the spec: the default arguments of `removeParent` are declared in
basewrapper.h, which is not among the sources; a plain `removeParent(child)` releases the
reference the parent held (`keepReference = false`). -/
def removeParent_keepReference : Bool := false

/-- The function `Object::removeParent(child, giveOwnershipBack, keepReference)`. -/
def removeParent (s : State) (child : Ptr) (giveOwnershipBack keepReference : Bool) :
    Option State :=
  match (s.d child).parentInfo with
  | none => some s
  | some pInfo =>
    if pInfo.parent = NULL then
      if pInfo.hasWrapperRef then
        -- pInfo->hasWrapperRef = false; delete pInfo; child->d->parentInfo = 0;
        some (s.setParentInfo child none)
      else
        some s
    else
      -- ChildrenList& oldBrothers = pInfo->parent->d->parentInfo->children;
      match (s.d pInfo.parent).parentInfo with
      | none => none
      | some parentPInfo =>
        -- Verify if this child is part of parent list
        if child ∉ parentPInfo.children then some s
        else
          -- oldBrothers.erase(iChild);
          let s1 := s.setParentInfo pInfo.parent
            (some { parentPInfo with children := parentPInfo.children.erase child })
          -- pInfo->parent = 0;
          let s2 := s1.setParentInfo child
            ((s1.d child).parentInfo.map fun p => { p with parent := NULL })
          if keepReference && (s2.d child).containsCppWrapper then
            -- If have already a extra ref remove this one
            if ((s2.d child).parentInfo.map fun p => p.hasWrapperRef) = some true then
              some (Py_DECREF s2 child)
            else
              some (s2.setParentInfo child
                ((s2.d child).parentInfo.map fun p => { p with hasWrapperRef := true }))
          else
            -- Transfer ownership back to Python
            let s3 := s2.setD child { s2.d child with hasOwnership := giveOwnershipBack }
            -- if (pInfo->children.empty()) { delete pInfo; child->d->parentInfo = 0; }
            let s4 := if (childrenOf s3 child).isEmpty then s3.setParentInfo child none else s3
            -- Remove parent ref
            some (Py_DECREF s4 child)

/-- The body of `Object::setParent(parent, child)` below the sequence test
(basewrapper.cpp lines 1069 to 1109). -/
def setParentOfWrapper (s : State) (parent child : Ptr) : Option State :=
  let parentIsNull : Bool := parent = NULL || parent = Py_None
  -- if (!parent_->d->parentInfo) parent_->d->parentInfo = new ParentInfo;
  let s1 :=
    if !parentIsNull && (s.d parent).parentInfo.isNone then s.setParentInfo parent (some {})
    else s
  -- do not re-add a child
  if !parentIsNull && ((s1.d child).parentInfo.map fun p => p.parent) = some parent then
    some s1
  else
    let hasAnotherParent : Bool :=
      match (s1.d child).parentInfo with
      | some pInfo => pInfo.parent ≠ NULL && pInfo.parent ≠ parent
      | none => false
    -- Avoid destroy child during reparent operation
    let s2 := Py_INCREF s1 child
    -- check if we need to remove this child from the old parent
    let removed :=
      if parentIsNull || hasAnotherParent then
        removeParent s2 child removeParent_giveOwnershipBack removeParent_keepReference
      else some s2
    removed.bind fun s3 =>
      -- Add the child to the new parent
      let added : Option State :=
        if !parentIsNull then
          -- if (!pInfo) pInfo = child_->d->parentInfo = new ParentInfo; pInfo->parent = parent_;
          let pInfo : ParentInfo := (s3.d child).parentInfo.getD {}
          let s4 := s3.setParentInfo child (some { pInfo with parent := parent })
          -- parent_->d->parentInfo->children.insert(child_);
          match (s4.d parent).parentInfo with
          | none => none
          | some parentPInfo =>
            let s5 := s4.setParentInfo parent
              (some { parentPInfo with children := ChildrenList.insert child parentPInfo.children })
            -- Add Parent ref
            let s6 := Py_INCREF s5 child
            -- Remove ownership
            some (s6.setD child { s6.d child with hasOwnership := false })
        else some s3
      -- Remove previous safe ref
      added.map fun s7 => Py_DECREF s7 child

/-- The function `Object::setParent(parent, child)`; a child that is a native sequence is walked
element by element. -/
def setParent : Nat → State → Ptr → Ptr → Option State
  | 0, _, _, _ => none
  | fuel + 1, s, parent, child =>
    if child = NULL ∨ child = Py_None ∨ child = parent then some s
    else if PySequence_Check s child && !checkType s child then
      (PySequence_Fast s child).foldlM (fun st item => setParent fuel st parent item) s
    else
      setParentOfWrapper s parent child

/-- The `for` loop of `Object::invalidate(SbkObject* self)` over the copy of the children set,
`recurse` being the recursive call of `invalidate`. -/
def invalidateChildren (recurse : State → Ptr → Option State) (self : Ptr) :
    List Ptr → State → Option State
  | [], st => some st
  | it :: rest, st =>
    -- invalidate the child
    (recurse st it).bind fun st1 =>
      -- if the parent not is a wrapper class, then remove children from him
      (if !(st1.d self).validCppObject then removeParent st1 it true true
       else some st1).bind fun st2 =>
        invalidateChildren recurse self rest st2

/-- The first block of `Object::invalidate(SbkObject* self)`: unless the wrapper embeds the
native storage it is marked invalid and released from the binding manager. -/
def markInvalid (s : State) (self : Ptr) : State :=
  if !(s.d self).containsCppWrapper then
    -- Mark object as invalid only if this is not a wrapper class
    BindingManager.releaseWrapper (s.setD self { s.d self with validCppObject := false }) self
  else s

/-- The function `Object::invalidate(SbkObject* self)`. -/
def invalidate : Nat → State → Ptr → Option State
  | 0, _, _ => none
  | fuel + 1, s, self =>
    -- Skip if this object not is a valid object
    if self = NULL ∨ self = Py_None then some s
    else
      let s1 := markInvalid s self
      -- If it is a parent invalidate all children.
      match (s1.d self).parentInfo with
      | none => some s1
      | some pInfo =>
        -- Create a copy because this list can be changed during the process
        invalidateChildren (invalidate fuel) self pInfo.children s1

/-- The `for` loop of `Object::makeValid(SbkObject* self)` over the children set, `recurse`
being the recursive call of `makeValid`. -/
def makeValidChildren (recurse : State → Ptr → Option State) :
    List Ptr → State → Option State
  | [], st => some st
  | it :: rest, st => (recurse st it).bind fun st1 => makeValidChildren recurse rest st1

/-- The function `Object::makeValid(SbkObject* self)`. -/
def makeValid : Nat → State → Ptr → Option State
  | 0, _, _ => none
  | fuel + 1, s, self =>
    -- Skip if this object not is a valid object
    if self = NULL ∨ self = Py_None ∨ (s.d self).validCppObject then some s
    else
      -- Mark object as invalid only if this is not a wrapper class
      let s1 := s.setD self { s.d self with validCppObject := true }
      -- If it is a parent make all children valid
      match (s1.d self).parentInfo with
      | none => some s1
      | some pInfo => makeValidChildren (makeValid fuel) pInfo.children s1

/-- The function `Object::getOwnership(SbkObject* self)`. -/
def getOwnership (fuel : Nat) (s : State) (self : Ptr) : Option State :=
  -- skip if already have the ownership
  if (s.d self).hasOwnership then some s
  -- skip if this object has parent
  else if parentOf s self ≠ NULL then some s
  else
    -- Get back the ownership
    let s1 := s.setD self { s.d self with hasOwnership := true }
    if (s1.d self).containsCppWrapper then some (Py_DECREF s1 self)
    else makeValid fuel s1 self

/-- The function `Object::releaseOwnership(SbkObject* self)`. -/
def releaseOwnership (fuel : Nat) (s : State) (self : Ptr) : Option State :=
  -- skip if the ownership have already moved to c++
  if !(s.d self).hasOwnership || (s.typeD (s.ob_type self)).type_behaviour = BEHAVIOUR_VALUETYPE
  then some s
  else
    -- remove object ownership
    let s1 := s.setD self { s.d self with hasOwnership := false }
    -- If We have control over object life
    if (s1.d self).containsCppWrapper then some (Py_INCREF s1 self)
    else invalidate fuel s1 self

/-- The `while` loop of `_destroyParentInfo`: invalidate and detach the first child until the
children set is empty. -/
def destroyChildren : Nat → State → Ptr → Bool → Option State
  | 0, _, _, _ => none
  | fuel + 1, s, obj, keepReference =>
    match (s.d obj).parentInfo with
    | none => none
    | some pInfo =>
      match pInfo.children with
      | [] => some s
      | first :: _ =>
        -- Mark child as invalid
        (invalidate fuel s first).bind fun s1 =>
          (removeParent s1 first false keepReference).bind fun s2 =>
            destroyChildren fuel s2 obj keepReference

/-- The function `_destroyParentInfo(obj, keepReference)`. -/
def _destroyParentInfo (fuel : Nat) (s : State) (obj : Ptr) (keepReference : Bool) :
    Option State :=
  match (s.d obj).parentInfo with
  | none => some s
  | some _ =>
    (destroyChildren fuel s obj keepReference).bind fun s1 =>
      removeParent s1 obj false removeParent_keepReference

end Object

/-- The function `decRefPyObjectList(lst, skip)`. -/
def decRefPyObjectList (s : State) (lst : List Ptr) (skip : Ptr) : State :=
  lst.foldl (fun st o => if o ≠ skip then Py_DECREF st o else st) s

namespace Object

/-- Write `o->d->referredObjects`. -/
def setReferredObjects (s : State) (o : Ptr) (v : Option RefCountMap) : State :=
  s.setD o { s.d o with referredObjects := v }

/-- The function `Object::keepReference(self, key, referredObject, append)`. -/
def keepReference (s : State) (self : Ptr) (key : String) (referredObject : Ptr)
    (append : Bool) : State :=
  let isNone : Bool := referredObject = NULL || referredObject = Py_None
  -- if (!self->d->referredObjects) self->d->referredObjects = new Shiboken::RefCountMap;
  let s1 := if (s.d self).referredObjects.isNone then setReferredObjects s self (some []) else s
  let refCountMap : RefCountMap := (s1.d self).referredObjects.getD []
  let iter := RefCountMap.find key refCountMap
  let objects : List Ptr := iter.getD []
  -- skip if objects already exists
  if iter.isSome && decide (referredObject ∈ objects) then s1
  else if append && !isNone then
    -- refCountMap[key].push_back(referredObject);
    let s2 := setReferredObjects s1 self
      (some (RefCountMap.assign key (objects ++ [referredObject]) refCountMap))
    Py_INCREF s2 referredObject
  else if !append then
    let s2 :=
      if objects.length > 0 then
        decRefPyObjectList s1 objects (if isNone then NULL else referredObject)
      else s1
    if isNone then
      if iter.isSome then setReferredObjects s2 self (some (RefCountMap.erase key refCountMap))
      else s2
    else
      -- objects.clear(); objects.push_back(referredObject); refCountMap[key] = objects;
      let s3 := setReferredObjects s2 self
        (some (RefCountMap.assign key [referredObject] refCountMap))
      Py_INCREF s3 referredObject
  else s1

/-- The function `Object::removeReference(self, key, referredObject)`. -/
def removeReference (s : State) (self : Ptr) (key : String) (referredObject : Ptr) : State :=
  if referredObject = NULL ∨ referredObject = Py_None then s
  else
    match (s.d self).referredObjects with
    | none => s
    | some refCountMap =>
      match RefCountMap.find key refCountMap with
      | none => s
      | some objects =>
        setReferredObjects (decRefPyObjectList s objects NULL) self
          (some (RefCountMap.erase key refCountMap))

/-- The function `Object::clearReferences(self)`. -/
def clearReferences (s : State) (self : Ptr) : State :=
  match (s.d self).referredObjects with
  | none => s
  | some refCountMap =>
    let s1 := refCountMap.foldl (fun st e => decRefPyObjectList st e.2 NULL) s
    -- delete self->d->referredObjects; self->d->referredObjects = 0;
    setReferredObjects s1 self none

/-- The function `Object::deallocData(self, cleanup)`. -/
def deallocData (fuel : Nat) (s : State) (self : Ptr) (cleanup : Bool) : Option State :=
  -- Make cleanup if this is not a wrapper otherwise this will be done on wrapper destructor
  let cleaned : Option State :=
    if cleanup then
      (removeParent s self removeParent_giveOwnershipBack removeParent_keepReference).bind
        fun s1 =>
          (if (s1.d self).parentInfo.isSome then _destroyParentInfo fuel s1 self true
           else some s1).map fun s2 => clearReferences s2 self
    else some s
  cleaned.map fun s3 =>
    let s4 :=
      if (s3.d self).cptr.isSome then
        -- Remove from BindingManager; delete[] self->d->cptr; self->d->cptr = 0; delete self->d;
        let s3r := BindingManager.releaseWrapper s3 self
        s3r.setD self { s3r.d self with cptr := none }
      else s3
    -- Py_XDECREF(self->ob_dict); Py_TYPE(self)->tp_free(self);
    let s5 := Py_XDECREF s4 (s4.ob_dict self)
    { s5 with tp_free_log := self :: s5.tp_free_log }

end Object

/-! ## Deallocation entry points -/

/-- The call `PyObject_ClearWeakRefs(o)` of the interpreter: the weak reference list of `o`
is emptied. -/
def PyObject_ClearWeakRefs (s : State) (o : Ptr) : State :=
  { s with weakreflist := Function.update s.weakreflist o NULL }

/-- A call `dtor(cptr)` through an `ObjectDestructor` pointer; calling a null pointer does
not return. The call is recorded in `dtorCalls`, and next to it, in `dtorFreed`, the wrappers
that had been freed when it was made. -/
def callDestructor (s : State) (dtor cptr : Ptr) : Option State :=
  if dtor = NULL then none
  else some { s with
    dtorCalls := s.dtorCalls ++ [(dtor, cptr)]
    dtorFreed := s.dtorFreed ++ [s.tp_free_log] }

/-- The visitor interface of `walkThroughClassHierarchy`: `visit` folds a node into the
visitor state, `wasFinished` stops the walk. -/
structure HierarchyVisitor (σ : Type) where
  visit : σ → Ptr → σ
  wasFinished : σ → Bool

/-- The `for` loop of `_walkThroughClassHierarchy` over the remaining bases, `recurse` being
the walk of a user-defined base. -/
def walkBases {σ : Type} (s : State) (visitor : HierarchyVisitor σ)
    (recurse : Ptr → σ → Option σ) : List Ptr → σ → Option σ
  | [], acc => some acc
  | type :: rest, acc =>
    if !s.isSbkSubtype type then walkBases s visitor recurse rest acc
    else
      (if (s.typeD type).is_user_type then recurse type acc
       else some (visitor.visit acc type)).bind fun acc1 =>
        if visitor.wasFinished acc1 then some acc1
        else walkBases s visitor recurse rest acc1

/-- The function `_walkThroughClassHierarchy(currentType, visitor)`. -/
def _walkThroughClassHierarchy {σ : Type} (s : State) (visitor : HierarchyVisitor σ) :
    Nat → Ptr → σ → Option σ
  | 0, _, _ => none
  | fuel + 1, currentType, acc =>
    walkBases s visitor (_walkThroughClassHierarchy s visitor fuel) (s.tp_bases currentType) acc

/-- The entry `cptr[i]` of a wrapper, null outside the array. -/
def cptrAt (s : State) (o : Ptr) (i : Nat) : Ptr :=
  ((s.d o).cptr.getD []).getD i NULL

/-- The visitor `DtorCallerVisitor`: `visit` appends the pair
`(m_pyObj->d->cptr[m_ptrs.size()], node)`; it never finishes early. -/
def DtorCallerVisitor (s : State) (m_pyObj : Ptr) : HierarchyVisitor (List (Ptr × Ptr)) where
  visit := fun m_ptrs node => m_ptrs ++ [(cptrAt s m_pyObj m_ptrs.length, node)]
  wasFinished := fun _ => false

/-- The function `DtorCallerVisitor::done()`: tear the wrapper down, then run the collected
destructors in order. -/
def DtorCallerVisitor.done (fuel : Nat) (s : State) (m_pyObj : Ptr)
    (m_ptrs : List (Ptr × Ptr)) : Option State :=
  (Object.deallocData fuel s m_pyObj true).bind fun s1 =>
    m_ptrs.foldlM (fun st e => callDestructor st (st.typeD e.2).cpp_dtor e.1) s1

/-- The function `SbkDeallocWrapper(pyObj)`. -/
def SbkDeallocWrapper (fuel : Nat) (s : State) (pyObj : Ptr) : Option State :=
  let s0 := if s.weakreflist pyObj ≠ NULL then PyObject_ClearWeakRefs s pyObj else s
  -- If I have ownership and is valid delete C++ pointer
  if (s0.d pyObj).hasOwnership && (s0.d pyObj).validCppObject then
    let sbkType := s0.ob_type pyObj
    if (s0.typeD sbkType).is_multicpp then
      (_walkThroughClassHierarchy s0 (DtorCallerVisitor s0 pyObj) fuel sbkType []).bind
        fun m_ptrs => DtorCallerVisitor.done fuel s0 pyObj m_ptrs
    else
      match (s0.d pyObj).cptr with
      | none => none
      | some _ =>
        let cptr := cptrAt s0 pyObj 0
        (Object.deallocData fuel s0 pyObj true).bind fun s1 =>
          callDestructor s1 (s1.typeD sbkType).cpp_dtor cptr
  else
    Object.deallocData fuel s0 pyObj true

/-- The objects kept by wrapper `w` under `key`: the entry of `w->d->referredObjects`, `none`
when there is no table or no entry. -/
def keptUnder (s : State) (w : Ptr) (key : String) : Option (List Ptr) :=
  (s.d w).referredObjects.bind (RefCountMap.find key)

/-- What `invalidate` and `removeParent` may do to a state: the `containsCppWrapper` flags stay,
the validity flag of a wrapper that embeds the native storage stays, an invalid wrapper stays
invalid, children sets only lose members, a wrapper without parent stays without parent, and
the types are untouched. -/
structure InvalidateStep (s s1 : State) : Prop where
  ccw : ∀ x, (s1.d x).containsCppWrapper = (s.d x).containsCppWrapper
  valid_ccw : ∀ x, (s.d x).containsCppWrapper = true →
    (s1.d x).validCppObject = (s.d x).validCppObject
  invalid : ∀ x, (s.d x).validCppObject = false → (s1.d x).validCppObject = false
  children : ∀ p, (childrenOf s1 p).Sublist (childrenOf s p)
  parent_null : ∀ x, parentOf s x = NULL → parentOf s1 x = NULL
  ob_type : s1.ob_type = s.ob_type
  typeD : s1.typeD = s.typeD

/-- The wrapper `d` is `P` itself or a descendant of `P`: it is reached from `P` through
children sets of the state `s`. -/
def InSubtree (s : State) (P d : Ptr) : Prop :=
  Relation.ReflTransGen (fun p c => c ∈ childrenOf s p) P d

/-- The parent/child graph below `R` is a finite tree: every wrapper `p` of the subtree of `R`
has a strictly increasing children set (it is a `std::set`) whose members are wrappers (neither
null nor `None`), name `p` as their parent, and have a smaller `rank` than `p`. -/
def TreeBelow (s : State) (rank : Ptr → Nat) (R : Ptr) : Prop :=
  ∀ p, InSubtree s R p → (childrenOf s p).Sorted (· < ·) ∧
    ∀ c ∈ childrenOf s p, parentOf s c = p ∧ c ≠ NULL ∧ c ≠ Py_None ∧ rank c < rank p

/-- The wrapper `d`, not embedding the native storage in `s0`, is invalid in `s`. -/
def Invalidated (s0 s : State) (d : Ptr) : Prop :=
  (s0.d d).containsCppWrapper = false → (s.d d).validCppObject = false

/-- Every wrapper of the subtree that `c` had in `s0` is `Invalidated` in `s`. -/
def SubtreeInvalidated (s0 s : State) (c : Ptr) : Prop :=
  ∀ d, InSubtree s0 c d → Invalidated s0 s d

/-- Every parent/child edge of `s0` is still present in `s`, or the subtree of the child has
been invalidated. -/
def EdgesAccounted (s0 s : State) : Prop :=
  ∀ p q, q ∈ childrenOf s0 p → q ∈ childrenOf s p ∨ SubtreeInvalidated s0 s q

/-- The state `s1` differs from `s` in validity flags only. -/
def OnlyValidity (s s1 : State) : Prop :=
  ∃ f : Ptr → Bool, s1 = { s with d := fun y => { s.d y with validCppObject := f y } }

/-! ## Sample states -/

/-- A state in which every address holds a freshly allocated wrapper (the fields as
`SbkObjectTpNew` leaves them) with one reference, and the tables are empty. -/
def baseState : State where
  ob_refcnt := fun _ => 1
  ob_type := fun _ => 0
  ob_dict := fun _ => NULL
  weakreflist := fun _ => NULL
  d := fun _ => {}
  typeD := fun _ => {}
  tp_bases := fun _ => []
  isSbkSubtype := fun _ => true
  sequence := fun _ => none
  wrapperMapper := []
  dtorCalls := []
  tp_dealloc_log := []
  tp_free_log := []
  dtorFreed := []

/-- The base state in which wrapper `3` is a child of wrapper `2`. -/
def childState : State :=
  (baseState.setParentInfo 2 (some { children := [3] })).setD 3
    { hasOwnership := false, parentInfo := some { parent := 2 } }

/-- The base state in which wrapper `2` keeps the object `5` under the key `"k"`. -/
def keptState : State :=
  baseState.setD 2 { referredObjects := some [("k", [5])] }

/-- The base state in which wrapper `2` owns the valid native object at `0x1000`, is
registered for it in the binding manager, and every type has the destructor `7`. -/
def deallocState : State :=
  ({ baseState with
      wrapperMapper := [(0x1000, 2)]
      typeD := fun _ => { cpp_dtor := 7 } } : State).setD 2
    { cptr := some [0x1000], hasOwnership := true, validCppObject := true }

/-- The base state with the tree `2 → {3, 4}`, `3 → {5}`; all four wrappers are valid, `3`
embeds its native storage. -/
def treeState : State :=
  (((baseState.setD 2 { validCppObject := true, parentInfo := some { children := [3, 4] } }).setD 3
    { hasOwnership := false, containsCppWrapper := true, validCppObject := true,
      parentInfo := some { parent := 2, children := [5] } }).setD 4
    { hasOwnership := false, validCppObject := true, parentInfo := some { parent := 2 } }).setD 5
    { hasOwnership := false, validCppObject := true, parentInfo := some { parent := 3 } }

/-- A rank for `treeState`: the height of a wrapper in the tree. -/
def treeRank (x : Ptr) : Nat :=
  if x = 2 then 2 else if x = 3 then 1 else 0

/-- The base state in which every type is a value type and wrapper `2` is valid and does not
own its native object. -/
def valueState : State :=
  ({ baseState with typeD := fun _ => { type_behaviour := BEHAVIOUR_VALUETYPE } } : State).setD 2
    { hasOwnership := false, validCppObject := true }

/-! ## Validity test -/

/-- The exception classes raised by the library. -/
inductive PyExc where
  | PyExc_RuntimeError
  | PyExc_OverflowError
  deriving DecidableEq, Repr

/-- The error indicator after `PyErr_Format(exc, format, ...)`: the exception class and the
formatted message. -/
structure PyErr where
  exc : PyExc
  message : String
  deriving DecidableEq, Repr

/-- The function `ObjectType::checkType(type)`. -/
def ObjectType.checkType (s : State) (type : Ptr) : Bool :=
  s.isSbkSubtype type

/-- The function `ObjectType::isUserType(type)`. -/
def ObjectType.isUserType (s : State) (type : Ptr) : Bool :=
  ObjectType.checkType s type && (s.typeD type).is_user_type

/-- The function `Object::isUserType(pyObj)`. -/
def Object.isUserType (s : State) (pyObj : Ptr) : Bool :=
  ObjectType.isUserType s (s.ob_type pyObj)

/-- The function `Object::isValid(SbkObject* pyObj, bool throwPyError)`: the returned flag and
the error the call sets, `none` when it sets none; `tp_name` gives the name of each type. -/
def Object.isValid (tp_name : Ptr → String) (s : State) (pyObj : Ptr) (throwPyError : Bool) :
    Bool × Option PyErr :=
  if pyObj = NULL then (false, none)
  else if !(s.d pyObj).cppObjectCreated && Object.isUserType s pyObj then
    (false,
      if throwPyError then
        some ⟨.PyExc_RuntimeError,
          "Base constructor of the object (" ++ tp_name (s.ob_type pyObj) ++ ") not called."⟩
      else none)
  else if !(s.d pyObj).validCppObject then
    (false,
      if throwPyError then
        some ⟨.PyExc_RuntimeError,
          "Internal C++ object (" ++ tp_name (s.ob_type pyObj) ++ ") already deleted."⟩
      else none)
  else (true, none)

/-! ## Integer conversions -/

/-- A C++ integer type as `std::numeric_limits` describes it: its width in bits and whether it
is signed. -/
structure IntType where
  bits : Nat
  is_signed : Bool
  deriving DecidableEq, Repr

/-- The value `std::numeric_limits<T>::min()`. -/
def IntType.min (T : IntType) : Int :=
  if T.is_signed then -(2 ^ (T.bits - 1)) else 0

/-- The value `std::numeric_limits<T>::max()`. -/
def IntType.max (T : IntType) : Int :=
  if T.is_signed then 2 ^ (T.bits - 1) - 1 else 2 ^ T.bits - 1

/-- The smallest `PY_LONG_LONG`. -/
def LLONG_MIN : Int := -(2 ^ 63)

/-- The largest `PY_LONG_LONG`. -/
def LLONG_MAX : Int := 2 ^ 63 - 1

/-- The conversion `static_cast<T>(value)` of an integer: the value modulo `2 ^ bits`. -/
def static_cast (T : IntType) (value : Int) : Int :=
  if T.is_signed then (value + 2 ^ (T.bits - 1)) % 2 ^ T.bits - 2 ^ (T.bits - 1)
  else value % 2 ^ T.bits

/-- The test `OverFlowChecker<T>::check(value)` of the primary template, for a signed and for
an unsigned `T`. -/
def OverFlowChecker.check (T : IntType) (value : Int) : Bool :=
  if T.is_signed then decide (value < T.min) || decide (value > T.max)
  else decide (value < 0) || decide (value % 2 ^ 64 > T.max)

/-- A C `double`: the finite value `mantissa * 2 ^ exponent`, an infinity or a NaN. -/
inductive Double where
  | finite (mantissa exponent : Int)
  | inf (negative : Bool)
  | nan
  deriving DecidableEq, Repr

/-- The value of a finite `double` with its fraction discarded. -/
def Double.trunc (mantissa exponent : Int) : Int :=
  if 0 ≤ exponent then mantissa * 2 ^ exponent.toNat
  else mantissa.tdiv (2 ^ (-exponent).toNat)

/-- C++ leaves the conversion of a `double` to an integer type undefined when the truncated
value is out of range; these are the results of the usual targets: the x86-64 instruction gives
the "integer indefinite" value `LLONG_MIN`, the AArch64 instruction saturates and gives `0`
for a NaN. -/
inductive FloatConversion where
  | indefinite
  | saturating
  deriving DecidableEq, Repr

/-- The implicit conversion of a `double` to the `const PY_LONG_LONG&` parameter of `check`. -/
def Double.toLongLong (conv : FloatConversion) : Double → Int
  | .finite mantissa exponent =>
    let t := Double.trunc mantissa exponent
    if LLONG_MIN ≤ t ∧ t ≤ LLONG_MAX then t
    else match conv with
      | .indefinite => LLONG_MIN
      | .saturating => if t < 0 then LLONG_MIN else LLONG_MAX
  | .inf negative =>
    match conv with
    | .indefinite => LLONG_MIN
    | .saturating => if negative then LLONG_MIN else LLONG_MAX
  | .nan =>
    match conv with
    | .indefinite => LLONG_MIN
    | .saturating => 0

/-- The Python numbers `IntPrimitive::toCpp` tells apart. -/
inductive PyNumber where
  /-- An object for which `PyFloat_Check` holds, with its `PyFloat_AS_DOUBLE` value. -/
  | PyFloat (value : Double)
  /-- Any other number, with its integer value. -/
  | PyLong (value : Int)
  deriving DecidableEq, Repr

/-- The interpreter call `PyLong_AsLongLong(o)`: the value, or `-1` with an `OverflowError`
when no `PY_LONG_LONG` holds it. -/
def PyLong_AsLongLong (value : Int) : Int × Option PyExc :=
  if LLONG_MIN ≤ value ∧ value ≤ LLONG_MAX then (value, none)
  else (-1, some .PyExc_OverflowError)

/-- The function `IntPrimitive<INT>::toCpp(pyIn)`: the returned value and the error indicator
after the call. The cast of a `double` to `INT` is taken through `PY_LONG_LONG`. -/
def IntPrimitive.toCpp (conv : FloatConversion) (INT : IntType) : PyNumber → Int × Option PyExc
  | .PyFloat value =>
    let result := value.toLongLong conv
    -- If cast to long directly it could overflow silently.
    (static_cast INT result,
      if OverFlowChecker.check INT result then some .PyExc_OverflowError else none)
  | .PyLong value =>
    let result := PyLong_AsLongLong value
    (static_cast INT result.1,
      if OverFlowChecker.check INT result.1 then some .PyExc_OverflowError else result.2)

/-! ## Wrapper construction -/

/-- Modelled from the spec: `BindingManager::registerWrapper` is defined in bindingmanager.cpp,
which is not among the sources; it inserts the mapping, and it fails without overwriting when
the native pointer is registered already. -/
def BindingManager.registerWrapper (s : State) (wrapper cptr : Ptr) : State :=
  if BindingManager.hasWrapper s cptr then s
  else { s with wrapperMapper := (cptr, wrapper) :: s.wrapperMapper }

/-- The functions `newObject` and `SbkObjectTpNew` call that are defined outside
basewrapper.cpp, taken as given. -/
structure TypeFunctions where
  /-- The Python type `TypeResolver::get(typeName)->pythonType()`, `none` when there is no
  resolver of that name. -/
  TypeResolver_get : String → Option Ptr
  /-- The function `BindingManager::resolveType(cptr, type)`. -/
  resolveType : State → Ptr → Ptr → Ptr
  /-- The function `getNumberOfCppBaseClasses(type)`. -/
  getNumberOfCppBaseClasses : State → Ptr → Nat

/-- The function `SbkObjectTpNew(subtype, 0, 0)`; `self` is the address of the object
`PyObject_GC_New` allocates, which the function returns. -/
def SbkObjectTpNew (fns : TypeFunctions) (s : State) (self subtype : Ptr) : State :=
  -- SbkObject* self = PyObject_GC_New(SbkObject, subtype);
  let s1 : State :=
    { s with
      ob_refcnt := Function.update s.ob_refcnt self 1
      ob_type := Function.update s.ob_type self subtype }
  let s2 := Py_INCREF s1 subtype
  let numBases :=
    if (s2.typeD subtype).is_multicpp then fns.getNumberOfCppBaseClasses s2 subtype else 1
  let s3 := s2.setD self
    { cptr := some (List.replicate numBases NULL)
      hasOwnership := true
      containsCppWrapper := false
      validCppObject := false
      parentInfo := none
      referredObjects := none
      cppObjectCreated := false }
  { s3 with
    ob_dict := Function.update s3.ob_dict self NULL
    weakreflist := Function.update s3.weakreflist self NULL }

namespace Object

/-- The function `Object::newObject(instanceType, cptr, hasOwnership, isExactType, typeName)`:
the state after the call and the returned object; `self` is the address of the object that
`SbkObjectTpNew` allocates. -/
def newObject (fns : TypeFunctions) (s : State) (self instanceType cptr : Ptr)
    (hasOwnership isExactType : Bool) (typeName : Option String) : State × Ptr :=
  -- Try to find the exact type of cptr.
  let instanceType1 :=
    if !isExactType then
      match typeName.bind fns.TypeResolver_get with
      | some pythonType => pythonType
      | none => fns.resolveType s cptr instanceType
    else instanceType
  let s1 := SbkObjectTpNew fns s self instanceType1
  let s2 := s1.setD self
    { s1.d self with
      cptr := (s1.d self).cptr.map fun a => a.set 0 cptr
      hasOwnership := hasOwnership
      validCppObject := true }
  (BindingManager.registerWrapper s2 self cptr, self)

end Object

/-- The pointer conversion to Python that `CppGenerator` writes for each wrapped class
(cppgenerator.cpp lines 1043 to 1055): the wrapper registered for the native object is
returned when there is one, and `newObject` is called otherwise. -/
def PTR_CppToPython (fns : TypeFunctions) (s : State) (self cpythonType cppIn : Ptr)
    (typeName : Option String) : State × Ptr :=
  let pyOut := BindingManager.retrieveWrapper s cppIn
  if pyOut ≠ NULL then (Py_INCREF s pyOut, pyOut)
  else Object.newObject fns s self cpythonType cppIn false false typeName

/-- Sample type functions: no resolver by name, and the declared type is the exact type. -/
def sampleTypeFunctions : TypeFunctions where
  TypeResolver_get := fun _ => none
  resolveType := fun _ _ type => type
  getNumberOfCppBaseClasses := fun _ _ => 1

/-! ## Blocks of `setParent` -/

namespace Object

/-- The first block of the body of `setParent`: a parent that has no `ParentInfo` gets an empty
one. -/
def setParent_newParentInfo (s : State) (parent : Ptr) : State :=
  if !(decide (parent = NULL) || decide (parent = Py_None)) && (s.d parent).parentInfo.isNone
  then s.setParentInfo parent (some {})
  else s

/-- The block of `setParent` that removes the child from its old parent: it runs when the new
parent is null or differs from the old one. -/
def setParent_removeOld (s2 : State) (parent child : Ptr) : Option State :=
  if (decide (parent = NULL) || decide (parent = Py_None)) ||
      (match (s2.d child).parentInfo with
       | some pInfo => decide (pInfo.parent ≠ NULL) && decide (pInfo.parent ≠ parent)
       | none => false)
  then removeParent s2 child removeParent_giveOwnershipBack removeParent_keepReference
  else some s2

/-- The block of `setParent` that adds the child to the new parent. -/
def setParent_addChild (s3 : State) (parent child : Ptr) : Option State :=
  let pInfo : ParentInfo := (s3.d child).parentInfo.getD {}
  let s4 := s3.setParentInfo child (some { pInfo with parent := parent })
  match (s4.d parent).parentInfo with
  | none => none
  | some parentPInfo =>
    let s5 := s4.setParentInfo parent
      (some { parentPInfo with children := ChildrenList.insert child parentPInfo.children })
    let s6 := Py_INCREF s5 child
    some (s6.setD child { s6.d child with hasOwnership := false })

end Object

/-- The flag `o->d->parentInfo->hasWrapperRef`, false when there is no `ParentInfo`. -/
def wrapperRefOf (s : State) (o : Ptr) : Bool :=
  match (s.d o).parentInfo with
  | some pInfo => pInfo.hasWrapperRef
  | none => false

/-- One returning call of `setParent` or of `removeParent`. -/
def ParentingCall (s s1 : State) : Prop :=
  (∃ fuel parent child, Object.setParent fuel s parent child = some s1) ∨
  (∃ child giveOwnershipBack keepReference,
    Object.removeParent s child giveOwnershipBack keepReference = some s1)

/-- What stays of a wrapper `y` that is not detached between the states `s` and `s1`: its
reference count, its wrapper reference flag, its parent link, its ownership flag, and whether it
has a `ParentInfo`. -/
def Untouched (s s1 : State) (y : Ptr) : Prop :=
  s1.ob_refcnt y = s.ob_refcnt y ∧ wrapperRefOf s1 y = wrapperRefOf s y ∧
  parentOf s1 y = parentOf s y ∧ (s1.d y).hasOwnership = (s.d y).hasOwnership ∧
  (s1.d y).parentInfo.isSome = (s.d y).parentInfo.isSome

/-- The base state in which the valid wrapper `3` is the child of the valid wrapper `2`; neither
embeds its native storage. -/
def familyState : State :=
  (baseState.setD 2 { validCppObject := true, parentInfo := some { children := [3] } }).setD 3
    { validCppObject := true, hasOwnership := false, parentInfo := some { parent := 2 } }

namespace Object

end Object

/-- One returning call of `setParent`, `removeParent`, `invalidate`, `makeValid`,
`getOwnership` or `releaseOwnership`. -/
def WrapperCall (s s1 : State) : Prop :=
  (∃ fuel parent child, Object.setParent fuel s parent child = some s1) ∨
  (∃ child giveOwnershipBack keepReference,
    Object.removeParent s child giveOwnershipBack keepReference = some s1) ∨
  (∃ fuel self, Object.invalidate fuel s self = some s1) ∨
  (∃ fuel self, Object.makeValid fuel s self = some s1) ∨
  (∃ fuel self, Object.getOwnership fuel s self = some s1) ∨
  (∃ fuel self, Object.releaseOwnership fuel s self = some s1)

/-- The children sets are the inverse of the parent links: a wrapper is in the children set of
`p` exactly when it names `p` as its parent. The sets are strictly increasing, no wrapper is
its own parent, no wrapper holds the wrapper reference, and no wrapper embeds its native
storage. -/
structure LinksInverse (s : State) : Prop where
  inverse : ∀ c p, c ∈ childrenOf s p ↔ parentOf s c = p ∧ p ≠ NULL
  sorted : ∀ p, (childrenOf s p).Sorted (· < ·)
  irrefl : ∀ c, parentOf s c ≠ NULL → parentOf s c ≠ c
  noWrapperRef : ∀ c, wrapperRefOf s c = false
  noCppWrapper : ∀ c, (s.d c).containsCppWrapper = false

/-! ## The number protocol table of the generator (`cppgenerator.cpp`) -/

/-- The type `QMap<QString, QString>`: the entries in increasing key order. It also stands for
`QHash<QString, QString>`, whose order of iteration Qt leaves unspecified. -/
abbrev QMap := List (String × String)

/-- Lexicographic comparison of two sequences of code units. -/
def lexLess : List Nat → List Nat → Bool
  | [], [] => false
  | [], _ :: _ => true
  | _ :: _, [] => false
  | a :: as, b :: bs => a < b || (a = b && lexLess as bs)

/-- The comparison `operator<` of two `QString`: lexicographic on the code units. -/
def QString.less (a b : String) : Bool :=
  lexLess (a.toList.map Char.toNat) (b.toList.map Char.toNat)

/-- The assignment `map[key] = value`: replaces the entry, or inserts it in key order. -/
def QMap.assign (key value : String) : QMap → QMap
  | [] => [(key, value)]
  | (k, v) :: rest =>
    if k = key then (key, value) :: rest
    else if QString.less key k then (key, value) :: (k, v) :: rest
    else (k, v) :: QMap.assign key value rest

/-- The read `map[key]`: the stored value, a default-constructed (empty) `QString` for a key
that is not in the map. -/
def QMap.value (key : String) : QMap → String
  | [] => ""
  | (k, v) :: rest => if k = key then v else QMap.value key rest

/-- The function `keys()`: the keys in increasing order, which is the order of `QMap::keys()`
and one of the orders `QHash::keys()` may give. -/
def QMap.keys (m : QMap) : List String := m.map Prod.fst

/-- The member `m_nbFuncs` (a `QHash<QString, QString>`) as the constructor
`CppGenerator::CppGenerator()` fills it: Python operator name to `PyNumberMethods` member name,
the assignments in source order. -/
def m_nbFuncs : QMap :=
  [("__add__", "nb_add"), ("__sub__", "nb_subtract"), ("__mul__", "nb_multiply"),
   ("__div__", "nb_divide"), ("__mod__", "nb_remainder"), ("__neg__", "nb_negative"),
   ("__pos__", "nb_positive"), ("__invert__", "nb_invert"), ("__lshift__", "nb_lshift"),
   ("__rshift__", "nb_rshift"), ("__and__", "nb_and"), ("__xor__", "nb_xor"),
   ("__or__", "nb_or"), ("__iadd__", "nb_inplace_add"), ("__isub__", "nb_inplace_subtract"),
   ("__imul__", "nb_multiply"), ("__idiv__", "nb_divide"), ("__imod__", "nb_remainder"),
   ("__ilshift__", "nb_inplace_lshift"), ("__irshift__", "nb_inplace_rshift"),
   ("__iand__", "nb_inplace_and"), ("__ixor__", "nb_inplace_xor"), ("__ior__", "nb_inplace_or"),
   ("bool", "nb_nonzero")].foldl (fun m e => QMap.assign e.1 e.2 m) []

/-- The function `CppGenerator::writeTypeAsNumberDefinition(s, metaClass)`. Of the class it
reads the operator overload groups, here `opOverloads`: for each group the pair of
`pythonOperatorFunctionName(rfunc)` and `cpythonFunctionName(rfunc)`; and the name of the bool
cast function, `boolCast`, empty when `hasBoolCast` is false. The result lists the assignments
written to the stream after the `memset`, in order: the `as_number` member and the function
assigned to it. -/
def writeTypeAsNumberDefinition (opOverloads : List (String × String)) (boolCast : String) :
    List (String × String) :=
  let nb0 : QMap :=
    ["__add__", "__sub__", "__mul__", "__div__", "__mod__", "__neg__", "__pos__", "__invert__",
     "__lshift__", "__rshift__", "__and__", "__xor__", "__or__", "__iadd__", "__isub__",
     "__imul__", "__idiv__", "__imod__", "__ilshift__", "__irshift__", "__iand__", "__ixor__",
     "__ior__"].foldl (fun m k => QMap.assign k "" m) []
  -- foreach (opOverload, opOverloads) nb[opName] = cpythonFunctionName(rfunc);
  let nb1 : QMap := opOverloads.foldl (fun m e => QMap.assign e.1 e.2 m) nb0
  let nb : QMap := QMap.assign "bool" boolCast nb1
  let members : List (String × String) :=
    (QMap.keys m_nbFuncs).filterMap fun nbName =>
      if (QMap.value nbName nb).isEmpty then none
      else some (QMap.value nbName m_nbFuncs, QMap.value nbName nb)
  if (QMap.value "__div__" nb).isEmpty then members
  else members ++ [("nb_true_divide", QMap.value "__div__" nb)]

/-! ## The native pointers of a wrapper -/

namespace Object

/-- The index of the native pointer for `desiredType` in a wrapper of type `type`: zero, or
for a multiple-inheritance type `getTypeIndexOnHierarchy(type, desiredType)`, a function of
basewrapper_p.h that reads the class hierarchy only and is taken as a parameter. -/
def cptrIndex (getTypeIndexOnHierarchy : Ptr → Ptr → Nat) (s : State) (type desiredType : Ptr) :
    Nat :=
  if (s.typeD type).is_multicpp then getTypeIndexOnHierarchy type desiredType else 0

/-- The function `Object::cppPointer(pyObj, desiredType)`; `none` when the index is outside
the pointer array. -/
def cppPointer (getTypeIndexOnHierarchy : Ptr → Ptr → Nat) (s : State)
    (pyObj desiredType : Ptr) : Option Ptr :=
  let idx := cptrIndex getTypeIndexOnHierarchy s (s.ob_type pyObj) desiredType
  match (s.d pyObj).cptr with
  | some cptr => cptr.get? idx
  | none => some NULL

/-- The function `Object::setCppPointer(sbkObj, desiredType, cptr)`: the state after the call,
the returned flag and the error the call sets; `none` when the wrapper has no pointer array or
the index is outside it. -/
def setCppPointer (getTypeIndexOnHierarchy : Ptr → Ptr → Nat) (s : State)
    (sbkObj desiredType cptr : Ptr) : Option (State × Bool × Option PyErr) :=
  let idx := cptrIndex getTypeIndexOnHierarchy s (s.ob_type sbkObj) desiredType
  match (s.d sbkObj).cptr with
  | none => none
  | some arr =>
    match arr.get? idx with
    | none => none
    | some old =>
      let alreadyInitialized : Bool := old ≠ NULL
      let s1 :=
        if alreadyInitialized then s
        else s.setD sbkObj { s.d sbkObj with cptr := some (arr.set idx cptr) }
      let s2 := s1.setD sbkObj { s1.d sbkObj with cppObjectCreated := true }
      some (s2, !alreadyInitialized,
        if alreadyInitialized then
          some ⟨.PyExc_RuntimeError, "You can't initialize an object twice!"⟩
        else none)

end Object

/-- A wrapper `2` of a multiple-inheritance type `20` with two native pointers, the first one
set, the second one still null. -/
def pointerState : State :=
  { baseState with
    ob_type := fun o => if o = 2 then 20 else 0
    typeD := fun t => if t = 20 then { is_multicpp := true } else {}
    d := fun o => if o = 2 then { cptr := some [0x1000, NULL] } else {} }

/-! ## Conversion of integers to Python (`sbkconverter.h`) -/

/-- The C type `long` of the 64-bit targets. -/
def IntType.long : IntType := ⟨64, true⟩

/-- The C type `unsigned long` of the 64-bit targets. -/
def IntType.unsigned_long : IntType := ⟨64, false⟩

/-- The function `IntPrimitive<INT>::toPython(cppIn)`, that is `PyInt_FromLong((long)x)` for
the value `x` behind `cppIn`: the Python integer made. -/
def IntPrimitive.toPython (x : Int) : PyNumber :=
  .PyLong (static_cast IntType.long x)

/-- The function `UnsignedLongPrimitive<LONG>::toPython(cppIn)`, that is
`PyLong_FromUnsignedLong(x)` for the value `x` behind `cppIn`. -/
def UnsignedLongPrimitive.toPython (x : Int) : PyNumber :=
  .PyLong (static_cast IntType.unsigned_long x)

/-- The integer types whose `Primitive<T>` derives from `IntPrimitive`. -/
inductive Primitive where
  | int
  | long
  | short
  | unsigned_short
  | unsigned_int
  | unsigned_long
  deriving DecidableEq, Repr

/-- The C type converted, with a 32-bit `int`, a 16-bit `short` and a 64-bit `long`. -/
def Primitive.type : Primitive → IntType
  | .int => ⟨32, true⟩
  | .long => IntType.long
  | .short => ⟨16, true⟩
  | .unsigned_short => ⟨16, false⟩
  | .unsigned_int => ⟨32, false⟩
  | .unsigned_long => IntType.unsigned_long

/-- The function `Primitive<T>::toPython`: `Primitive<unsigned int>` and
`Primitive<unsigned long>` derive from `UnsignedLongPrimitive`, the others from `IntPrimitive`
directly. -/
def Primitive.toPython : Primitive → Int → PyNumber
  | .unsigned_int => UnsignedLongPrimitive.toPython
  | .unsigned_long => UnsignedLongPrimitive.toPython
  | _ => IntPrimitive.toPython

/-- The function `Primitive<T>::toCpp`: `IntPrimitive<T>::toCpp` for each of the types. -/
def Primitive.toCpp (conv : FloatConversion) (T : Primitive) : PyNumber → Int × Option PyExc :=
  IntPrimitive.toCpp conv T.type

/-! ## The string converters (`sbkconverter.h`) -/

/-- A Python object as the string converters tell it apart. -/
inductive PyValue where
  /-- The object `Py_None`. -/
  | None
  /-- An object for which `PyString_Check` holds, with its characters. -/
  | PyString (chars : String)
  /-- Any other object. -/
  | Other
  deriving DecidableEq, Repr

/-- A `const char*`: the null pointer, or a pointer to a character sequence. -/
inductive CharPtr where
  | null
  | chars (s : String)
  deriving DecidableEq, Repr

/-- The interpreter macro `PyString_Check(o)`. -/
def PyString_Check : PyValue → Bool
  | .PyString _ => true
  | _ => false

/-- The interpreter call `PyString_AsString(o)`: the characters of a string, the null pointer
(with a `TypeError`) for any other object. -/
def PyString_AsString : PyValue → CharPtr
  | .PyString chars => .chars chars
  | _ => .null

/-- The constructor `std::string(const char*)`; C++ leaves it undefined for the null pointer,
the result is `none` then. -/
def std_string : CharPtr → Option String
  | .null => none
  | .chars s => some s

/-- The `convert` functions of the string converters, as values of `PythonToCppFunc`. -/
inductive PythonToCppFunc where
  | const_char_ptr_convert
  | std_string_convert
  deriving DecidableEq, Repr

namespace PrimitiveConstCharPtr

/-- The function `Primitive<const char*>::toCpp(pyIn)`. -/
def toCpp (pyIn : PyValue) : CharPtr :=
  if pyIn = .None then .null else PyString_AsString pyIn

/-- The function `Primitive<const char*>::isConvertible(pyIn)`, `none` for the null result. -/
def isConvertible (pyIn : PyValue) : Option PythonToCppFunc :=
  if pyIn = .None ∨ PyString_Check pyIn = true then some .const_char_ptr_convert else none

/-- The function `Primitive<const char*>::convert(pyIn, cppOut)`: the value stored in
`*cppOut`. -/
def convert (pyIn : PyValue) : CharPtr := toCpp pyIn

end PrimitiveConstCharPtr

namespace PrimitiveStdString

/-- The function `Primitive<std::string>::toCpp(pyIn)`: both operands of the conditional
expression are converted to `std::string`, the `0` by the constructor from `const char*`;
`none` when the result is undefined. -/
def toCpp (pyIn : PyValue) : Option String :=
  if pyIn = .None then std_string .null else std_string (PyString_AsString pyIn)

/-- The function `Primitive<std::string>::isConvertible(pyIn)`, `none` for the null result. -/
def isConvertible (pyIn : PyValue) : Option PythonToCppFunc :=
  if pyIn = .None ∨ PyString_Check pyIn = true then some .std_string_convert else none

/-- The function `Primitive<std::string>::convert(pyIn, cppOut)`: the value stored in
`*cppOut`, `none` when the call is undefined. -/
def convert (pyIn : PyValue) : Option String := toCpp pyIn

end PrimitiveStdString

/-! ## Creation of a Python subclass of a wrapped class -/

/-- The visitor that collects the visited types in order. -/
def BaseAccumulatorVisitor : HierarchyVisitor (List Ptr) where
  visit := fun m_bases node => m_bases ++ [node]
  wasFinished := fun _ => false

/-- The state after `setParent(2, 3)` and `setParent(3, 2)` on the base state: `3` is the only
child of `2` and `2` is the only child of `3`. -/
def cycleState : State :=
  ((Object.setParent 1 baseState 2 3).bind fun s1 => Object.setParent 1 s1 3 2).getD baseState

/-! ## The reference table of a wrapper -/

/-- The table `w->d->referredObjects`, empty when the wrapper has none. -/
def referredTable (s : State) (w : Ptr) : RefCountMap :=
  (s.d w).referredObjects.getD []

/-- The number of slot entries of a table that hold the object `o`. -/
def heldCount (m : RefCountMap) (o : Ptr) : Nat :=
  (m.map fun e => e.2.count o).sum

/-- One call of `keepReference`, `removeReference` or `clearReferences` on the wrapper `w`. -/
def ReferenceCall (w : Ptr) (s s1 : State) : Prop :=
  (∃ key referredObject append, s1 = Object.keepReference s w key referredObject append) ∨
  (∃ key referredObject, s1 = Object.removeReference s w key referredObject) ∨
  s1 = Object.clearReferences s w

/-- The reference table of `w` in `s` accounts for the references taken since `s0`: the keys
are strictly increasing, every slot is a non-empty sequence of distinct non-null objects, and
the reference count of every object has grown by the number of slot entries that hold it. -/
structure ReferencesBalanced (s0 s : State) (w : Ptr) : Prop where
  sorted : ((referredTable s w).map Prod.fst).Sorted (· < ·)
  slots : ∀ e ∈ referredTable s w, e.2 ≠ [] ∧ e.2.Nodup ∧ NULL ∉ e.2
  balance : ∀ o, s.ob_refcnt o = s0.ob_refcnt o + heldCount (referredTable s w) o

/-- The base state after wrapper `2` has kept `5` and `6` under `"k"`, replaced them by `7`, and
kept `5` under `"j"`. -/
def balancedState : State :=
  Object.keepReference (Object.keepReference (Object.keepReference (Object.keepReference
    baseState 2 "k" 5 true) 2 "k" 6 true) 2 "k" 7 false) 2 "j" 5 true

/-- The base state with an owning, valid wrapper `2` of the multiple-inheritance type `20`,
whose bases are the wrapped classes `10` (destructor `7`) and `11` (destructor `8`); the
wrapper has one native pointer for each. -/
def multiState : State :=
  ({ baseState with
      ob_type := fun o => if o = 2 then 20 else 0
      tp_bases := fun t => if t = 20 then [10, 11] else []
      typeD := fun t =>
        if t = 20 then { is_multicpp := true, is_user_type := true }
        else if t = 10 then { cpp_dtor := 7 }
        else if t = 11 then { cpp_dtor := 8 }
        else {}
      wrapperMapper := [(0x1000, 2), (0x2000, 2)] } : State).setD 2
    { cptr := some [0x1000, 0x2000], hasOwnership := true, validCppObject := true }

/-- The base state with three valid wrappers, every type having the destructor `7`; wrapper `3`
embeds its native storage. -/
def ccwState : State :=
  ((({ baseState with typeD := fun _ => { cpp_dtor := 7 } } : State).setD 2
    { cptr := some [0x2000], validCppObject := true }).setD 3
    { cptr := some [0x3000], containsCppWrapper := true, validCppObject := true }).setD 4
    { cptr := some [0x4000], validCppObject := true }

/-- The state after `setParent(2, 3)`, `invalidate(2)`, `getOwnership(3)` and `setParent(3, 4)`
on `ccwState`: wrapper `3` is owning, valid, without parent, holds the wrapper reference, and
has the valid child `4`. -/
def wrapperRefState : State :=
  ((Object.setParent 1 ccwState 2 3).bind fun s1 =>
    (Object.invalidate 3 s1 2).bind fun s2 =>
      (Object.getOwnership 3 s2 3).bind fun s3 => Object.setParent 1 s3 3 4).getD ccwState

/-- The state `treeState` in which every type has the destructor `7` and the root `2` has the
native pointer `0x2000`. -/
def parentState : State :=
  ({ treeState with typeD := fun _ => { cpp_dtor := 7 } } : State).setD 2
    { treeState.d 2 with cptr := some [0x2000] }

/-- The state `multiState` in which the wrapper `2` also keeps, under the key `"k"`, the owning
valid wrapper `5` of the single-inheritance type `10`, which has one reference. -/
def keptMultiState : State :=
  (({ multiState with
      ob_type := fun o => if o = 2 then 20 else if o = 5 then 10 else 0 } : State).setD 2
    { multiState.d 2 with referredObjects := some [("k", [5])] }).setD 5
    { cptr := some [0x5000], hasOwnership := true, validCppObject := true }

/-- The state after `setParent(2, 3)`, `invalidate(2)`, `setParent(3, 4)` and
`removeParent(3, true, false)` on `ccwState`. -/
def orphanState : State :=
  ((Object.setParent 1 ccwState 2 3).bind fun s1 =>
    (Object.invalidate 3 s1 2).bind fun s2 =>
      (Object.setParent 1 s2 3 4).bind fun s3 =>
        Object.removeParent s3 3 true false).getD ccwState

/-! # Properties -/

open Object

/-! ## Reading a field after a write -/

section simp_lemmas
variable (s : State) (o x : Ptr)

@[simp] theorem State.setD_d (v : SbkObjectPrivate) :
    (s.setD o v).d x = if x = o then v else s.d x := by
  simp [State.setD, Function.update_apply]

@[simp] theorem State.setD_ob_refcnt (v : SbkObjectPrivate) : (s.setD o v).ob_refcnt = s.ob_refcnt := rfl

@[simp] theorem State.setD_ob_type (v : SbkObjectPrivate) : (s.setD o v).ob_type = s.ob_type := rfl

@[simp] theorem State.setD_ob_dict (v : SbkObjectPrivate) : (s.setD o v).ob_dict = s.ob_dict := rfl

@[simp] theorem State.setD_weakreflist (v : SbkObjectPrivate) : (s.setD o v).weakreflist = s.weakreflist := rfl

@[simp] theorem State.setD_typeD (v : SbkObjectPrivate) : (s.setD o v).typeD = s.typeD := rfl

@[simp] theorem State.setD_tp_bases (v : SbkObjectPrivate) : (s.setD o v).tp_bases = s.tp_bases := rfl

@[simp] theorem State.setD_isSbkSubtype (v : SbkObjectPrivate) : (s.setD o v).isSbkSubtype = s.isSbkSubtype := rfl

@[simp] theorem State.setD_sequence (v : SbkObjectPrivate) : (s.setD o v).sequence = s.sequence := rfl

@[simp] theorem State.setD_wrapperMapper (v : SbkObjectPrivate) : (s.setD o v).wrapperMapper = s.wrapperMapper := rfl

@[simp] theorem State.setD_dtorCalls (v : SbkObjectPrivate) : (s.setD o v).dtorCalls = s.dtorCalls := rfl

@[simp] theorem State.setD_tp_dealloc_log (v : SbkObjectPrivate) : (s.setD o v).tp_dealloc_log = s.tp_dealloc_log := rfl

@[simp] theorem State.setD_tp_free_log (v : SbkObjectPrivate) : (s.setD o v).tp_free_log = s.tp_free_log := rfl

@[simp] theorem State.setD_dtorFreed (v : SbkObjectPrivate) : (s.setD o v).dtorFreed = s.dtorFreed := rfl

@[simp] theorem Py_INCREF_ob_refcnt :
    (Py_INCREF s o).ob_refcnt x = if x = o then s.ob_refcnt o + 1 else s.ob_refcnt x := by
  simp [Py_INCREF, Function.update_apply]

@[simp] theorem Py_INCREF_ob_type : (Py_INCREF s o).ob_type = s.ob_type := rfl

@[simp] theorem Py_INCREF_ob_dict : (Py_INCREF s o).ob_dict = s.ob_dict := rfl

@[simp] theorem Py_INCREF_weakreflist : (Py_INCREF s o).weakreflist = s.weakreflist := rfl

@[simp] theorem Py_INCREF_d : (Py_INCREF s o).d = s.d := rfl

@[simp] theorem Py_INCREF_typeD : (Py_INCREF s o).typeD = s.typeD := rfl

@[simp] theorem Py_INCREF_tp_bases : (Py_INCREF s o).tp_bases = s.tp_bases := rfl

@[simp] theorem Py_INCREF_isSbkSubtype : (Py_INCREF s o).isSbkSubtype = s.isSbkSubtype := rfl

@[simp] theorem Py_INCREF_sequence : (Py_INCREF s o).sequence = s.sequence := rfl

@[simp] theorem Py_INCREF_wrapperMapper : (Py_INCREF s o).wrapperMapper = s.wrapperMapper := rfl

@[simp] theorem Py_INCREF_dtorCalls : (Py_INCREF s o).dtorCalls = s.dtorCalls := rfl

@[simp] theorem Py_INCREF_tp_dealloc_log : (Py_INCREF s o).tp_dealloc_log = s.tp_dealloc_log := rfl

@[simp] theorem Py_INCREF_tp_free_log : (Py_INCREF s o).tp_free_log = s.tp_free_log := rfl

@[simp] theorem Py_INCREF_dtorFreed : (Py_INCREF s o).dtorFreed = s.dtorFreed := rfl

@[simp] theorem Py_DECREF_ob_refcnt :
    (Py_DECREF s o).ob_refcnt x = if x = o then s.ob_refcnt o - 1 else s.ob_refcnt x := by
  simp [Py_DECREF, Function.update_apply]

@[simp] theorem Py_DECREF_ob_type : (Py_DECREF s o).ob_type = s.ob_type := rfl

@[simp] theorem Py_DECREF_ob_dict : (Py_DECREF s o).ob_dict = s.ob_dict := rfl

@[simp] theorem Py_DECREF_weakreflist : (Py_DECREF s o).weakreflist = s.weakreflist := rfl

@[simp] theorem Py_DECREF_d : (Py_DECREF s o).d = s.d := rfl

@[simp] theorem Py_DECREF_typeD : (Py_DECREF s o).typeD = s.typeD := rfl

@[simp] theorem Py_DECREF_tp_bases : (Py_DECREF s o).tp_bases = s.tp_bases := rfl

@[simp] theorem Py_DECREF_isSbkSubtype : (Py_DECREF s o).isSbkSubtype = s.isSbkSubtype := rfl

@[simp] theorem Py_DECREF_sequence : (Py_DECREF s o).sequence = s.sequence := rfl

@[simp] theorem Py_DECREF_wrapperMapper : (Py_DECREF s o).wrapperMapper = s.wrapperMapper := rfl

@[simp] theorem Py_DECREF_dtorCalls : (Py_DECREF s o).dtorCalls = s.dtorCalls := rfl

@[simp] theorem Py_DECREF_tp_dealloc_log :
    (Py_DECREF s o).tp_dealloc_log =
      if s.ob_refcnt o - 1 = 0 then o :: s.tp_dealloc_log else s.tp_dealloc_log := rfl

@[simp] theorem Py_DECREF_tp_free_log : (Py_DECREF s o).tp_free_log = s.tp_free_log := rfl

@[simp] theorem Py_DECREF_dtorFreed : (Py_DECREF s o).dtorFreed = s.dtorFreed := rfl

@[simp] theorem BindingManager.releaseWrapper_ob_refcnt :
    (BindingManager.releaseWrapper s o).ob_refcnt = s.ob_refcnt := rfl

@[simp] theorem BindingManager.releaseWrapper_ob_type :
    (BindingManager.releaseWrapper s o).ob_type = s.ob_type := rfl

@[simp] theorem BindingManager.releaseWrapper_ob_dict :
    (BindingManager.releaseWrapper s o).ob_dict = s.ob_dict := rfl

@[simp] theorem BindingManager.releaseWrapper_weakreflist :
    (BindingManager.releaseWrapper s o).weakreflist = s.weakreflist := rfl

@[simp] theorem BindingManager.releaseWrapper_d :
    (BindingManager.releaseWrapper s o).d = s.d := rfl

@[simp] theorem BindingManager.releaseWrapper_typeD :
    (BindingManager.releaseWrapper s o).typeD = s.typeD := rfl

@[simp] theorem BindingManager.releaseWrapper_tp_bases :
    (BindingManager.releaseWrapper s o).tp_bases = s.tp_bases := rfl

@[simp] theorem BindingManager.releaseWrapper_isSbkSubtype :
    (BindingManager.releaseWrapper s o).isSbkSubtype = s.isSbkSubtype := rfl

@[simp] theorem BindingManager.releaseWrapper_sequence :
    (BindingManager.releaseWrapper s o).sequence = s.sequence := rfl

@[simp] theorem BindingManager.releaseWrapper_wrapperMapper :
    (BindingManager.releaseWrapper s o).wrapperMapper =
      s.wrapperMapper.filter (fun e => e.2 ≠ o) := rfl

@[simp] theorem BindingManager.releaseWrapper_dtorCalls :
    (BindingManager.releaseWrapper s o).dtorCalls = s.dtorCalls := rfl

@[simp] theorem BindingManager.releaseWrapper_tp_dealloc_log :
    (BindingManager.releaseWrapper s o).tp_dealloc_log = s.tp_dealloc_log := rfl

@[simp] theorem BindingManager.releaseWrapper_tp_free_log :
    (BindingManager.releaseWrapper s o).tp_free_log = s.tp_free_log := rfl

@[simp] theorem BindingManager.releaseWrapper_dtorFreed :
    (BindingManager.releaseWrapper s o).dtorFreed = s.dtorFreed := rfl

@[simp] theorem State.setD_setD (v w : SbkObjectPrivate) :
    (s.setD o v).setD o w = s.setD o w := by
  simp [State.setD]

end simp_lemmas

/-! ## Children sets -/

theorem ChildrenList.mem_insert (x z : Ptr) (l : ChildrenList) :
    z ∈ ChildrenList.insert x l ↔ z = x ∨ z ∈ l := by
  induction l with
  | nil => simp [ChildrenList.insert]
  | cons y ys ih =>
    unfold ChildrenList.insert
    split_ifs with h1 h2
    · simp
    · subst h2; simp
    · simp [ih]; tauto

theorem ChildrenList.sorted_insert (x : Ptr) (l : ChildrenList) (h : l.Sorted (· < ·)) :
    (ChildrenList.insert x l).Sorted (· < ·) := by
  induction l with
  | nil => simp [ChildrenList.insert]
  | cons y ys ih =>
    unfold ChildrenList.insert
    rw [List.sorted_cons] at h
    split_ifs with h1 h2
    · refine List.sorted_cons.2 ⟨?_, List.sorted_cons.2 h⟩
      intro b hb
      rcases List.mem_cons.1 hb with rfl | hb
      · exact h1
      · exact lt_trans h1 (h.1 b hb)
    · exact List.sorted_cons.2 h
    · refine List.sorted_cons.2 ⟨?_, ih h.2⟩
      intro b hb
      have hyx : y < x := lt_of_le_of_ne (not_lt.1 h1) (Ne.symm h2)
      rcases (ChildrenList.mem_insert x b ys).1 hb with rfl | hb
      · exact hyx
      · exact h.1 b hb

theorem ChildrenList.count_insert (x : Ptr) (l : ChildrenList) (h : l.Sorted (· < ·)) :
    (ChildrenList.insert x l).count x = 1 :=
  List.count_eq_one_of_mem (ChildrenList.sorted_insert x l h).nodup
    ((ChildrenList.mem_insert x x l).2 (Or.inl rfl))

/-! ## setParent -/

/-- On a wrapper child `setParent` runs the body below the sequence test. -/
theorem setParent_wrapper (n : Nat) (s : State) (parent child : Ptr)
    (h0 : child ≠ NULL) (h1 : child ≠ Py_None) (h2 : child ≠ parent)
    (hw : checkType s child = true) :
    setParent (n + 1) s parent child = setParentOfWrapper s parent child := by
  simp [setParent, h0, h1, h2, hw]

/-- Attaching a parentless child. -/
theorem setParentOfWrapper_attach (s : State) (A B : Ptr)
    (hA0 : A ≠ NULL) (hA1 : A ≠ Py_None) (hAB : A ≠ B) (hBp : parentOf s B = NULL) :
    ∃ s1, setParentOfWrapper s A B = some s1 ∧
      parentOf s1 B = A ∧ childrenOf s1 A = ChildrenList.insert B (childrenOf s A) ∧
      (∀ x, x ≠ A → childrenOf s1 x = childrenOf s x) ∧
      (s1.d B).hasOwnership = false ∧
      (∀ x, s1.ob_refcnt x = if x = B then s.ob_refcnt B + 1 else s.ob_refcnt x) ∧
      (s.ob_refcnt B + 1 ≠ 0 → s1.tp_dealloc_log = s.tp_dealloc_log) ∧
      s1.ob_type = s.ob_type ∧ s1.isSbkSubtype = s.isSbkSubtype ∧ s1.sequence = s.sequence := by
  have hBA : B ≠ A := Ne.symm hAB
  have hA0' : NULL ≠ A := Ne.symm hA0
  unfold setParentOfWrapper
  cases hpa : (s.d A).parentInfo <;> cases hpb : (s.d B).parentInfo <;>
  simp_all [parentOf, childrenOf, State.setParentInfo] <;>
  intro x hx <;> split_ifs <;> simp_all

/-- A child that already names the parent is not added again. -/
theorem setParentOfWrapper_same (s : State) (A B : Ptr)
    (hA0 : A ≠ NULL) (hA1 : A ≠ Py_None) (hBp : parentOf s B = A)
    (hA : (s.d A).parentInfo ≠ none) :
    setParentOfWrapper s A B = some s := by
  unfold setParentOfWrapper
  cases hpa : (s.d A).parentInfo <;> cases hpb : (s.d B).parentInfo <;>
  simp_all [parentOf, childrenOf, State.setParentInfo]

/-- Detaching a child of `A` by passing a null or `None` parent. -/
theorem setParentOfWrapper_detach (s : State) (A B N : Ptr)
    (hN : N = NULL ∨ N = Py_None) (hA0 : A ≠ NULL) (hAB : A ≠ B)
    (hBp : parentOf s B = A) (hBc : B ∈ childrenOf s A) :
    ∃ s1, setParentOfWrapper s N B = some s1 ∧
      parentOf s1 B = NULL ∧ childrenOf s1 A = (childrenOf s A).erase B ∧
      (s1.d B).hasOwnership = true ∧
      (∀ x, s1.ob_refcnt x = if x = B then s.ob_refcnt B - 1 else s.ob_refcnt x) ∧
      (s.ob_refcnt B ≠ 0 → s.ob_refcnt B ≠ 1 → s1.tp_dealloc_log = s.tp_dealloc_log) := by
  have hBA : B ≠ A := Ne.symm hAB
  have hA0' : NULL ≠ A := Ne.symm hA0
  unfold setParentOfWrapper removeParent
  rcases hpb : (s.d B).parentInfo with _ | pb
  · simp_all [parentOf]
  rcases hpa : (s.d A).parentInfo with _ | pa
  · simp_all [childrenOf]
  by_cases hch : pb.children = [] <;> rcases hN with rfl | rfl <;>
  simp_all [parentOf, childrenOf, State.setParentInfo, removeParent_giveOwnershipBack,
    removeParent_keepReference] <;>
  omega

/-- Moving a child of `A` to another parent `C`, the child not being its own parent. -/
theorem setParentOfWrapper_reparent_ne (s : State) (A B C : Ptr)
    (hC0 : C ≠ NULL) (hC1 : C ≠ Py_None) (hA0 : A ≠ NULL)
    (hAB : A ≠ B) (hAC : A ≠ C) (hCB : C ≠ B)
    (hBp : parentOf s B = A) (hBc : B ∈ childrenOf s A) :
    ∃ s1, setParentOfWrapper s C B = some s1 ∧
      parentOf s1 B = C ∧ childrenOf s1 C = ChildrenList.insert B (childrenOf s C) ∧
      childrenOf s1 A = (childrenOf s A).erase B ∧
      (s1.d B).hasOwnership = false ∧
      (∀ x, s1.ob_refcnt x = s.ob_refcnt x) ∧
      (s.ob_refcnt B ≠ 0 → s1.tp_dealloc_log = s.tp_dealloc_log) ∧
      s1.ob_type = s.ob_type ∧ s1.isSbkSubtype = s.isSbkSubtype ∧ s1.sequence = s.sequence := by
  have hBA : B ≠ A := Ne.symm hAB
  have hA0' : NULL ≠ A := Ne.symm hA0
  have hCA : C ≠ A := Ne.symm hAC
  have hBC : B ≠ C := Ne.symm hCB
  unfold setParentOfWrapper removeParent
  rcases hpb : (s.d B).parentInfo with _ | pb
  · simp_all [parentOf]
  by_cases hch : pb.children = [] <;>
  cases hpa : (s.d A).parentInfo <;> cases hpc : (s.d C).parentInfo <;>
  simp_all [parentOf, childrenOf, State.setParentInfo, removeParent_giveOwnershipBack,
    removeParent_keepReference]

/-- Moving a child of `A` to another parent `C`. -/
theorem setParentOfWrapper_reparent (s : State) (A B C : Ptr)
    (hC0 : C ≠ NULL) (hC1 : C ≠ Py_None) (hA0 : A ≠ NULL) (hAC : A ≠ C) (hCB : C ≠ B)
    (hBp : parentOf s B = A) (hBc : B ∈ childrenOf s A) :
    ∃ s1, setParentOfWrapper s C B = some s1 ∧
      parentOf s1 B = C ∧ childrenOf s1 C = ChildrenList.insert B (childrenOf s C) ∧
      childrenOf s1 A = (childrenOf s A).erase B ∧
      (s1.d B).hasOwnership = false ∧
      (∀ x, s1.ob_refcnt x = s.ob_refcnt x) ∧
      (s.ob_refcnt B ≠ 0 → s1.tp_dealloc_log = s.tp_dealloc_log) ∧
      s1.ob_type = s.ob_type ∧ s1.isSbkSubtype = s.isSbkSubtype ∧ s1.sequence = s.sequence := by
  by_cases hAB : A = B
  · subst hAB
    have hBC : A ≠ C := Ne.symm hCB
    have hA0' : NULL ≠ A := Ne.symm hA0
    unfold setParentOfWrapper removeParent
    rcases hpb : (s.d A).parentInfo with _ | pb
    · simp_all [parentOf]
    by_cases hch : pb.children.erase A = [] <;>
    cases hpc : (s.d C).parentInfo <;>
    simp_all [parentOf, childrenOf, State.setParentInfo, removeParent_giveOwnershipBack,
      removeParent_keepReference]
  · exact setParentOfWrapper_reparent_ne s A B C hC0 hC1 hA0 hAB hAC hCB hBp hBc

theorem parentInfo_ne_none_of_mem (s : State) (p c : Ptr) (h : c ∈ childrenOf s p) :
    (s.d p).parentInfo ≠ none := by
  intro hn
  simp [childrenOf, hn] at h

/-- C1 (amended): for distinct wrappers `A` and `B`, the children set of `A` being a set and
`B`, when it names a parent, being a member of that parent's children set: a second
`setParent(A, B)` changes nothing after the first one; after them `B` occurs exactly once in
the children set of `A` and names `A` as its parent. The reference count of `B` is one
higher than before the first call when `B` had no parent before it, and unchanged when `B`
already had one. -/
theorem setParent_twice (n : Nat) (s : State) (A B : Ptr)
    (hA : A ≠ NULL ∧ A ≠ Py_None) (hB : B ≠ NULL ∧ B ≠ Py_None) (hAB : A ≠ B)
    (hBw : checkType s B = true) (hsA : (childrenOf s A).Sorted (· < ·))
    (hBc : parentOf s B ≠ NULL → B ∈ childrenOf s (parentOf s B)) :
    ∃ s1, setParent (n + 1) s A B = some s1 ∧ setParent (n + 1) s1 A B = some s1 ∧
      (childrenOf s1 A).count B = 1 ∧ parentOf s1 B = A ∧
      (parentOf s B = NULL → s1.ob_refcnt B = s.ob_refcnt B + 1) ∧
      (parentOf s B ≠ NULL → s1.ob_refcnt B = s.ob_refcnt B) := by
  obtain ⟨hA0, hA1⟩ := hA
  obtain ⟨hB0, hB1⟩ := hB
  have hBA : B ≠ A := Ne.symm hAB
  rw [setParent_wrapper n s A B hB0 hB1 hBA hBw]
  by_cases hp0 : parentOf s B = NULL
  · obtain ⟨s1, h1, hpar, hch, -, -, href, -, hty, hsub, -⟩ :=
      setParentOfWrapper_attach s A B hA0 hA1 hAB hp0
    have hmem : B ∈ childrenOf s1 A := by
      rw [hch]; exact (ChildrenList.mem_insert B B _).2 (Or.inl rfl)
    refine ⟨s1, h1, ?_, ?_, hpar, ?_, fun h => absurd hp0 h⟩
    · rw [setParent_wrapper n s1 A B hB0 hB1 hBA (by simpa [checkType, hty, hsub] using hBw)]
      exact setParentOfWrapper_same s1 A B hA0 hA1 hpar (parentInfo_ne_none_of_mem s1 A B hmem)
    · rw [hch]; exact ChildrenList.count_insert B _ hsA
    · intro _; simpa using href B
  by_cases hpA : parentOf s B = A
  · have hmem : B ∈ childrenOf s A := by
      have := hBc hp0
      rwa [hpA] at this
    have hsame := setParentOfWrapper_same s A B hA0 hA1 hpA (parentInfo_ne_none_of_mem s A B hmem)
    refine ⟨s, hsame, ?_, ?_, hpA, fun h => absurd h hp0, fun _ => rfl⟩
    · rw [setParent_wrapper n s A B hB0 hB1 hBA hBw]; exact hsame
    · exact List.count_eq_one_of_mem hsA.nodup hmem
  · obtain ⟨s1, h1, hpar, hch, -, -, href, -, hty, hsub, -⟩ :=
      setParentOfWrapper_reparent s (parentOf s B) B A hA0 hA1 hp0 hpA hAB rfl
        (hBc hp0)
    have hmem : B ∈ childrenOf s1 A := by
      rw [hch]; exact (ChildrenList.mem_insert B B _).2 (Or.inl rfl)
    refine ⟨s1, h1, ?_, ?_, hpar, fun h => absurd h hp0, fun _ => href B⟩
    · rw [setParent_wrapper n s1 A B hB0 hB1 hBA (by simpa [checkType, hty, hsub] using hBw)]
      exact setParentOfWrapper_same s1 A B hA0 hA1 hpar (parentInfo_ne_none_of_mem s1 A B hmem)
    · rw [hch]; exact ChildrenList.count_insert B _ hsA

/-- C1, witness: wrapper `3`, a child of `2`, is given the parent `4` twice. -/
theorem setParent_twice_witness :
    ∃ s1, setParent 1 childState 4 3 = some s1 ∧ setParent 1 s1 4 3 = some s1 ∧
      (childrenOf s1 4).count 3 = 1 ∧ parentOf s1 3 = 4 ∧
      (parentOf childState 3 = NULL → s1.ob_refcnt 3 = childState.ob_refcnt 3 + 1) ∧
      (parentOf childState 3 ≠ NULL → s1.ob_refcnt 3 = childState.ob_refcnt 3) :=
  setParent_twice 0 childState 4 3 ⟨by decide, by decide⟩ ⟨by decide, by decide⟩ (by decide)
    (by decide) (by decide) (by decide)

/-- C1, counterexample: wrapper `3` is already a child of `2` and holds one reference; after
two calls `setParent(2, 3)` it still holds one reference, not two. -/
theorem setParent_twice_counterexample :
    childState.ob_refcnt 3 = 1 ∧ parentOf childState 3 = 2 ∧ childrenOf childState 2 = [3] ∧
    ((setParent 1 childState 2 3).bind fun s1 => setParent 1 s1 2 3).map
      (fun s2 => s2.ob_refcnt 3) = some 1 := by
  decide

/-- C2: for distinct wrappers `A` and `B`, `B` without a parent, `setParent(A, B)` followed by
`setParent(None, B)` (or a null parent) leaves `B` owning its native object, without a parent
and outside the children set of `A`; its reference count is back to the initial one and, `B`
being alive, no deallocation was triggered. -/
theorem setParent_then_detach (n : Nat) (s : State) (A B N : Ptr)
    (hA : A ≠ NULL ∧ A ≠ Py_None) (hB : B ≠ NULL ∧ B ≠ Py_None) (hAB : A ≠ B)
    (hN : N = NULL ∨ N = Py_None) (hBw : checkType s B = true)
    (hBp : parentOf s B = NULL) (hs : (childrenOf s A).Sorted (· < ·)) :
    ∃ s1 s2, setParent (n + 1) s A B = some s1 ∧ setParent (n + 1) s1 N B = some s2 ∧
      (s2.d B).hasOwnership = true ∧ parentOf s2 B = NULL ∧ B ∉ childrenOf s2 A ∧
      s2.ob_refcnt B = s.ob_refcnt B ∧
      (0 < s.ob_refcnt B → s2.tp_dealloc_log = s.tp_dealloc_log) := by
  obtain ⟨hA0, hA1⟩ := hA
  obtain ⟨hB0, hB1⟩ := hB
  have hBA : B ≠ A := Ne.symm hAB
  have hBN : B ≠ N := by rcases hN with rfl | rfl <;> assumption
  obtain ⟨s1, h1, hpar, hch, -, -, href, hlog, hty, hsub, -⟩ :=
    setParentOfWrapper_attach s A B hA0 hA1 hAB hBp
  have hmem : B ∈ childrenOf s1 A := by
    rw [hch]; exact (ChildrenList.mem_insert B B _).2 (Or.inl rfl)
  obtain ⟨s2, h2, hpar2, hch2, hown2, href2, hlog2⟩ :=
    setParentOfWrapper_detach s1 A B N hN hA0 hAB hpar hmem
  refine ⟨s1, s2, ?_, ?_, hown2, hpar2, ?_, ?_, ?_⟩
  · rw [setParent_wrapper n s A B hB0 hB1 hBA hBw]; exact h1
  · rw [setParent_wrapper n s1 N B hB0 hB1 hBN (by simpa [checkType, hty, hsub] using hBw)]
    exact h2
  · rw [hch2, hch]
    intro hmem2
    exact ((ChildrenList.sorted_insert B _ hs).nodup.mem_erase_iff.1 hmem2).1 rfl
  · rw [href2 B, href B]; simp
  · intro hpos
    have e1 : s1.ob_refcnt B = s.ob_refcnt B + 1 := by simpa using href B
    rw [hlog2 (by omega) (by omega), hlog (by omega)]

/-- C2, witness: wrapper `3` is attached to `2` in the base state and detached again. -/
theorem setParent_then_detach_witness :
    ∃ s1 s2, setParent 1 baseState 2 3 = some s1 ∧ setParent 1 s1 Py_None 3 = some s2 ∧
      (s2.d 3).hasOwnership = true ∧ parentOf s2 3 = NULL ∧ 3 ∉ childrenOf s2 2 ∧
      s2.ob_refcnt 3 = baseState.ob_refcnt 3 ∧
      (0 < baseState.ob_refcnt 3 → s2.tp_dealloc_log = baseState.tp_dealloc_log) :=
  setParent_then_detach 0 baseState 2 3 Py_None ⟨by decide, by decide⟩ ⟨by decide, by decide⟩
    (by decide) (Or.inr rfl) (by decide) (by decide) (by decide)

theorem RefCountMap.find_assign (key : String) (v : List Ptr) (m : RefCountMap) :
    RefCountMap.find key (RefCountMap.assign key v m) = some v := by
  induction m with
  | nil => simp [RefCountMap.assign, RefCountMap.find]
  | cons e rest ih =>
    obtain ⟨k, w⟩ := e
    unfold RefCountMap.assign
    split_ifs with h1 h2
    · simp [RefCountMap.find]
    · simp [RefCountMap.find]
    · simp [RefCountMap.find, h1, ih]

theorem RefCountMap.find_erase (key : String) (m : RefCountMap)
    (h : (m.map Prod.fst).Nodup) : RefCountMap.find key (RefCountMap.erase key m) = none := by
  induction m with
  | nil => simp [RefCountMap.erase, RefCountMap.find]
  | cons e rest ih =>
    obtain ⟨k, w⟩ := e
    simp only [List.map_cons, List.nodup_cons, List.mem_map, not_exists, not_and] at h
    unfold RefCountMap.erase
    split_ifs with h1
    · subst h1
      have hrest : ∀ r : RefCountMap, (∀ x ∈ r, x.1 ≠ k) → RefCountMap.find k r = none := by
        intro r
        induction r with
        | nil => intro _; rfl
        | cons e2 r2 ih2 =>
          intro hr
          obtain ⟨k2, w2⟩ := e2
          have hk : k2 ≠ k := hr (k2, w2) (List.mem_cons_self _ _)
          simp only [RefCountMap.find, hk, if_false]
          exact ih2 fun x hx => hr x (List.mem_cons_of_mem _ hx)
      exact hrest rest fun x hx hxk => h.1 x hx hxk
    · simp [RefCountMap.find, h1, ih h.2]

theorem decRefPyObjectList_d (s : State) (l : List Ptr) (skip : Ptr) :
    (decRefPyObjectList s l skip).d = s.d := by
  induction l generalizing s with
  | nil => rfl
  | cons a l ih =>
    simp only [decRefPyObjectList, List.foldl_cons] at ih ⊢
    rw [ih]
    split_ifs <;> rfl

theorem decRefPyObjectList_ob_refcnt (s : State) (l : List Ptr) (skip x : Ptr) :
    (decRefPyObjectList s l skip).ob_refcnt x =
      s.ob_refcnt x - (if x = skip then 0 else (l.count x : Int)) := by
  induction l generalizing s with
  | nil => simp [decRefPyObjectList]
  | cons a l ih =>
    simp only [decRefPyObjectList, List.foldl_cons] at ih ⊢
    rw [ih]
    by_cases hx : x = skip
    · subst hx
      by_cases ha : a = x
      · simp [ha]
      · simp [ha, Ne.symm ha]
    · by_cases ha : a = skip
      · subst ha
        simp [hx, List.count_cons, Ne.symm hx]
      · by_cases hax : x = a
        · subst hax
          simp [hx, List.count_cons]
          omega
        · simp [hx, ha, hax, List.count_cons, Ne.symm hax]
theorem keptUnder_setReferredObjects (s : State) (w : Ptr) (key : String)
    (m : Option RefCountMap) :
    keptUnder (setReferredObjects s w m) w key = m.bind (RefCountMap.find key) := by
  simp [keptUnder, setReferredObjects]

/-- The result of `keepReference` in replace mode for an object that is not under the key. -/
theorem keepReference_replace_eq (s : State) (w : Ptr) (key : String) (obj : Ptr)
    (h0 : obj ≠ NULL) (h1 : obj ≠ Py_None) (hnew : obj ∉ (keptUnder s w key).getD []) :
    keepReference s w key obj false =
      Py_INCREF (setReferredObjects (decRefPyObjectList s ((keptUnder s w key).getD []) obj) w
        (some (RefCountMap.assign key [obj] ((s.d w).referredObjects.getD [])))) obj := by
  unfold keepReference
  rcases hm : (s.d w).referredObjects with _ | m
  · simp [keptUnder, hm, setReferredObjects, RefCountMap.find, h0, h1, decRefPyObjectList,
      State.setD]
  · rcases hf : RefCountMap.find key m with _ | objects
    · simp [keptUnder, hm, hf, h0, h1, decRefPyObjectList]
    · have hno : obj ∉ objects := by simpa [keptUnder, hm, hf] using hnew
      cases objects with
      | nil => simp [keptUnder, hm, hf, h0, h1, decRefPyObjectList]
      | cons a l => simp [keptUnder, hm, hf, h0, h1, hno] at hno ⊢


/-- A `keepReference` for an object that is already under the key returns early; the table
exists, so nothing at all changes. -/
theorem keepReference_present (s : State) (w : Ptr) (key : String) (obj : Ptr) (append : Bool)
    (l : List Ptr) (hl : keptUnder s w key = some l) (hmem : obj ∈ l) :
    keepReference s w key obj append = s := by
  unfold keepReference
  rcases hm : (s.d w).referredObjects with _ | m
  · simp [keptUnder, hm] at hl
  · simp only [keptUnder, hm, Option.some_bind] at hl
    simp [hm, hl, hmem]

/-- C7 (amended): `keepReference(w, key, obj, append=false)` for an object `obj` that is neither
null nor `None` and is not held under `key` together with other objects (it is not in the
slot, or it is the only element of the slot): afterwards the slot holds exactly `[obj]`, every
other object held under `key` before has been released once per entry, `obj` has gained one
reference unless it was already the content of the slot, and a further
`keepReference(w, key, obj2, false)` leaves only `obj2` under the key. -/
theorem keepReference_replace (s : State) (w : Ptr) (key : String) (obj obj2 : Ptr)
    (h0 : obj ≠ NULL) (h1 : obj ≠ Py_None)
    (hnew : obj ∈ (keptUnder s w key).getD [] → keptUnder s w key = some [obj])
    (h20 : obj2 ≠ NULL) (h21 : obj2 ≠ Py_None) :
    keptUnder (keepReference s w key obj false) w key = some [obj] ∧
    (∀ x, x ≠ obj → (keepReference s w key obj false).ob_refcnt x =
      s.ob_refcnt x - (((keptUnder s w key).getD []).count x : Int)) ∧
    (keepReference s w key obj false).ob_refcnt obj =
      s.ob_refcnt obj + (if obj ∈ (keptUnder s w key).getD [] then 0 else 1) ∧
    keptUnder (keepReference (keepReference s w key obj false) w key obj2 false) w key =
      some [obj2] := by
  have hslot : ∀ (t : State) (o : Ptr), o ≠ NULL → o ≠ Py_None →
      o ∉ (keptUnder t w key).getD [] →
      keptUnder (keepReference t w key o false) w key = some [o] := by
    intro t o ho0 ho1 hon
    rw [keepReference_replace_eq t w key o ho0 ho1 hon]
    simp [keptUnder, setReferredObjects, RefCountMap.find_assign]
  have hsame : ∀ (t : State) (o : Ptr), keptUnder t w key = some [o] →
      keepReference t w key o false = t :=
    fun t o ht => keepReference_present t w key o false [o] ht (List.mem_singleton.2 rfl)
  have hfirst : keptUnder (keepReference s w key obj false) w key = some [obj] := by
    by_cases hin : obj ∈ (keptUnder s w key).getD []
    · rw [hsame s obj (hnew hin)]; exact hnew hin
    · exact hslot s obj h0 h1 hin
  refine ⟨hfirst, ?_, ?_, ?_⟩
  · intro x hx
    by_cases hin : obj ∈ (keptUnder s w key).getD []
    · rw [hsame s obj (hnew hin), hnew hin]
      simp [List.count_singleton', hx]
    · rw [keepReference_replace_eq s w key obj h0 h1 hin]
      simp only [Py_INCREF_ob_refcnt, setReferredObjects, State.setD_ob_refcnt,
        decRefPyObjectList_ob_refcnt]
      simp [hx]
  · by_cases hin : obj ∈ (keptUnder s w key).getD []
    · rw [hsame s obj (hnew hin)]
      simp [hin]
    · rw [keepReference_replace_eq s w key obj h0 h1 hin]
      simp only [Py_INCREF_ob_refcnt, setReferredObjects, State.setD_ob_refcnt,
        decRefPyObjectList_ob_refcnt]
      simp [hin]
  · by_cases h12 : obj2 = obj
    · subst h12
      rw [hsame _ obj2 hfirst]; exact hfirst
    · apply hslot _ obj2 h20 h21
      rw [hfirst]
      simpa using h12

/-- C7, witness: wrapper `2` keeps `5` under `"k"`; the object `6` replaces it, then `7`. -/
theorem keepReference_replace_witness :
    keptUnder (keepReference keptState 2 "k" 6 false) 2 "k" = some [6] ∧
    (∀ x, x ≠ 6 → (keepReference keptState 2 "k" 6 false).ob_refcnt x =
      keptState.ob_refcnt x - (((keptUnder keptState 2 "k").getD []).count x : Int)) ∧
    (keepReference keptState 2 "k" 6 false).ob_refcnt 6 =
      keptState.ob_refcnt 6 + (if 6 ∈ (keptUnder keptState 2 "k").getD [] then 0 else 1) ∧
    keptUnder (keepReference (keepReference keptState 2 "k" 6 false) 2 "k" 7 false) 2 "k" =
      some [7] :=
  keepReference_replace keptState 2 "k" 6 7 (by decide) (by decide) (by decide) (by decide)
    (by decide)

/-- C7, counterexample: after `5` and `6` were appended under `"k"`, a replacing
`keepReference(w, "k", 6, false)` returns early and the slot still holds both objects. -/
theorem keepReference_replace_counterexample :
    keptUnder (keepReference (keepReference (keepReference baseState 2 "k" 5 true) 2 "k" 6 true)
      2 "k" 6 false) 2 "k" = some [5, 6] := by
  decide

/-- The result of `keepReference` in replace mode for a null or `None` object. -/
theorem keepReference_clear_eq (s : State) (w : Ptr) (key : String) (obj : Ptr)
    (hobj : obj = NULL ∨ obj = Py_None) (hnew : obj ∉ (keptUnder s w key).getD []) :
    keptUnder (keepReference s w key obj false) w key =
      ((s.d w).referredObjects.map (RefCountMap.erase key)).bind (RefCountMap.find key) ∧
    (keepReference s w key obj false).ob_refcnt =
      (decRefPyObjectList s ((keptUnder s w key).getD []) NULL).ob_refcnt := by
  have hN : (obj = NULL || obj = Py_None) = true := by
    rcases hobj with rfl | rfl <;> simp
  unfold keepReference
  rcases hm : (s.d w).referredObjects with _ | m
  · simp [keptUnder, hm, setReferredObjects, RefCountMap.find, hN, decRefPyObjectList]
  · rcases hf : RefCountMap.find key m with _ | objects
    · have he : RefCountMap.erase key m = m := by
        clear hm hnew
        induction m with
        | nil => rfl
        | cons e rest ih =>
          obtain ⟨k, v⟩ := e
          by_cases hk : k = key
          · simp [RefCountMap.find, hk] at hf
          · simp only [RefCountMap.find, hk, if_false] at hf
            simp [RefCountMap.erase, hk, ih hf]
      simp [keptUnder, hm, hf, hN, decRefPyObjectList, he]
    · have hno : obj ∉ objects := by simpa [keptUnder, hm, hf] using hnew
      cases objects with
      | nil =>
        simp [keptUnder, hm, hf, hN, decRefPyObjectList, setReferredObjects]
      | cons a l =>
        simp [keptUnder, hm, hf, hN, hno, setReferredObjects, decRefPyObjectList_d] at hno ⊢

/-- C8 (amended): with `obj` null or `None`, `keepReference(w, key, obj, append=false)` clears
the slot and releases every object kept under `key` once per entry, and
`keepReference(w, key, obj, append=true)` leaves the slot and all reference counts as they
were. The table has distinct keys and the slot holds neither null nor `None`. -/
theorem keepReference_none (s : State) (w : Ptr) (key : String) (obj : Ptr)
    (hobj : obj = NULL ∨ obj = Py_None)
    (hkeys : (((s.d w).referredObjects.getD []).map Prod.fst).Nodup)
    (hslot : NULL ∉ (keptUnder s w key).getD [] ∧ Py_None ∉ (keptUnder s w key).getD []) :
    keptUnder (keepReference s w key obj false) w key = none ∧
    (∀ x, (keepReference s w key obj false).ob_refcnt x =
      s.ob_refcnt x - (((keptUnder s w key).getD []).count x : Int)) ∧
    keptUnder (keepReference s w key obj true) w key = keptUnder s w key ∧
    (keepReference s w key obj true).ob_refcnt = s.ob_refcnt := by
  have hnew : obj ∉ (keptUnder s w key).getD [] := by
    rcases hobj with rfl | rfl
    · exact hslot.1
    · exact hslot.2
  have hN : (obj = NULL || obj = Py_None) = true := by
    rcases hobj with rfl | rfl <;> simp
  obtain ⟨hk, hr⟩ := keepReference_clear_eq s w key obj hobj hnew
  refine ⟨?_, ?_, ?_, ?_⟩
  · rw [hk]
    rcases hm : (s.d w).referredObjects with _ | m
    · rfl
    · simp only [Option.map_some', Option.some_bind]
      exact RefCountMap.find_erase key m (by simpa [hm] using hkeys)
  · intro x
    rw [hr, decRefPyObjectList_ob_refcnt]
    by_cases hx : x = NULL
    · subst hx
      simp [List.count_eq_zero_of_not_mem hslot.1]
    · simp [hx]
  · unfold keepReference
    rcases hm : (s.d w).referredObjects with _ | m
    · simp [keptUnder, hm, setReferredObjects, RefCountMap.find, hN]
    · simp [keptUnder, hm, hN]
  · unfold keepReference
    rcases hm : (s.d w).referredObjects with _ | m
    · simp [hm, setReferredObjects, RefCountMap.find, hN]
    · simp [hm, hN]

/-- C8, witness: wrapper `2` keeps `5` under `"k"` and is passed `None`. -/
theorem keepReference_none_witness :
    keptUnder (keepReference keptState 2 "k" Py_None false) 2 "k" = none ∧
    (∀ x, (keepReference keptState 2 "k" Py_None false).ob_refcnt x =
      keptState.ob_refcnt x - (((keptUnder keptState 2 "k").getD []).count x : Int)) ∧
    keptUnder (keepReference keptState 2 "k" Py_None true) 2 "k" = keptUnder keptState 2 "k" ∧
    (keepReference keptState 2 "k" Py_None true).ob_refcnt = keptState.ob_refcnt :=
  keepReference_none keptState 2 "k" Py_None (Or.inr rfl) (by decide)
    ⟨by decide, by decide⟩

/-- C8, counterexample: wrapper `2` keeps `5` under `"k"`; `keepReference(2, "k", None, true)`
does not clear the slot, and `5` keeps its reference. -/
theorem keepReference_none_counterexample :
    keptUnder (keepReference keptState 2 "k" Py_None true) 2 "k" = some [5] ∧
    (keepReference keptState 2 "k" Py_None true).ob_refcnt 5 = keptState.ob_refcnt 5 := by
  decide

/-- C9, the code at the failing input: wrapper `2` keeps `5` under `"k"`; after
`removeReference(2, "k", Py_None)`, the call the generated glue makes for a `remove` action,
`5` is still kept under `"k"` and its reference count is unchanged, whereas a call with
another object does clear the slot and release `5`. -/
theorem removeReference_none_keeps_slot :
    keptUnder (removeReference keptState 2 "k" Py_None) 2 "k" = some [5] ∧
    (removeReference keptState 2 "k" Py_None).ob_refcnt 5 = keptState.ob_refcnt 5 ∧
    keptUnder (removeReference keptState 2 "k" 7) 2 "k" = none ∧
    (removeReference keptState 2 "k" 7).ob_refcnt 5 = keptState.ob_refcnt 5 - 1 := by
  decide

/-! ## Deallocation -/

theorem decRefPyObjectList_eq (s : State) (l : List Ptr) (skip : Ptr) :
    ∃ rc log, decRefPyObjectList s l skip = { s with ob_refcnt := rc, tp_dealloc_log := log } := by
  induction l generalizing s with
  | nil => exact ⟨s.ob_refcnt, s.tp_dealloc_log, rfl⟩
  | cons a l ih =>
    simp only [decRefPyObjectList, List.foldl_cons] at ih ⊢
    split_ifs
    · obtain ⟨rc, log, h⟩ := ih (Py_DECREF s a)
      exact ⟨rc, log, by rw [h]; rfl⟩
    · exact ih s

theorem clearReferences_eq (s : State) (self : Ptr) :
    ∃ rc log, clearReferences s self =
      ({ s with ob_refcnt := rc, tp_dealloc_log := log } : State).setD self
        { s.d self with referredObjects := none } := by
  unfold clearReferences
  rcases hm : (s.d self).referredObjects with _ | m
  · refine ⟨s.ob_refcnt, s.tp_dealloc_log, ?_⟩
    have : ({ s.d self with referredObjects := none } : SbkObjectPrivate) = s.d self := by
      rw [← hm]
    simp [State.setD, this]
  · have key : ∀ (m : RefCountMap) (t : State), ∃ rc log,
        m.foldl (fun st e => decRefPyObjectList st e.2 NULL) t =
          { t with ob_refcnt := rc, tp_dealloc_log := log } := by
      intro m
      induction m with
      | nil => intro t; exact ⟨t.ob_refcnt, t.tp_dealloc_log, rfl⟩
      | cons e rest ih =>
        intro t
        obtain ⟨rc1, log1, h1⟩ := decRefPyObjectList_eq t e.2 NULL
        obtain ⟨rc, log, h⟩ := ih (decRefPyObjectList t e.2 NULL)
        exact ⟨rc, log, by rw [List.foldl_cons, h, h1]⟩
    obtain ⟨rc, log, h⟩ := key m s
    exact ⟨rc, log, by simp only [h, setReferredObjects]⟩

/-- With `cleanup`, `deallocData` first detaches the wrapper and clears its references, then
does what it does without `cleanup`. -/
theorem deallocData_cleanup (fuel : Nat) (s : State) (W : Ptr) :
    deallocData fuel s W true =
      ((removeParent s W removeParent_giveOwnershipBack removeParent_keepReference).bind
        fun s1 => if (s1.d W).parentInfo.isSome then _destroyParentInfo fuel s1 W true
          else some s1).bind
        fun s2 => deallocData fuel (clearReferences s2 W) W false := by
  unfold deallocData
  rcases removeParent s W removeParent_giveOwnershipBack removeParent_keepReference with _ | s1
  · rfl
  · simp only [if_true, Option.some_bind]
    rcases (if (s1.d W).parentInfo.isSome then _destroyParentInfo fuel s1 W true
      else some s1) with _ | s2
    · rfl
    · rfl

/-- Without `cleanup`, `deallocData` releases a wrapper that has native pointers from the
binding manager and calls no destructor. -/
theorem deallocData_release (fuel : Nat) (t : State) (W : Ptr) (hcptr : (t.d W).cptr ≠ none) :
    ∃ s1, deallocData fuel t W false = some s1 ∧ s1.dtorCalls = t.dtorCalls ∧
      s1.wrapperMapper = t.wrapperMapper.filter (fun e => e.2 ≠ W) ∧ s1.typeD = t.typeD := by
  have hsome : (t.d W).cptr.isSome = true := Option.isSome_iff_ne_none.2 hcptr
  unfold deallocData
  simp only [Bool.false_eq_true, if_false, Option.map_some', hsome, if_true]
  refine ⟨_, rfl, ?_, ?_, ?_⟩ <;> simp [Py_XDECREF] <;> split_ifs <;> simp

theorem InvalidateStep.step_refl (s : State) : InvalidateStep s s :=
  ⟨fun _ => rfl, fun _ _ => rfl, fun _ h => h, fun _ => List.Sublist.refl _, fun _ h => h,
    rfl, rfl⟩

theorem InvalidateStep.step_trans {s s1 s2 : State} (h1 : InvalidateStep s s1)
    (h2 : InvalidateStep s1 s2) : InvalidateStep s s2 where
  ccw x := (h2.ccw x).trans (h1.ccw x)
  valid_ccw x hx := (h2.valid_ccw x ((h1.ccw x).trans hx)).trans (h1.valid_ccw x hx)
  invalid x hx := h2.invalid x (h1.invalid x hx)
  children p := (h2.children p).trans (h1.children p)
  parent_null x hx := h2.parent_null x (h1.parent_null x hx)
  ob_type := h2.ob_type.trans h1.ob_type
  typeD := h2.typeD.trans h1.typeD

/-- What `removeParent` does, whatever branch it takes. -/
theorem removeParent_facts (s s1 : State) (c : Ptr) (g k : Bool)
    (h : removeParent s c g k = some s1) :
    InvalidateStep s s1 ∧
    (∀ x, (s1.d x).validCppObject = (s.d x).validCppObject) ∧
    (∀ p q, q ∈ childrenOf s p → q ∈ childrenOf s1 p ∨ q = c ∨ p = c) ∧
    (∀ x, x ≠ c → (s1.d x).hasOwnership = (s.d x).hasOwnership) := by
  unfold removeParent at h
  rcases hpc : (s.d c).parentInfo with _ | pInfo
  · simp only [hpc, Option.some.injEq] at h
    subst h
    exact ⟨InvalidateStep.step_refl s, fun _ => rfl, fun _ _ hq => Or.inl hq, fun _ _ => rfl⟩
  simp only [hpc] at h
  by_cases hp0 : pInfo.parent = NULL
  · simp only [hp0, if_true] at h
    by_cases hw : pInfo.hasWrapperRef = true
    · simp only [hw, if_true, Option.some.injEq] at h
      subst h
      refine ⟨⟨?_, ?_, ?_, ?_, ?_, rfl, rfl⟩, ?_, ?_, ?_⟩
      all_goals intro x
      all_goals by_cases hx : x = c
      all_goals simp_all [State.setParentInfo, parentOf, childrenOf]
    · simp only [hw, Bool.false_eq_true, if_false, Option.some.injEq] at h
      subst h
      exact ⟨InvalidateStep.step_refl s, fun _ => rfl, fun _ _ hq => Or.inl hq, fun _ _ => rfl⟩
  · simp only [hp0, if_false] at h
    rcases hpY : (s.d pInfo.parent).parentInfo with _ | ppInfo
    · simp [hpY] at h
    simp only [hpY] at h
    by_cases hmem : c ∈ ppInfo.children
    · simp only [hmem, not_true_eq_false, if_false] at h
      have hsub : (ppInfo.children.erase c).Sublist ppInfo.children := List.erase_sublist _ _
      have hmem2 : ∀ q, q ∈ ppInfo.children → q ∈ ppInfo.children.erase c ∨ q = c := by
        intro q hq
        by_cases hqc : q = c
        · exact Or.inr hqc
        · exact Or.inl ((List.mem_erase_of_ne hqc).2 hq)
      by_cases hcY : c = pInfo.parent
      · have hpp : ppInfo = pInfo := by
          rw [← hcY, hpc] at hpY
          exact (Option.some.inj hpY).symm
        subst hpp
        rw [← hcY] at h
        clear hcY hpY hp0
        split_ifs at h <;> simp only [Option.some.injEq] at h <;> subst h <;>
        refine ⟨⟨?_, ?_, ?_, ?_, ?_, rfl, rfl⟩, ?_, ?_, ?_⟩
        all_goals intro x
        all_goals by_cases hx : x = c
        all_goals simp_all [State.setParentInfo, parentOf, childrenOf]
      · have hYc : pInfo.parent ≠ c := Ne.symm hcY
        split_ifs at h <;> simp only [Option.some.injEq] at h <;> subst h <;>
        refine ⟨⟨?_, ?_, ?_, ?_, ?_, rfl, rfl⟩, ?_, ?_, ?_⟩
        all_goals intro x
        all_goals by_cases hx : x = c
        all_goals by_cases hxY : x = pInfo.parent
        all_goals simp_all [State.setParentInfo, parentOf, childrenOf]
    · simp only [hmem, not_false_eq_true, if_true, Option.some.injEq] at h
      subst h
      exact ⟨InvalidateStep.step_refl s, fun _ => rfl, fun _ _ hq => Or.inl hq, fun _ _ => rfl⟩

theorem invalidateChildren_cons_iff (recurse : State → Ptr → Option State) (self it : Ptr)
    (rest : List Ptr) (st st1 : State) :
    invalidateChildren recurse self (it :: rest) st = some st1 ↔
      ∃ sa sb, recurse st it = some sa ∧
        (if (sa.d self).validCppObject = false then removeParent sa it true true
         else some sa) = some sb ∧
        invalidateChildren recurse self rest sb = some st1 := by
  simp only [invalidateChildren, Bool.not_eq_true']
  constructor
  · intro h
    rcases hr : recurse st it with _ | sa
    · simp [hr] at h
    rw [hr, Option.some_bind] at h
    rcases hb : (if (sa.d self).validCppObject = false then removeParent sa it true true
      else some sa) with _ | sb
    · simp [hb] at h
    rw [hb, Option.some_bind] at h
    exact ⟨sa, sb, rfl, hb, h⟩
  · rintro ⟨sa, sb, hr, hb, h⟩
    rw [hr, Option.some_bind, hb, Option.some_bind, h]

theorem markInvalid_parentInfo (s : State) (self x : Ptr) :
    ((markInvalid s self).d x).parentInfo = (s.d x).parentInfo := by
  unfold markInvalid
  split_ifs <;> by_cases hx : x = self <;> simp_all

theorem invalidate_succ (n : Nat) (s : State) (x : Ptr) (h0 : x ≠ NULL) (h1 : x ≠ Py_None) :
    invalidate (n + 1) s x =
      invalidateChildren (invalidate n) x (childrenOf s x) (markInvalid s x) := by
  simp only [invalidate, h0, h1, or_self, if_false, childrenOf, markInvalid_parentInfo]
  rcases (s.d x).parentInfo with _ | pInfo <;> rfl

theorem invalidate_null (n : Nat) (s : State) (x : Ptr) (h : x = NULL ∨ x = Py_None) :
    invalidate (n + 1) s x = some s := by
  simp [invalidate, h]

theorem invalidateChildren_step (recurse : State → Ptr → Option State) (self : Ptr)
    (hrec : ∀ st it st1, recurse st it = some st1 → InvalidateStep st st1) :
    ∀ (l : List Ptr) (st st1 : State), invalidateChildren recurse self l st = some st1 →
      InvalidateStep st st1 := by
  intro l
  induction l with
  | nil =>
    intro st st1 h
    simp only [invalidateChildren, Option.some.injEq] at h
    subst h
    exact InvalidateStep.step_refl st
  | cons it rest ih =>
    intro st st1 h
    obtain ⟨sa, sb, hr, hb, hrest⟩ := (invalidateChildren_cons_iff _ _ _ _ _ _).1 h
    have h1 := hrec st it sa hr
    have h2 : InvalidateStep sa sb := by
      split_ifs at hb
      · exact (removeParent_facts sa sb it true true hb).1
      · simp only [Option.some.injEq] at hb
        subst hb
        exact InvalidateStep.step_refl sa
    exact (h1.step_trans h2).step_trans (ih sb st1 hrest)

/-- The first step of `invalidate` is an `InvalidateStep`. -/
theorem markInvalid_step (s : State) (self : Ptr) : InvalidateStep s (markInvalid s self) := by
  unfold markInvalid
  split_ifs with h
  · refine ⟨?_, ?_, ?_, ?_, ?_, rfl, rfl⟩
    all_goals intro x
    all_goals by_cases hx : x = self
    all_goals simp_all [parentOf, childrenOf]
  · exact InvalidateStep.step_refl s

theorem invalidate_step : ∀ (n : Nat) (s : State) (x : Ptr) (s1 : State),
    invalidate n s x = some s1 → InvalidateStep s s1 := by
  intro n
  induction n with
  | zero => intro s x s1 h; simp [invalidate] at h
  | succ n ih =>
    intro s x s1 h
    by_cases hx : x = NULL ∨ x = Py_None
    · rw [invalidate_null n s x hx, Option.some.injEq] at h
      subst h
      exact InvalidateStep.step_refl s
    · rw [invalidate_succ n s x (fun e => hx (Or.inl e)) (fun e => hx (Or.inr e))] at h
      exact (markInvalid_step s x).step_trans
        (invalidateChildren_step (invalidate n) x ih _ _ s1 h)

theorem SubtreeInvalidated.subtree_mono {s0 s s1 : State} {c : Ptr} (h : InvalidateStep s s1)
    (hc : SubtreeInvalidated s0 s c) : SubtreeInvalidated s0 s1 c :=
  fun d hd hccw => h.invalid d (hc d hd hccw)

theorem SubtreeInvalidated.child {s0 s : State} {p q : Ptr} (hq : q ∈ childrenOf s0 p)
    (hp : SubtreeInvalidated s0 s p) : SubtreeInvalidated s0 s q :=
  fun d hd => hp d (Relation.ReflTransGen.head hq hd)

theorem EdgesAccounted.edges_mono {s0 s s1 : State} (h : InvalidateStep s s1)
    (hch : ∀ p, childrenOf s1 p = childrenOf s p) (he : EdgesAccounted s0 s) :
    EdgesAccounted s0 s1 := by
  intro p q hq
  rcases he p q hq with h1 | h1
  · exact Or.inl (by rw [hch]; exact h1)
  · exact Or.inr (h1.subtree_mono h)

theorem EdgesAccounted.removeParent {s0 sa sb : State} {it : Ptr} {g k : Bool}
    (he : EdgesAccounted s0 sa) (hit : SubtreeInvalidated s0 sa it)
    (h : removeParent sa it g k = some sb) : EdgesAccounted s0 sb := by
  obtain ⟨hstep, -, hedge, -⟩ := removeParent_facts sa sb it g k h
  intro p q hq
  rcases he p q hq with h1 | h1
  · rcases hedge p q h1 with h2 | h2 | h2
    · exact Or.inl h2
    · subst h2; exact Or.inr (hit.subtree_mono hstep)
    · subst h2; exact Or.inr ((hit.child hq).subtree_mono hstep)
  · exact Or.inr (h1.subtree_mono hstep)

/-- The loop of `invalidate`, given the statement for the recursive calls. -/
theorem invalidateChildren_accounts (s0 : State) (R : Ptr) (n : Nat) (x : Ptr)
    (ih : ∀ s c s1, InvalidateStep s0 s → EdgesAccounted s0 s → InSubtree s0 R c →
      c ≠ NULL → c ≠ Py_None →
      invalidate n s c = some s1 → EdgesAccounted s0 s1 ∧ SubtreeInvalidated s0 s1 c) :
    ∀ (l : List Ptr) (st st1 : State), InvalidateStep s0 st → EdgesAccounted s0 st →
      (∀ c ∈ l, InSubtree s0 R c ∧ c ≠ NULL ∧ c ≠ Py_None) →
      invalidateChildren (invalidate n) x l st = some st1 →
      EdgesAccounted s0 st1 ∧ ∀ c ∈ l, SubtreeInvalidated s0 st1 c := by
  intro l
  induction l with
  | nil =>
    intro st st1 _ he _ h
    simp only [invalidateChildren, Option.some.injEq] at h
    subst h
    exact ⟨he, fun c hc => absurd hc (List.not_mem_nil c)⟩
  | cons it rest ihl =>
    intro st st1 hs he hl h
    obtain ⟨sa, sb, hr, hb, hrest⟩ := (invalidateChildren_cons_iff _ _ _ _ _ _).1 h
    obtain ⟨hitR, hit0, hit1⟩ := hl it (List.mem_cons_self _ _)
    obtain ⟨hea, hia⟩ := ih st it sa hs he hitR hit0 hit1 hr
    have hsa : InvalidateStep st sa := invalidate_step n st it sa hr
    have hab : InvalidateStep sa sb ∧ EdgesAccounted s0 sb := by
      split_ifs at hb
      · exact ⟨(removeParent_facts sa sb it true true hb).1, hea.removeParent hia hb⟩
      · simp only [Option.some.injEq] at hb
        subst hb
        exact ⟨InvalidateStep.step_refl sa, hea⟩
    obtain ⟨heb, hrb⟩ := ihl sb st1 ((hs.step_trans hsa).step_trans hab.1) hab.2
      (fun c hc => hl c (List.mem_cons_of_mem _ hc)) hrest
    have hb1 : InvalidateStep sb st1 :=
      invalidateChildren_step (invalidate n) x (invalidate_step n) rest sb st1 hrest
    refine ⟨heb, fun c hc => ?_⟩
    rcases List.mem_cons.1 hc with rfl | hc
    · exact (hia.subtree_mono hab.1).subtree_mono hb1
    · exact hrb c hc

/-- Partial correctness of `invalidate`: when the call on a wrapper of the subtree of `R`
returns, the subtree the wrapper had in `s0` is invalidated, for every state reached from `s0`
by invalidation steps; the members of the children sets below `R` are wrappers. -/
theorem invalidate_accounts (s0 : State) (R : Ptr)
    (h0 : ∀ p, InSubtree s0 R p → ∀ c ∈ childrenOf s0 p, c ≠ NULL ∧ c ≠ Py_None) :
    ∀ (n : Nat) (s : State) (x : Ptr) (s1 : State), InvalidateStep s0 s →
      EdgesAccounted s0 s → InSubtree s0 R x → x ≠ NULL → x ≠ Py_None →
      invalidate n s x = some s1 →
      EdgesAccounted s0 s1 ∧ SubtreeInvalidated s0 s1 x := by
  intro n
  induction n with
  | zero => intro s x s1 _ _ _ _ _ h; simp [invalidate] at h
  | succ n ih =>
    intro s x s1 hs he hxR hx0 hx1 h
    rw [invalidate_succ n s x hx0 hx1] at h
    have hm := markInvalid_step s x
    have hem : EdgesAccounted s0 (markInvalid s x) :=
      he.edges_mono hm (fun p => by simp [childrenOf, markInvalid_parentInfo])
    have hl : ∀ c ∈ childrenOf s x, InSubtree s0 R c ∧ c ≠ NULL ∧ c ≠ Py_None := by
      intro c hc
      have hc0 : c ∈ childrenOf s0 x := (hs.children x).subset hc
      exact ⟨Relation.ReflTransGen.tail hxR hc0, h0 x hxR c hc0⟩
    obtain ⟨he1, hch⟩ := invalidateChildren_accounts s0 R n x ih (childrenOf s x)
      (markInvalid s x) s1 (hs.step_trans hm) hem hl h
    have hm1 : InvalidateStep (markInvalid s x) s1 :=
      invalidateChildren_step (invalidate n) x (invalidate_step n) _ _ s1 h
    refine ⟨he1, fun d hd => ?_⟩
    rcases Relation.ReflTransGen.cases_head hd with rfl | ⟨c, hc, hcd⟩
    · intro hccw
      apply hm1.invalid
      have hccw1 : (s.d x).containsCppWrapper = false := by rw [hs.ccw]; exact hccw
      simp [markInvalid, hccw1]
    · rcases he x c hc with h1 | h1
      · exact hch c h1 d hcd
      · exact (h1.subtree_mono (hm.step_trans hm1)) d hcd

theorem EdgesAccounted.edges_refl (s : State) : EdgesAccounted s s :=
  fun _ _ hq => Or.inl hq

/-- Detaching a child that is linked to its parent `x` in both directions. -/
theorem removeParent_attached (s : State) (c x : Ptr) (g k : Bool)
    (hp : parentOf s c = x) (hx : x ≠ NULL) (hmem : c ∈ childrenOf s x) (hcx : c ≠ x) :
    ∃ s1, removeParent s c g k = some s1 ∧
      (∀ y, parentOf s1 y = if y = c then NULL else parentOf s y) ∧
      (∀ y, childrenOf s1 y = if y = x then (childrenOf s x).erase c else childrenOf s y) ∧
      (∀ y, y ≠ c → (s1.d y).hasOwnership = (s.d y).hasOwnership) := by
  have hxc : x ≠ c := Ne.symm hcx
  have hx' : NULL ≠ x := Ne.symm hx
  unfold removeParent
  rcases hpc : (s.d c).parentInfo with _ | pInfo
  · simp_all [parentOf]
  rcases hpx : (s.d x).parentInfo with _ | ppInfo
  · simp_all [childrenOf]
  have hpp : pInfo.parent = x := by simpa [parentOf, hpc] using hp
  have hm : c ∈ ppInfo.children := by simpa [childrenOf, hpx] using hmem
  subst hpp
  simp only [hx, if_false, hpx, hm, not_true_eq_false]
  by_cases hk : (k && (s.d c).containsCppWrapper) = true
  · by_cases hw : pInfo.hasWrapperRef = true <;>
    · refine ⟨_, by simp [State.setParentInfo, hcx, hxc, hpc, hk, hw]; rfl, ?_, ?_, ?_⟩
      all_goals intro y
      all_goals by_cases hy : y = c
      all_goals by_cases hyx : y = pInfo.parent
      all_goals simp_all [State.setParentInfo, parentOf, childrenOf]
  · by_cases he : pInfo.children = [] <;>
    · refine ⟨_, by simp [State.setParentInfo, hcx, hxc, hpc, hk, he, childrenOf]; rfl, ?_, ?_, ?_⟩
      all_goals intro y
      all_goals by_cases hy : y = c
      all_goals by_cases hyx : y = pInfo.parent
      all_goals simp_all [State.setParentInfo, parentOf, childrenOf]

/-! ## Termination of `invalidate` below a tree -/

theorem InSubtree.of_subset {s s1 : State} {R d : Ptr}
    (h : ∀ p, childrenOf s1 p ⊆ childrenOf s p) (hd : InSubtree s1 R d) : InSubtree s R d :=
  Relation.ReflTransGen.mono (fun p _ hc => h p hc) hd

/-- A wrapper of the subtree stays in the subtree when only children sets of wrappers of a
rank not above its own have changed. -/
theorem InSubtree.of_frame {s s1 : State} {rank : Ptr → Nat} {R x : Ptr}
    (hT : TreeBelow s rank R) (hx : InSubtree s R x)
    (hfr : ∀ y, rank x < rank y → childrenOf s1 y = childrenOf s y) : InSubtree s1 R x := by
  induction hx with
  | refl => exact Relation.ReflTransGen.refl
  | @tail b c hb hc ih =>
    have hlt : rank c < rank b := ((hT b hb).2 c hc).2.2.2
    have hb1 : InSubtree s1 R b := ih (fun y hy => hfr y (lt_trans hlt hy))
    exact Relation.ReflTransGen.tail hb1 (by rw [hfr b hlt]; exact hc)

theorem TreeBelow.of_parentInfo_eq {s s1 : State} {rank : Ptr → Nat} {R : Ptr}
    (hT : TreeBelow s rank R) (h : ∀ y, (s1.d y).parentInfo = (s.d y).parentInfo) :
    TreeBelow s1 rank R := by
  have hc : ∀ y, childrenOf s1 y = childrenOf s y := fun y => by simp [childrenOf, h]
  have hp : ∀ y, parentOf s1 y = parentOf s y := fun y => by simp [parentOf, h]
  intro p hpR
  have hpR0 : InSubtree s R p := InSubtree.of_subset (fun q => by rw [hc]; exact fun _ h => h) hpR
  rw [hc]
  refine ⟨(hT p hpR0).1, fun c hcm => ?_⟩
  rw [hp]
  exact (hT p hpR0).2 c hcm

/-- Below a tree, detaching a member `c` of the children set of `x` returns and leaves a tree;
only the children set of `x`, the parent link of `c` and the ownership flag of `c` can differ
afterwards. -/
theorem removeParent_tree (s : State) (rank : Ptr → Nat) (R c x : Ptr) (g k : Bool)
    (hT : TreeBelow s rank R) (hxR : InSubtree s R x) (hx : x ≠ NULL)
    (hmem : c ∈ childrenOf s x) :
    ∃ s1, removeParent s c g k = some s1 ∧ TreeBelow s1 rank R ∧
      (∀ y, childrenOf s1 y = if y = x then (childrenOf s x).erase c else childrenOf s y) ∧
      (∀ y, y ≠ c → (s1.d y).hasOwnership = (s.d y).hasOwnership) := by
  obtain ⟨hpc, -, -, hrk⟩ := (hT x hxR).2 c hmem
  have hcx : c ≠ x := fun e => by rw [e] at hrk; exact lt_irrefl _ hrk
  obtain ⟨s1, h1, hpar, hch, hown⟩ := removeParent_attached s c x g k hpc hx hmem hcx
  have hsub : ∀ p, childrenOf s1 p ⊆ childrenOf s p := by
    intro p q hq
    rw [hch] at hq
    split_ifs at hq with hpx
    · subst hpx; exact List.mem_of_mem_erase hq
    · exact hq
  refine ⟨s1, h1, fun p hpR => ?_, hch, hown⟩
  have hpR0 : InSubtree s R p := InSubtree.of_subset hsub hpR
  refine ⟨?_, fun q hq => ?_⟩
  · rw [hch]
    split_ifs with hpx
    · exact ((hT x hxR).1).sublist (List.erase_sublist _ _)
    · exact (hT p hpR0).1
  · obtain ⟨hq1, hq2, hq3, hq4⟩ := (hT p hpR0).2 q (hsub p hq)
    refine ⟨?_, hq2, hq3, hq4⟩
    rw [hpar]
    split_ifs with hqc
    · subst hqc
      have hpx : p = x := by rw [← hq1]; exact hpc
      subst hpx
      rw [hch, if_pos rfl] at hq
      exact absurd rfl (((hT p hxR).1).nodup.mem_erase_iff.1 hq).1
    · exact hq1

/-- The loop of `invalidate` below a tree, given the statement for the recursive calls. -/
theorem invalidateChildren_total (rank : Ptr → Nat) (R : Ptr) (n : Nat) (x : Ptr)
    (hx : x ≠ NULL) (hn : rank x ≤ n)
    (ih : ∀ s c, TreeBelow s rank R → InSubtree s R c → rank c < n →
      ∃ s1, invalidate n s c = some s1 ∧ TreeBelow s1 rank R ∧
        (∀ y, rank c < rank y → childrenOf s1 y = childrenOf s y) ∧
        (∀ y, rank c ≤ rank y → (s1.d y).hasOwnership = (s.d y).hasOwnership)) :
    ∀ (l : List Ptr) (st : State), TreeBelow st rank R → InSubtree st R x →
      (∀ c ∈ l, c ∈ childrenOf st x) → l.Nodup →
      ∃ st1, invalidateChildren (invalidate n) x l st = some st1 ∧ TreeBelow st1 rank R ∧
        (∀ y, rank x < rank y → childrenOf st1 y = childrenOf st y) ∧
        (∀ y, rank x ≤ rank y → (st1.d y).hasOwnership = (st.d y).hasOwnership) := by
  intro l
  induction l with
  | nil =>
    intro st hT _ _ _
    exact ⟨st, rfl, hT, fun _ _ => rfl, fun _ _ => rfl⟩
  | cons it rest ihl =>
    intro st hT hxR hl hnd
    have hit : it ∈ childrenOf st x := hl it (List.mem_cons_self _ _)
    have hrk : rank it < rank x := ((hT x hxR).2 it hit).2.2.2
    obtain ⟨sa, hr, hTa, hca, hoa⟩ :=
      ih st it hT (Relation.ReflTransGen.tail hxR hit) (lt_of_lt_of_le hrk hn)
    have hxa : childrenOf sa x = childrenOf st x := hca x hrk
    have hxRa : InSubtree sa R x :=
      InSubtree.of_frame hT hxR (fun y hy => hca y (lt_trans hrk hy))
    -- the detach step
    obtain ⟨sb, hb, hTb, hcb, hob, hrest⟩ : ∃ sb,
        (if (sa.d x).validCppObject = false then removeParent sa it true true
          else some sa) = some sb ∧ TreeBelow sb rank R ∧
        (∀ y, rank x < rank y → childrenOf sb y = childrenOf sa y) ∧
        (∀ y, rank x ≤ rank y → (sb.d y).hasOwnership = (sa.d y).hasOwnership) ∧
        (∀ c ∈ rest, c ∈ childrenOf sb x) := by
      have hrest0 : ∀ c ∈ rest, c ∈ childrenOf sa x := fun c hc => by
        rw [hxa]; exact hl c (List.mem_cons_of_mem _ hc)
      by_cases hv : (sa.d x).validCppObject = false
      · obtain ⟨sb, hb, hTb, hcb, hob⟩ :=
          removeParent_tree sa rank R it x true true hTa hxRa hx (by rw [hxa]; exact hit)
        refine ⟨sb, by rw [if_pos hv]; exact hb, hTb, ?_, ?_, ?_⟩
        · intro y hy
          rw [hcb, if_neg (fun e => by rw [e] at hy; exact lt_irrefl _ hy)]
        · intro y hy
          exact hob y (fun e => by rw [e] at hy; exact absurd hrk (not_lt.2 hy))
        · intro c hc
          rw [hcb, if_pos rfl]
          have hne : c ≠ it := fun e => (List.nodup_cons.1 hnd).1 (e ▸ hc)
          exact (List.mem_erase_of_ne hne).2 (hrest0 c hc)
      · exact ⟨sa, by rw [if_neg hv], hTa, fun _ _ => rfl, fun _ _ => rfl, hrest0⟩
    have hxRb : InSubtree sb R x := InSubtree.of_frame hTa hxRa hcb
    obtain ⟨st1, h1, hT1, hc1, ho1⟩ := ihl sb hTb hxRb hrest (List.nodup_cons.1 hnd).2
    refine ⟨st1, (invalidateChildren_cons_iff _ _ _ _ _ _).2 ⟨sa, sb, hr, hb, h1⟩, hT1, ?_, ?_⟩
    · intro y hy
      rw [hc1 y hy, hcb y hy, hca y (lt_trans hrk hy)]
    · intro y hy
      rw [ho1 y hy, hob y hy, hoa y (le_trans (le_of_lt hrk) hy)]

theorem markInvalid_hasOwnership (s : State) (self x : Ptr) :
    ((markInvalid s self).d x).hasOwnership = (s.d x).hasOwnership := by
  unfold markInvalid
  split_ifs <;> by_cases hx : x = self <;> simp_all

/-- Total correctness of `invalidate` below a tree: with fuel above the rank of the wrapper the
call returns, the graph below `R` is again a tree, the children sets of wrappers of higher
rank and the ownership flags of wrappers of the same or a higher rank are untouched. -/
theorem invalidate_total (rank : Ptr → Nat) (R : Ptr) : ∀ (n : Nat) (s : State) (x : Ptr),
    TreeBelow s rank R → InSubtree s R x → rank x < n →
    ∃ s1, invalidate n s x = some s1 ∧ TreeBelow s1 rank R ∧
      (∀ y, rank x < rank y → childrenOf s1 y = childrenOf s y) ∧
      (∀ y, rank x ≤ rank y → (s1.d y).hasOwnership = (s.d y).hasOwnership) := by
  intro n
  induction n with
  | zero => intro s x _ _ h; exact absurd h (Nat.not_lt_zero _)
  | succ n ih =>
    intro s x hT hxR hn
    by_cases hx : x = NULL ∨ x = Py_None
    · exact ⟨s, invalidate_null n s x hx, hT, fun _ _ => rfl, fun _ _ => rfl⟩
    · have hx0 : x ≠ NULL := fun e => hx (Or.inl e)
      have hx1 : x ≠ Py_None := fun e => hx (Or.inr e)
      rw [invalidate_succ n s x hx0 hx1]
      have hTm : TreeBelow (markInvalid s x) rank R :=
        hT.of_parentInfo_eq (fun y => markInvalid_parentInfo s x y)
      have hcm : ∀ y, childrenOf (markInvalid s x) y = childrenOf s y := fun y => by
        simp [childrenOf, markInvalid_parentInfo]
      have hxRm : InSubtree (markInvalid s x) R x :=
        InSubtree.of_frame hT hxR (fun y _ => hcm y)
      obtain ⟨s1, h1, hT1, hc1, ho1⟩ := invalidateChildren_total rank R n x hx0
        (Nat.lt_succ_iff.1 hn) ih (childrenOf s x) (markInvalid s x) hTm hxRm
        (fun c hc => by rw [hcm]; exact hc) ((hT x hxR).1).nodup
      refine ⟨s1, h1, hT1, fun y hy => ?_, fun y hy => ?_⟩
      · rw [hc1 y hy, hcm]
      · rw [ho1 y hy, markInvalid_hasOwnership]

theorem tree_treeState : TreeBelow treeState treeRank 2 := by
  intro p _
  refine ⟨?_, ?_⟩
  · simp only [childrenOf, treeState, State.setD_d, baseState]
    split_ifs <;> simp
  · intro c
    simp only [parentOf, childrenOf, treeState, State.setD_d, baseState, treeRank]
    split_ifs <;> simp_all

theorem tree_of_no_children (s : State) (rank : Ptr → Nat) (R : Ptr)
    (h : ∀ p, childrenOf s p = []) : TreeBelow s rank R := by
  intro p _
  rw [h]
  exact ⟨List.sorted_nil, fun c hc => absurd hc (List.not_mem_nil c)⟩

/-- C4: when the parent/child graph below `P` is a finite tree, `invalidate(P)` with fuel above
the rank of `P` returns, and for every wrapper `d` of the subtree of `P` (`P`, its children and
all further descendants): `d` is invalid afterwards when it does not embed the native storage,
and keeps its validity flag when it does; embedding wrappers do not stop the descent. -/
theorem invalidate_subtree (rank : Ptr → Nat) (n : Nat) (s : State) (P : Ptr)
    (hT : TreeBelow s rank P) (hn : rank P < n) (hP : P ≠ NULL ∧ P ≠ Py_None) :
    ∃ s1, invalidate n s P = some s1 ∧ ∀ d, InSubtree s P d →
      ((s.d d).containsCppWrapper = false → (s1.d d).validCppObject = false) ∧
      ((s.d d).containsCppWrapper = true →
        (s1.d d).validCppObject = (s.d d).validCppObject) ∧
      (s1.d d).containsCppWrapper = (s.d d).containsCppWrapper := by
  obtain ⟨s1, h1, -, -, -⟩ :=
    invalidate_total rank P n s P hT Relation.ReflTransGen.refl hn
  have hstep := invalidate_step n s P s1 h1
  obtain ⟨-, hsub⟩ := invalidate_accounts s P
    (fun p hp c hc => ⟨((hT p hp).2 c hc).2.1, ((hT p hp).2 c hc).2.2.1⟩) n s P s1
    (InvalidateStep.step_refl s) (EdgesAccounted.edges_refl s) Relation.ReflTransGen.refl
    hP.1 hP.2 h1
  exact ⟨s1, h1, fun d hd => ⟨hsub d hd, hstep.valid_ccw d, hstep.ccw d⟩⟩

/-- C4, witness: `invalidate(2)` on `treeState`: `2`, `4` and `5` become invalid, `3`, which
embeds its native storage, stays valid. -/
theorem invalidate_subtree_witness :
    (∃ s1, invalidate 3 treeState 2 = some s1 ∧ ∀ d, InSubtree treeState 2 d →
      ((treeState.d d).containsCppWrapper = false → (s1.d d).validCppObject = false) ∧
      ((treeState.d d).containsCppWrapper = true →
        (s1.d d).validCppObject = (treeState.d d).validCppObject) ∧
      (s1.d d).containsCppWrapper = (treeState.d d).containsCppWrapper) ∧
    (invalidate 3 treeState 2).map (fun s1 => [2, 3, 4, 5].map fun d => (s1.d d).validCppObject)
      = some [false, true, false, false] :=
  ⟨invalidate_subtree treeRank 3 treeState 2 tree_treeState (by decide)
    ⟨by decide, by decide⟩, by decide⟩

/-! ## Ownership transfer -/

theorem OnlyValidity.validity_refl (s : State) : OnlyValidity s s :=
  ⟨fun y => (s.d y).validCppObject, rfl⟩

theorem OnlyValidity.validity_trans {s s1 s2 : State} (h1 : OnlyValidity s s1)
    (h2 : OnlyValidity s1 s2) : OnlyValidity s s2 := by
  obtain ⟨f, rfl⟩ := h1
  obtain ⟨g, rfl⟩ := h2
  exact ⟨g, rfl⟩

theorem OnlyValidity.parentInfo_eq {s s1 : State} (h : OnlyValidity s s1) (y : Ptr) :
    (s1.d y).parentInfo = (s.d y).parentInfo := by
  obtain ⟨f, rfl⟩ := h; rfl

theorem OnlyValidity.hasOwnership_eq {s s1 : State} (h : OnlyValidity s s1) (y : Ptr) :
    (s1.d y).hasOwnership = (s.d y).hasOwnership := by
  obtain ⟨f, rfl⟩ := h; rfl

theorem OnlyValidity.containsCppWrapper_eq {s s1 : State} (h : OnlyValidity s s1) (y : Ptr) :
    (s1.d y).containsCppWrapper = (s.d y).containsCppWrapper := by
  obtain ⟨f, rfl⟩ := h; rfl

theorem OnlyValidity.typeD_eq {s s1 : State} (h : OnlyValidity s s1) : s1.typeD = s.typeD := by
  obtain ⟨f, rfl⟩ := h; rfl

theorem OnlyValidity.ob_type_eq {s s1 : State} (h : OnlyValidity s s1) : s1.ob_type = s.ob_type := by
  obtain ⟨f, rfl⟩ := h; rfl

theorem OnlyValidity.childrenOf_eq {s s1 : State} (h : OnlyValidity s s1) (y : Ptr) :
    childrenOf s1 y = childrenOf s y := by
  simp [Shiboken.childrenOf, h.parentInfo_eq]

theorem OnlyValidity.setValid (s : State) (x : Ptr) (b : Bool) :
    OnlyValidity s (s.setD x { s.d x with validCppObject := b }) := by
  refine ⟨fun y => if y = x then b else (s.d y).validCppObject, ?_⟩
  simp only [State.setD]
  congr 1
  funext y
  by_cases hy : y = x
  · subst hy; simp
  · simp [Function.update_apply, hy]

theorem makeValid_succ (n : Nat) (s : State) (x : Ptr)
    (h : ¬ (x = NULL ∨ x = Py_None ∨ (s.d x).validCppObject = true)) :
    makeValid (n + 1) s x =
      makeValidChildren (makeValid n) (childrenOf s x)
        (s.setD x { s.d x with validCppObject := true }) := by
  simp only [makeValid, h, if_false, childrenOf, State.setD_d, if_true]
  rcases (s.d x).parentInfo with _ | pInfo <;> rfl

theorem makeValidChildren_total (rank : Ptr → Nat) (n : Nat)
    (ih : ∀ s c, (∀ p, InSubtree s c p → ∀ q ∈ childrenOf s p, rank q < rank p) → rank c < n →
      ∃ s1, makeValid n s c = some s1 ∧ OnlyValidity s s1) :
    ∀ (l : List Ptr) (st : State),
      (∀ c ∈ l, rank c < n ∧ ∀ p, InSubtree st c p → ∀ q ∈ childrenOf st p, rank q < rank p) →
      ∃ st1, makeValidChildren (makeValid n) l st = some st1 ∧ OnlyValidity st st1 := by
  intro l
  induction l with
  | nil => intro st _; exact ⟨st, rfl, OnlyValidity.validity_refl st⟩
  | cons it rest ihl =>
    intro st hl
    obtain ⟨hit, hr⟩ := hl it (List.mem_cons_self _ _)
    obtain ⟨sa, ha, hva⟩ := ih st it hr hit
    obtain ⟨st1, h1, hv1⟩ := ihl sa (fun c hc => by
      obtain ⟨hc1, hc2⟩ := hl c (List.mem_cons_of_mem _ hc)
      refine ⟨hc1, fun p hp q hq => ?_⟩
      rw [hva.childrenOf_eq] at hq
      exact hc2 p (InSubtree.of_subset (fun y => by rw [hva.childrenOf_eq]; exact fun _ h => h)
        hp) q hq)
    exact ⟨st1, by simp [makeValidChildren, ha, h1], hva.validity_trans hv1⟩

/-- Total correctness of `makeValid` on a wrapper whose children graph is acyclic: with fuel
above the rank of the wrapper the call returns and has changed validity flags only. -/
theorem makeValid_total (rank : Ptr → Nat) : ∀ (n : Nat) (s : State) (x : Ptr),
    (∀ p, InSubtree s x p → ∀ q ∈ childrenOf s p, rank q < rank p) → rank x < n →
    ∃ s1, makeValid n s x = some s1 ∧ OnlyValidity s s1 := by
  intro n
  induction n with
  | zero => intro s x _ h; exact absurd h (Nat.not_lt_zero _)
  | succ n ih =>
    intro s x hr hn
    by_cases hx : x = NULL ∨ x = Py_None ∨ (s.d x).validCppObject = true
    · exact ⟨s, by simp [makeValid, hx], OnlyValidity.validity_refl s⟩
    · rw [makeValid_succ n s x hx]
      have hv := OnlyValidity.setValid s x true
      obtain ⟨s1, h1, hv1⟩ := makeValidChildren_total rank n ih (childrenOf s x)
        (s.setD x { s.d x with validCppObject := true }) (fun c hc => by
          refine ⟨lt_of_lt_of_le (hr x Relation.ReflTransGen.refl c hc)
            (Nat.lt_succ_iff.1 hn), fun p hp q hq => ?_⟩
          rw [hv.childrenOf_eq] at hq
          have hp0 : InSubtree s c p :=
            InSubtree.of_subset (fun y => by rw [hv.childrenOf_eq]; exact fun _ h => h) hp
          exact hr p (Relation.ReflTransGen.head hc hp0) q hq)
      exact ⟨s1, h1, hv.validity_trans hv1⟩

theorem setHasOwnership_parentInfo (s : State) (w : Ptr) (b : Bool) (y : Ptr) :
    ((s.setD w { s.d w with hasOwnership := b }).d y).parentInfo = (s.d y).parentInfo := by
  by_cases hy : y = w
  · subst hy; simp
  · simp [hy]

theorem getOwnership_owner (n : Nat) (s : State) (w : Ptr)
    (ho : (s.d w).hasOwnership = true) : getOwnership n s w = some s := by
  simp [getOwnership, ho]

theorem getOwnership_decref (n : Nat) (s : State) (w : Ptr)
    (ho : (s.d w).hasOwnership = false) (hp : parentOf s w = NULL)
    (hc : (s.d w).containsCppWrapper = true) :
    getOwnership n s w = some (Py_DECREF (s.setD w { s.d w with hasOwnership := true }) w) := by
  simp [getOwnership, ho, hp, hc]

theorem getOwnership_makeValid (n : Nat) (s : State) (w : Ptr)
    (ho : (s.d w).hasOwnership = false) (hp : parentOf s w = NULL)
    (hc : (s.d w).containsCppWrapper = false) :
    getOwnership n s w = makeValid n (s.setD w { s.d w with hasOwnership := true }) w := by
  simp [getOwnership, ho, hp, hc]

theorem releaseOwnership_skip (n : Nat) (s : State) (w : Ptr)
    (h : (s.d w).hasOwnership = false ∨
      (s.typeD (s.ob_type w)).type_behaviour = BEHAVIOUR_VALUETYPE) :
    releaseOwnership n s w = some s := by
  rcases h with h | h <;> simp [releaseOwnership, h]

theorem releaseOwnership_incref (n : Nat) (s : State) (w : Ptr)
    (ho : (s.d w).hasOwnership = true)
    (hvt : (s.typeD (s.ob_type w)).type_behaviour ≠ BEHAVIOUR_VALUETYPE)
    (hc : (s.d w).containsCppWrapper = true) :
    releaseOwnership n s w =
      some (Py_INCREF (s.setD w { s.d w with hasOwnership := false }) w) := by
  simp [releaseOwnership, ho, hvt, hc]

theorem releaseOwnership_invalidate (n : Nat) (s : State) (w : Ptr)
    (ho : (s.d w).hasOwnership = true)
    (hvt : (s.typeD (s.ob_type w)).type_behaviour ≠ BEHAVIOUR_VALUETYPE)
    (hc : (s.d w).containsCppWrapper = false) :
    releaseOwnership n s w = invalidate n (s.setD w { s.d w with hasOwnership := false }) w := by
  simp [releaseOwnership, ho, hvt, hc]

/-- The result of `getOwnership` on a wrapper without parent: it returns with fuel above the
rank of the wrapper, the wrapper owns its native object afterwards, and the parent links,
children sets, `containsCppWrapper` flags and types are as before. -/
theorem getOwnership_total (rank : Ptr → Nat) (n : Nat) (s : State) (w : Ptr)
    (hr : ∀ p, InSubtree s w p → ∀ q ∈ childrenOf s p, rank q < rank p) (hn : rank w < n)
    (hp : parentOf s w = NULL) :
    ∃ s1, getOwnership n s w = some s1 ∧ (s1.d w).hasOwnership = true ∧
      (∀ y, (s1.d y).parentInfo = (s.d y).parentInfo) ∧
      (s1.d w).containsCppWrapper = (s.d w).containsCppWrapper ∧
      s1.typeD = s.typeD ∧ s1.ob_type = s.ob_type := by
  by_cases ho : (s.d w).hasOwnership = true
  · exact ⟨s, getOwnership_owner n s w ho, ho, fun _ => rfl, rfl, rfl, rfl⟩
  have ho' : (s.d w).hasOwnership = false := by simpa using ho
  by_cases hc : (s.d w).containsCppWrapper = true
  · refine ⟨_, getOwnership_decref n s w ho' hp hc, by simp, fun y => ?_, by simp, rfl, rfl⟩
    simp only [Py_DECREF_d]
    exact setHasOwnership_parentInfo s w true y
  · have hc' : (s.d w).containsCppWrapper = false := by simpa using hc
    obtain ⟨s1, h1, hv⟩ := makeValid_total rank n
      (s.setD w { s.d w with hasOwnership := true }) w
      (fun p hp q hq => by
        have hc : ∀ y, childrenOf (s.setD w { s.d w with hasOwnership := true }) y =
            childrenOf s y := fun y => by
          simp only [childrenOf, setHasOwnership_parentInfo]
        rw [hc] at hq
        exact hr p (InSubtree.of_subset (fun y => by rw [hc]; exact fun _ h => h) hp) q hq) hn
    refine ⟨s1, by rw [getOwnership_makeValid n s w ho' hp hc']; exact h1, ?_, fun y => ?_,
      ?_, ?_, ?_⟩
    · rw [hv.hasOwnership_eq]; simp
    · rw [hv.parentInfo_eq]; exact setHasOwnership_parentInfo s w true y
    · rw [hv.containsCppWrapper_eq]; simp
    · rw [hv.typeD_eq]; rfl
    · rw [hv.ob_type_eq]; rfl

/-- C5: when the parent/child graph below `w` is a finite tree, for a wrapper `w` without parent, whatever its
type behaviour, ownership flag and `containsCppWrapper` flag, `releaseOwnership(w)` followed
by `getOwnership(w)` (fuel above the rank of `w`) returns and leaves `w` owning its native
object. -/
theorem releaseOwnership_then_getOwnership (rank : Ptr → Nat) (n : Nat) (s : State) (w : Ptr)
    (hT : TreeBelow s rank w) (hn : rank w < n) (hp : parentOf s w = NULL) :
    ∃ s1 s2, releaseOwnership n s w = some s1 ∧ getOwnership n s1 w = some s2 ∧
      (s2.d w).hasOwnership = true := by
  -- whatever `releaseOwnership` returns has a tree below `w`, and `w` has no parent
  have key : ∃ s1, releaseOwnership n s w = some s1 ∧ TreeBelow s1 rank w ∧
      parentOf s1 w = NULL := by
    by_cases h1 : (s.d w).hasOwnership = false ∨
        (s.typeD (s.ob_type w)).type_behaviour = BEHAVIOUR_VALUETYPE
    · exact ⟨s, releaseOwnership_skip n s w h1, hT, hp⟩
    have ho : (s.d w).hasOwnership = true := by
      by_contra hne
      exact h1 (Or.inl (by simpa using hne))
    have hvt : (s.typeD (s.ob_type w)).type_behaviour ≠ BEHAVIOUR_VALUETYPE :=
      fun e => h1 (Or.inr e)
    have hF1 : TreeBelow (s.setD w { s.d w with hasOwnership := false }) rank w :=
      hT.of_parentInfo_eq (fun y => setHasOwnership_parentInfo s w false y)
    have hp1 : parentOf (s.setD w { s.d w with hasOwnership := false }) w = NULL := by
      simpa only [parentOf, setHasOwnership_parentInfo] using hp
    by_cases hc : (s.d w).containsCppWrapper = true
    · refine ⟨_, releaseOwnership_incref n s w ho hvt hc,
        hF1.of_parentInfo_eq (fun y => rfl), hp1⟩
    · have hc' : (s.d w).containsCppWrapper = false := by simpa using hc
      obtain ⟨s1, hs1, hF2, -, -⟩ :=
        invalidate_total rank w n _ w hF1 Relation.ReflTransGen.refl hn
      exact ⟨s1, by rw [releaseOwnership_invalidate n s w ho hvt hc']; exact hs1, hF2,
        (invalidate_step n _ w s1 hs1).parent_null w hp1⟩
  obtain ⟨s1, h1, hF1, hp1⟩ := key
  obtain ⟨s2, h2, ho2, -⟩ := getOwnership_total rank n s1 w
    (fun p hp q hq => ((hF1 p hp).2 q hq).2.2.2) hn hp1
  exact ⟨s1, s2, h1, h2, ho2⟩

/-- C5, witness: the root `2` of `treeState` releases its ownership and gets it back. -/
theorem releaseOwnership_then_getOwnership_witness :
    ∃ s1 s2, releaseOwnership 3 treeState 2 = some s1 ∧ getOwnership 3 s1 2 = some s2 ∧
      (s2.d 2).hasOwnership = true :=
  releaseOwnership_then_getOwnership treeRank 3 treeState 2 tree_treeState (by decide)
    (by decide)

/-- C6 (amended): when the parent/child graph below `w` is a finite tree, for a wrapper `w`
without parent whose
type is not a value type, `getOwnership(w)` followed by `releaseOwnership(w)` (fuel above the
rank of `w`) returns and leaves `w` not owning its native object; in particular a wrapper that
did not own its native object before does not own it again. -/
theorem getOwnership_then_releaseOwnership (rank : Ptr → Nat) (n : Nat) (s : State) (w : Ptr)
    (hT : TreeBelow s rank w) (hn : rank w < n) (hp : parentOf s w = NULL)
    (hvt : (s.typeD (s.ob_type w)).type_behaviour ≠ BEHAVIOUR_VALUETYPE) :
    ∃ s1 s2, getOwnership n s w = some s1 ∧ releaseOwnership n s1 w = some s2 ∧
      (s2.d w).hasOwnership = false := by
  obtain ⟨s1, h1, ho1, hpi, -, hty, hot⟩ := getOwnership_total rank n s w
    (fun p hp q hq => ((hT p hp).2 q hq).2.2.2) hn hp
  have hF1 : TreeBelow s1 rank w := hT.of_parentInfo_eq hpi
  have hvt1 : (s1.typeD (s1.ob_type w)).type_behaviour ≠ BEHAVIOUR_VALUETYPE := by
    rw [hty, hot]; exact hvt
  have hF2 : TreeBelow (s1.setD w { s1.d w with hasOwnership := false }) rank w :=
    hF1.of_parentInfo_eq (fun y => setHasOwnership_parentInfo s1 w false y)
  by_cases hc : (s1.d w).containsCppWrapper = true
  · exact ⟨s1, _, h1, releaseOwnership_incref n s1 w ho1 hvt1 hc, by simp⟩
  · have hc' : (s1.d w).containsCppWrapper = false := by simpa using hc
    obtain ⟨s2, hs2, -, -, hown⟩ :=
      invalidate_total rank w n _ w hF2 Relation.ReflTransGen.refl hn
    refine ⟨s1, s2, h1, by rw [releaseOwnership_invalidate n s1 w ho1 hvt1 hc']; exact hs2, ?_⟩
    rw [hown w (le_refl _)]
    simp

/-- C6, witness: a parentless wrapper `4` that does not own its native object gets the
ownership and releases it again. -/
theorem getOwnership_then_releaseOwnership_witness :
    ∃ s1 s2, getOwnership 1 (baseState.setD 4 { hasOwnership := false }) 4 = some s1 ∧
      releaseOwnership 1 s1 4 = some s2 ∧ (s2.d 4).hasOwnership = false :=
  getOwnership_then_releaseOwnership (fun _ => 0) 1 (baseState.setD 4 { hasOwnership := false })
    4 (tree_of_no_children _ _ 4 (fun p => by
      by_cases hp : p = 4 <;> simp [childrenOf, hp, baseState])) (by decide) (by decide)
    (by decide)

/-- C6, counterexample: wrapper `2` of `valueState` has a value type, no parent and does not
own its native object; after `getOwnership(2)` and `releaseOwnership(2)` it owns it. -/
theorem getOwnership_then_releaseOwnership_counterexample :
    (valueState.d 2).hasOwnership = false ∧ parentOf valueState 2 = NULL ∧
    ((getOwnership 1 valueState 2).bind fun s1 => releaseOwnership 1 s1 2).map
      (fun s2 => (s2.d 2).hasOwnership) = some true := by
  decide

/-! ## Validity test -/

/-- C11: for a non-null wrapper `w`, `isValid(w, true)` returns false with the RuntimeError
"Base constructor of the object (...) not called." when the type of `w` is a user type and
`cppObjectCreated` is false, whatever `validCppObject` is; otherwise it returns false with the
different RuntimeError "Internal C++ object (...) already deleted." when `validCppObject` is
false; in every other case it returns true and sets no error. -/
theorem isValid_errors (tp_name : Ptr → String) (s : State) (w : Ptr) (hw : w ≠ NULL) :
    (ObjectType.isUserType s (s.ob_type w) = true ∧ (s.d w).cppObjectCreated = false →
      isValid tp_name s w true = (false, some ⟨.PyExc_RuntimeError,
        "Base constructor of the object (" ++ tp_name (s.ob_type w) ++ ") not called."⟩)) ∧
    (¬(ObjectType.isUserType s (s.ob_type w) = true ∧ (s.d w).cppObjectCreated = false) →
      (s.d w).validCppObject = false →
      isValid tp_name s w true = (false, some ⟨.PyExc_RuntimeError,
        "Internal C++ object (" ++ tp_name (s.ob_type w) ++ ") already deleted."⟩)) ∧
    (¬(ObjectType.isUserType s (s.ob_type w) = true ∧ (s.d w).cppObjectCreated = false) →
      (s.d w).validCppObject = true →
      isValid tp_name s w true = (true, none)) ∧
    "Base constructor of the object (" ++ tp_name (s.ob_type w) ++ ") not called." ≠
      "Internal C++ object (" ++ tp_name (s.ob_type w) ++ ") already deleted." := by
  refine ⟨?_, ?_, ?_, ?_⟩
  · rintro ⟨hu, hc⟩
    simp [isValid, hw, Object.isUserType, hu, hc]
  · intro hna hv
    have hna' : ¬((!(s.d w).cppObjectCreated && Object.isUserType s w) = true) := by
      simpa [Object.isUserType, and_comm] using hna
    simp [isValid, hw, hna', hv]
  · intro hna hv
    have hna' : ¬((!(s.d w).cppObjectCreated && Object.isUserType s w) = true) := by
      simpa [Object.isUserType, and_comm] using hna
    simp [isValid, hw, hna', hv]
  · intro h
    have h2 := congrArg String.data h
    simp only [String.data_append] at h2
    exact absurd (List.head_eq_of_cons_eq h2) (by decide)

/-- C11, witness: wrapper `2` of `baseState` has a type that is no user type and an invalid
native object. -/
theorem isValid_errors_witness :
    isValid (fun _ => "QObject") baseState 2 true =
      (false, some ⟨.PyExc_RuntimeError, "Internal C++ object (QObject) already deleted."⟩) :=
  (isValid_errors (fun _ => "QObject") baseState 2 (by decide)).2.1 (by decide) (by decide)

/-! ## Ownership no-ops -/

/-- C13: for a wrapper `w` that has the ownership already, or that has a parent,
`getOwnership(w)` returns the state it was given: ownership flags, validity flags, parent
links, children sets and reference counts of all wrappers are as before. -/
theorem getOwnership_noop (fuel : Nat) (s : State) (w : Ptr)
    (h : (s.d w).hasOwnership = true ∨ parentOf s w ≠ NULL) :
    getOwnership fuel s w = some s := by
  unfold getOwnership
  rcases h with h | h
  · simp [h]
  · simp [h]

/-- C13, witness: the child `3` of `childState` has a parent. -/
theorem getOwnership_noop_witness : getOwnership 0 childState 3 = some childState :=
  getOwnership_noop 0 childState 3 (Or.inr (by decide))

/-! ## Detaching a child -/

/-- Detaching a child that is in the children set of the wrapper it names as parent: what
happens to the children set, the parent link, the wrapper reference, the ownership flag and
the reference count of the child. -/
theorem removeParent_detach (s : State) (child P : Ptr) (g k : Bool)
    (hp : parentOf s child = P) (hP : P ≠ NULL) (hmem : child ∈ childrenOf s P)
    (hnd : (childrenOf s P).Nodup) :
    ∃ s1, removeParent s child g k = some s1 ∧
      childrenOf s1 P = (childrenOf s P).erase child ∧ child ∉ childrenOf s1 P ∧
      parentOf s1 child = NULL ∧
      (k = true ∧ (s.d child).containsCppWrapper = true →
        ((s1.d child).parentInfo.map fun p => p.hasWrapperRef) = some true ∧
        (s1.d child).hasOwnership = (s.d child).hasOwnership ∧
        s1.ob_refcnt child =
          if ((s.d child).parentInfo.map fun p => p.hasWrapperRef) = some true
          then s.ob_refcnt child - 1 else s.ob_refcnt child) ∧
      (¬(k = true ∧ (s.d child).containsCppWrapper = true) →
        (s1.d child).hasOwnership = g ∧ s1.ob_refcnt child = s.ob_refcnt child - 1) := by
  have hP' : NULL ≠ P := Ne.symm hP
  have hne : child ∉ (childrenOf s P).erase child := fun h => (hnd.mem_erase_iff.1 h).1 rfl
  unfold removeParent
  rcases hpc : (s.d child).parentInfo with _ | pInfo
  · simp_all [parentOf]
  rcases hpx : (s.d P).parentInfo with _ | ppInfo
  · simp_all [childrenOf]
  have hpp : pInfo.parent = P := by simpa [parentOf, hpc] using hp
  have hm : child ∈ ppInfo.children := by simpa [childrenOf, hpx] using hmem
  have hne2 : child ∉ ppInfo.children.erase child := by simpa [childrenOf, hpx] using hne
  subst hpp
  simp only [hP, if_false, hpx, hm, not_true_eq_false]
  by_cases hcx : child = pInfo.parent
  · have hpp : ppInfo = pInfo := by
      rw [← hcx, hpc] at hpx
      exact (Option.some.inj hpx).symm
    subst hpp
    rw [← hcx]
    clear hcx hpx hP hP' hp
    by_cases hk : (k && (s.d child).containsCppWrapper) = true
    · by_cases hw : ppInfo.hasWrapperRef = true <;>
      · refine ⟨_, by simp [State.setParentInfo, hpc, hk, hw]; rfl, ?_, ?_, ?_, ?_, ?_⟩
        all_goals simp_all [State.setParentInfo, parentOf, childrenOf]
    · by_cases he : ppInfo.children.erase child = [] <;>
      · refine ⟨_, by simp [State.setParentInfo, hpc, hk, he, childrenOf]; rfl, ?_, ?_, ?_, ?_, ?_⟩
        all_goals simp_all [State.setParentInfo, parentOf, childrenOf]
  · have hxc : pInfo.parent ≠ child := Ne.symm hcx
    by_cases hk : (k && (s.d child).containsCppWrapper) = true
    · by_cases hw : pInfo.hasWrapperRef = true <;>
      · refine ⟨_, by simp [State.setParentInfo, hcx, hxc, hpc, hk, hw]; rfl, ?_, ?_, ?_, ?_, ?_⟩
        all_goals simp_all [State.setParentInfo, parentOf, childrenOf]
    · by_cases he : pInfo.children = [] <;>
      · refine ⟨_, by simp [State.setParentInfo, hcx, hxc, hpc, hk, he, childrenOf]; rfl,
          ?_, ?_, ?_, ?_, ?_⟩
        all_goals simp_all [State.setParentInfo, parentOf, childrenOf]

/-- C16: for a child that names `P` as its parent and is in the children set of `P`,
`removeParent(child, giveOwnershipBack, keepReference)` returns, takes the child (and nothing
else) out of the children set of `P` and clears the parent of the child. When `keepReference`
is true and the child embeds the native storage, the child holds the wrapper reference
afterwards (`hasWrapperRef`), its ownership flag is as before, and its count is lowered only if
it held the wrapper reference already. Otherwise the ownership flag of the child is
`giveOwnershipBack` and its reference count is one lower. -/
theorem removeParent_child (s : State) (child P : Ptr) (g k : Bool)
    (hp : parentOf s child = P) (hP : P ≠ NULL) (hmem : child ∈ childrenOf s P)
    (hnd : (childrenOf s P).Nodup) :
    ∃ s1, removeParent s child g k = some s1 ∧
      childrenOf s1 P = (childrenOf s P).erase child ∧ child ∉ childrenOf s1 P ∧
      parentOf s1 child = NULL ∧
      (k = true ∧ (s.d child).containsCppWrapper = true →
        ((s1.d child).parentInfo.map fun p => p.hasWrapperRef) = some true ∧
        (s1.d child).hasOwnership = (s.d child).hasOwnership ∧
        s1.ob_refcnt child =
          if ((s.d child).parentInfo.map fun p => p.hasWrapperRef) = some true
          then s.ob_refcnt child - 1 else s.ob_refcnt child) ∧
      (¬(k = true ∧ (s.d child).containsCppWrapper = true) →
        (s1.d child).hasOwnership = g ∧ s1.ob_refcnt child = s.ob_refcnt child - 1) :=
  removeParent_detach s child P g k hp hP hmem hnd

/-- C16, witness: the child `3` of `childState` is detached from its parent `2`. -/
theorem removeParent_child_witness :
    ∃ s1, removeParent childState 3 true false = some s1 ∧
      childrenOf s1 2 = (childrenOf childState 2).erase 3 ∧ 3 ∉ childrenOf s1 2 ∧
      parentOf s1 3 = NULL ∧
      (false = true ∧ (childState.d 3).containsCppWrapper = true →
        ((s1.d 3).parentInfo.map fun p => p.hasWrapperRef) = some true ∧
        (s1.d 3).hasOwnership = (childState.d 3).hasOwnership ∧
        s1.ob_refcnt 3 =
          if ((childState.d 3).parentInfo.map fun p => p.hasWrapperRef) = some true
          then childState.ob_refcnt 3 - 1 else childState.ob_refcnt 3) ∧
      (¬(false = true ∧ (childState.d 3).containsCppWrapper = true) →
        (s1.d 3).hasOwnership = true ∧ s1.ob_refcnt 3 = childState.ob_refcnt 3 - 1) :=
  removeParent_child childState 3 2 true false (by decide) (by decide) (by decide) (by decide)

/-! ## Integer conversions -/

theorem static_cast_of_fits (T : IntType) (hb : 0 < T.bits) (v : Int)
    (h1 : T.min ≤ v) (h2 : v ≤ T.max) : static_cast T v = v := by
  have hpow : (2 : Int) ^ T.bits = 2 * 2 ^ (T.bits - 1) := by
    obtain ⟨k, hk⟩ : ∃ k, T.bits = k + 1 := ⟨T.bits - 1, by omega⟩
    rw [hk]; simp [pow_succ]; ring
  have hpos : (0 : Int) < 2 ^ (T.bits - 1) := by positivity
  unfold static_cast
  unfold IntType.min at h1
  unfold IntType.max at h2
  by_cases hs : T.is_signed = true
  · simp only [hs, if_true] at h1 h2 ⊢
    rw [Int.emod_eq_of_lt (by omega) (by omega)]
    omega
  · simp only [hs, Bool.false_eq_true, if_false] at h1 h2 ⊢
    exact Int.emod_eq_of_lt h1 (by omega)

theorem check_iff (T : IntType) (v : Int) (hv2 : v ≤ LLONG_MAX) :
    OverFlowChecker.check T v = true ↔ (v < T.min ∨ v > T.max) := by
  unfold OverFlowChecker.check
  by_cases hs : T.is_signed = true
  · simp [hs]
  · have hmin : T.min = 0 := by simp [IntType.min, hs]
    simp only [hs, Bool.false_eq_true, if_false, Bool.or_eq_true, decide_eq_true_eq, hmin]
    by_cases h0 : v < 0
    · simp [h0]
    · have : v % 2 ^ 64 = v := Int.emod_eq_of_lt (by omega) (by
        unfold LLONG_MAX at hv2; omega)
      rw [this]

/-- C12: for an integer type `INT` and a Python number whose value `v` is
read as a `PY_LONG_LONG` (the integer value of the number, or the truncated value of a float),
`IntPrimitive<INT>::toCpp` sets `OverflowError` exactly when `v` is below the minimum or above
the maximum of `INT` (the minimum of an unsigned type being zero), and when no error is set the
returned value is `v`. A Python integer that no `PY_LONG_LONG` holds leaves an `OverflowError`
set as well, and so does the float `1e400` (an infinity) for a 32-bit `int`. -/
theorem toCpp_overflow (conv : FloatConversion) (INT : IntType) (hb : 0 < INT.bits) :
    (∀ v : Int, LLONG_MIN ≤ v → v ≤ LLONG_MAX →
      (((IntPrimitive.toCpp conv INT (.PyLong v)).2 = some .PyExc_OverflowError ↔
          (v < INT.min ∨ v > INT.max)) ∧
        ((IntPrimitive.toCpp conv INT (.PyLong v)).2 = none →
          (IntPrimitive.toCpp conv INT (.PyLong v)).1 = v))) ∧
    (∀ m e : Int, LLONG_MIN ≤ Double.trunc m e → Double.trunc m e ≤ LLONG_MAX →
      (((IntPrimitive.toCpp conv INT (.PyFloat (.finite m e))).2 = some .PyExc_OverflowError ↔
          (Double.trunc m e < INT.min ∨ Double.trunc m e > INT.max)) ∧
        ((IntPrimitive.toCpp conv INT (.PyFloat (.finite m e))).2 = none →
          (IntPrimitive.toCpp conv INT (.PyFloat (.finite m e))).1 = Double.trunc m e))) ∧
    (∀ v : Int, ¬(LLONG_MIN ≤ v ∧ v ≤ LLONG_MAX) →
      (IntPrimitive.toCpp conv INT (.PyLong v)).2 = some .PyExc_OverflowError) ∧
    (IntPrimitive.toCpp conv ⟨32, true⟩ (.PyFloat (.inf false))).2 =
      some .PyExc_OverflowError := by
  refine ⟨fun v hv1 hv2 => ?_, fun m e hv1 hv2 => ?_, fun v hv => ?_, ?_⟩
  · have hc := check_iff INT v hv2
    simp only [IntPrimitive.toCpp, PyLong_AsLongLong, hv1, hv2, and_self, if_true]
    by_cases hk : OverFlowChecker.check INT v = true
    · simp [hk, hc.1 hk]
    · have hn : ¬(v < INT.min ∨ v > INT.max) := fun h => hk (hc.2 h)
      simp only [hk, Bool.false_eq_true, if_false, hn, iff_false]
      refine ⟨by simp, fun _ => static_cast_of_fits INT hb v (by omega) (by omega)⟩
  · have hc := check_iff INT _ hv2
    simp only [IntPrimitive.toCpp, Double.toLongLong, hv1, hv2, and_self, if_true]
    by_cases hk : OverFlowChecker.check INT (Double.trunc m e) = true
    · simp [hk, hc.1 hk]
    · have hn : ¬(Double.trunc m e < INT.min ∨ Double.trunc m e > INT.max) :=
        fun h => hk (hc.2 h)
      simp only [hk, Bool.false_eq_true, if_false, hn, iff_false]
      refine ⟨by simp, fun _ => static_cast_of_fits INT hb _ (by omega) (by omega)⟩
  · simp only [IntPrimitive.toCpp, PyLong_AsLongLong, hv, if_false]
    split_ifs <;> rfl
  · cases conv <;> decide

/-- C12, witness: `70000` is converted to a 32-bit `int` without error and overflows a 16-bit
`short`. -/
theorem toCpp_overflow_witness :
    IntPrimitive.toCpp .indefinite ⟨32, true⟩ (.PyLong 70000) = (70000, none) ∧
    (IntPrimitive.toCpp .indefinite ⟨16, true⟩ (.PyLong 70000)).2 =
      some .PyExc_OverflowError := by
  have h16 := (toCpp_overflow .indefinite ⟨16, true⟩ (by decide)).1 70000
    (by decide) (by decide)
  exact ⟨by decide, h16.1.2 (by decide)⟩

/-! ## Wrapper construction -/

theorem BindingManager.retrieveWrapper_registerWrapper (s : State) (self p w : Ptr)
    (hw : BindingManager.retrieveWrapper s p = w) (hw0 : w ≠ NULL) :
    BindingManager.registerWrapper s self p = s := by
  unfold BindingManager.registerWrapper
  have : BindingManager.hasWrapper s p = true := by
    unfold BindingManager.hasWrapper
    unfold BindingManager.retrieveWrapper at hw
    rcases hf : s.wrapperMapper.find? (fun e => e.1 = p) with _ | e
    · rw [hf] at hw; exact absurd hw.symm hw0
    · have h1 := List.find?_some hf
      have h2 := List.mem_of_find?_eq_some hf
      exact List.any_eq_true.2 ⟨e, h2, h1⟩
  rw [if_pos this]

/-- C14 (amended): while a wrapper `w` is registered for the native pointer `p`,
`newObject(T, p, ...)` does not return `w`: it returns the object it has just allocated, which
is another object than the live wrapper `w`, and the binding manager still resolves `p` to
`w`. The generated pointer conversion, which asks `retrieveWrapper` first, returns `w` itself
and leaves the table as it is. -/
theorem newObject_allocates (fns : TypeFunctions) (s : State) (self T p w : Ptr)
    (hasOwnership isExactType : Bool) (typeName : Option String)
    (hw : BindingManager.retrieveWrapper s p = w) (hw0 : w ≠ NULL) (hself : self ≠ w) :
    (newObject fns s self T p hasOwnership isExactType typeName).2 = self ∧
    (newObject fns s self T p hasOwnership isExactType typeName).2 ≠ w ∧
    BindingManager.retrieveWrapper
      (newObject fns s self T p hasOwnership isExactType typeName).1 p = w ∧
    (PTR_CppToPython fns s self T p typeName).2 = w ∧
    (PTR_CppToPython fns s self T p typeName).1.wrapperMapper = s.wrapperMapper := by
  refine ⟨rfl, hself, ?_, ?_, ?_⟩
  · simp only [newObject]
    rw [BindingManager.retrieveWrapper_registerWrapper _ self p w _ hw0]
    all_goals simpa [BindingManager.retrieveWrapper, SbkObjectTpNew] using hw
  · simp [PTR_CppToPython, hw, hw0]
  · simp [PTR_CppToPython, hw, hw0]

/-- C14, witness: with wrapper `2` registered for the native pointer `0x1000`, `newObject`
returns the new object `3`. -/
theorem newObject_allocates_witness :
    (newObject sampleTypeFunctions deallocState 3 9 0x1000 false false none).2 = 3 ∧
    (newObject sampleTypeFunctions deallocState 3 9 0x1000 false false none).2 ≠ 2 ∧
    BindingManager.retrieveWrapper
      (newObject sampleTypeFunctions deallocState 3 9 0x1000 false false none).1 0x1000 = 2 ∧
    (PTR_CppToPython sampleTypeFunctions deallocState 3 9 0x1000 none).2 = 2 ∧
    (PTR_CppToPython sampleTypeFunctions deallocState 3 9 0x1000 none).1.wrapperMapper =
      deallocState.wrapperMapper :=
  newObject_allocates sampleTypeFunctions deallocState 3 9 0x1000 2 false false none
    (by decide) (by decide) (by decide)

/-- C14, counterexample: `newObject` wraps the native pointer `0x2000` in the new object `5`
and registers it; wrapping the same pointer again while `5` is registered returns the new
object `6`, not `5`. -/
theorem newObject_allocates_counterexample :
    (newObject sampleTypeFunctions baseState 5 9 0x2000 false true none).2 = 5 ∧
    BindingManager.retrieveWrapper
      (newObject sampleTypeFunctions baseState 5 9 0x2000 false true none).1 0x2000 = 5 ∧
    (newObject sampleTypeFunctions
      (newObject sampleTypeFunctions baseState 5 9 0x2000 false true none).1
      6 9 0x2000 false true none).2 = 6 := by
  decide

/-! ## Frames of the parenting operations -/

/-- What `removeParent` leaves alone, whatever branch it takes: the parent links of the other
wrappers, the reference counts of the other wrappers, the native pointers, the binding manager
table, the private data of every wrapper but the child and its parent, and the wrapper
reference flag of every wrapper but the child. -/
theorem removeParent_frame (s s1 : State) (c : Ptr) (g k : Bool)
    (h : removeParent s c g k = some s1) :
    (∀ y, y ≠ c → parentOf s1 y = parentOf s y) ∧
    (parentOf s1 c = parentOf s c ∨ parentOf s1 c = NULL) ∧
    (∀ y, y ≠ c → s1.ob_refcnt y = s.ob_refcnt y) ∧
    (s1.ob_refcnt c = s.ob_refcnt c ∨ s1.ob_refcnt c = s.ob_refcnt c - 1) ∧
    (∀ y, (s1.d y).cptr = (s.d y).cptr) ∧
    s1.wrapperMapper = s.wrapperMapper ∧
    (∀ y, y ≠ c → y ≠ parentOf s c → s1.d y = s.d y) ∧
    (∀ y, y ≠ c → (s1.d y).parentInfo.isSome = (s.d y).parentInfo.isSome) ∧
    (∀ y, y ≠ c → wrapperRefOf s1 y = wrapperRefOf s y) := by
  unfold removeParent at h
  rcases hpc : (s.d c).parentInfo with _ | pInfo
  · simp only [hpc, Option.some.injEq] at h
    subst h
    exact ⟨fun _ _ => rfl, Or.inl rfl, fun _ _ => rfl, Or.inl rfl, fun _ => rfl, rfl,
      fun _ _ _ => rfl, fun _ _ => rfl, fun _ _ => rfl⟩
  simp only [hpc] at h
  by_cases hp0 : pInfo.parent = NULL
  · simp only [hp0, if_true] at h
    by_cases hw : pInfo.hasWrapperRef = true
    · simp only [hw, if_true, Option.some.injEq] at h
      subst h
      refine ⟨?_, ?_, ?_, ?_, ?_, rfl, ?_, ?_, ?_⟩
      all_goals try intro y
      all_goals try by_cases hy : y = c
      all_goals simp_all [State.setParentInfo, parentOf, childrenOf, wrapperRefOf]
    · simp only [hw, Bool.false_eq_true, if_false, Option.some.injEq] at h
      subst h
      exact ⟨fun _ _ => rfl, Or.inl rfl, fun _ _ => rfl, Or.inl rfl, fun _ => rfl, rfl,
        fun _ _ _ => rfl, fun _ _ => rfl, fun _ _ => rfl⟩
  · simp only [hp0, if_false] at h
    rcases hpY : (s.d pInfo.parent).parentInfo with _ | ppInfo
    · simp [hpY] at h
    simp only [hpY] at h
    by_cases hmem : c ∈ ppInfo.children
    · simp only [hmem, not_true_eq_false, if_false] at h
      by_cases hcY : c = pInfo.parent
      · have hpp : ppInfo = pInfo := by
          rw [← hcY, hpc] at hpY
          exact (Option.some.inj hpY).symm
        subst hpp
        rw [← hcY] at h
        clear hcY hpY hp0
        split_ifs at h <;> simp only [Option.some.injEq] at h <;> subst h <;>
        refine ⟨?_, ?_, ?_, ?_, ?_, rfl, ?_, ?_, ?_⟩
        all_goals try intro y
        all_goals try by_cases hy : y = c
        all_goals simp_all [State.setParentInfo, parentOf, childrenOf, wrapperRefOf]
      · have hYc : pInfo.parent ≠ c := Ne.symm hcY
        split_ifs at h <;> simp only [Option.some.injEq] at h <;> subst h <;>
        refine ⟨?_, ?_, ?_, ?_, ?_, rfl, ?_, ?_, ?_⟩
        all_goals try intro y
        all_goals try by_cases hy : y = c
        all_goals try by_cases hxY : y = pInfo.parent
        all_goals simp_all [State.setParentInfo, parentOf, childrenOf, wrapperRefOf]
    · simp only [hmem, not_false_eq_true, if_true, Option.some.injEq] at h
      subst h
      exact ⟨fun _ _ => rfl, Or.inl rfl, fun _ _ => rfl, Or.inl rfl, fun _ => rfl, rfl,
        fun _ _ _ => rfl, fun _ _ => rfl, fun _ _ => rfl⟩

/-- The body of `setParent` in terms of its blocks. -/
theorem setParentOfWrapper_blocks (s : State) (p c : Ptr) :
    setParentOfWrapper s p c =
      if (!(decide (p = NULL) || decide (p = Py_None)) &&
          decide (((setParent_newParentInfo s p).d c).parentInfo.map (fun q => q.parent) = some p))
          = true
      then some (setParent_newParentInfo s p)
      else
        (setParent_removeOld (Py_INCREF (setParent_newParentInfo s p) c) p c).bind fun s3 =>
          (if (!(decide (p = NULL) || decide (p = Py_None))) = true
            then setParent_addChild s3 p c else some s3).map fun s6 => Py_DECREF s6 c := by
  rfl

theorem setParent_newParentInfo_facts (s : State) (p : Ptr) :
    (∀ y, parentOf (setParent_newParentInfo s p) y = parentOf s y) ∧
    (∀ y, childrenOf (setParent_newParentInfo s p) y = childrenOf s y) ∧
    (∀ y, wrapperRefOf (setParent_newParentInfo s p) y = wrapperRefOf s y) ∧
    (∀ y, ((setParent_newParentInfo s p).d y).containsCppWrapper =
      (s.d y).containsCppWrapper) ∧
    (p ≠ NULL → p ≠ Py_None → ((setParent_newParentInfo s p).d p).parentInfo.isSome = true) := by
  unfold setParent_newParentInfo
  refine ⟨?_, ?_, ?_, ?_, ?_⟩
  all_goals try intro y
  all_goals split_ifs with hc
  all_goals try by_cases hy : y = p
  all_goals rcases hp : (s.d p).parentInfo with _ | pi
  all_goals simp_all [parentOf, childrenOf, wrapperRefOf, State.setParentInfo]

theorem setParent_addChild_facts (s3 s6 : State) (p c : Ptr)
    (h : setParent_addChild s3 p c = some s6) :
    (∀ y, parentOf s6 y = if y = c then p else parentOf s3 y) ∧
    (∀ y, childrenOf s6 y =
      if y = p then ChildrenList.insert c (childrenOf s3 p) else childrenOf s3 y) ∧
    (∀ y, wrapperRefOf s6 y = wrapperRefOf s3 y) ∧
    (∀ y, (s6.d y).containsCppWrapper = (s3.d y).containsCppWrapper) := by
  unfold setParent_addChild at h
  dsimp only at h
  by_cases hpc : p = c
  · subst hpc
    simp only [State.setParentInfo, State.setD_d, if_true, Option.some.injEq] at h
    subst h
    refine ⟨?_, ?_, ?_, ?_⟩
    all_goals intro y
    all_goals by_cases hy : y = p
    all_goals rcases hp : (s3.d p).parentInfo with _ | pi
    all_goals simp_all [parentOf, childrenOf, wrapperRefOf, State.setParentInfo]
  · rcases hpp : (s3.d p).parentInfo with _ | ppi
    · simp [State.setParentInfo, hpc, hpp] at h
    · simp only [State.setParentInfo, State.setD_d, hpc, if_false, hpp, Option.some.injEq] at h
      subst h
      have hcp : c ≠ p := Ne.symm hpc
      refine ⟨?_, ?_, ?_, ?_⟩
      all_goals intro y
      all_goals by_cases hy : y = p
      all_goals by_cases hyc : y = c
      all_goals rcases hc : (s3.d c).parentInfo with _ | pi
      all_goals simp_all [parentOf, childrenOf, wrapperRefOf, State.setParentInfo]

/-- A relation between the states before and after the body of `setParent` that is reflexive
and transitive holds for `setParent` on wrappers and on native sequences. -/
theorem setParent_induction (R : State → State → Prop) (p : Ptr) (hrefl : ∀ s, R s s)
    (htrans : ∀ a b c, R a b → R b c → R a c)
    (hw : ∀ s c s1, c ≠ NULL → c ≠ Py_None → c ≠ p → setParentOfWrapper s p c = some s1 →
      R s s1) :
    ∀ fuel s c s1, setParent fuel s p c = some s1 → R s s1 := by
  intro fuel
  induction fuel with
  | zero => intro s c s1 h; simp [setParent] at h
  | succ n ih =>
    intro s c s1 h
    unfold setParent at h
    split_ifs at h with h1 h2
    · simp only [Option.some.injEq] at h
      subst h
      exact hrefl s
    · have key : ∀ (l : List Ptr) (a b : State),
          l.foldlM (fun st item => setParent n st p item) a = some b → R a b := by
        intro l
        induction l with
        | nil =>
          intro a b hab
          simp only [List.foldlM, pure, Option.some.injEq] at hab
          subst hab
          exact hrefl a
        | cons x xs ihl =>
          intro a b hab
          simp only [List.foldlM, bind] at hab
          rcases hx : setParent n a p x with _ | a1
          · simp [hx] at hab
          · rw [hx, Option.some_bind] at hab
            exact htrans _ _ _ (ih a x a1 hx) (ihl a1 b hab)
      exact key _ _ _ h
    · have h1' : c ≠ NULL ∧ c ≠ Py_None ∧ c ≠ p := by
        refine ⟨fun e => h1 (Or.inl e), fun e => h1 (Or.inr (Or.inl e)),
          fun e => h1 (Or.inr (Or.inr e))⟩
      exact hw s c s1 h1'.1 h1'.2.1 h1'.2.2 h

theorem setParentOfWrapper_parentOf (s s7 : State) (p c : Ptr)
    (h : setParentOfWrapper s p c = some s7) :
    ∀ y, parentOf s7 y = parentOf s y ∨ parentOf s7 y = NULL ∨ (y = c ∧ parentOf s7 y = p) := by
  rw [setParentOfWrapper_blocks] at h
  obtain ⟨hn1, -⟩ := setParent_newParentInfo_facts s p
  intro y
  split_ifs at h with hsame hnull
  · simp only [Option.some.injEq] at h
    subst h
    exact Or.inl (hn1 y)
  · -- the new parent is a wrapper
    rcases hrem : setParent_removeOld (Py_INCREF (setParent_newParentInfo s p) c) p c with _ | s3
    · simp [hrem] at h
    rw [hrem, Option.some_bind] at h
    rcases hadd : setParent_addChild s3 p c with _ | s6
    · simp [hadd] at h
    rw [hadd] at h
    simp only [Option.map_some', Option.some.injEq] at h
    subst h
    obtain ⟨ha1, -⟩ := setParent_addChild_facts s3 s6 p c hadd
    have h7 : parentOf (Py_DECREF s6 c) y = parentOf s6 y := by simp [parentOf]
    rw [h7, ha1]
    by_cases hy : y = c
    · exact Or.inr (Or.inr ⟨hy, by rw [if_pos hy]⟩)
    · rw [if_neg hy]
      have h2 : parentOf (Py_INCREF (setParent_newParentInfo s p) c) y = parentOf s y := by
        rw [← hn1 y]; simp [parentOf]
      unfold setParent_removeOld at hrem
      split_ifs at hrem
      · rw [(removeParent_frame _ _ _ _ _ hrem).1 y hy, h2]
        exact Or.inl rfl
      · simp only [Option.some.injEq] at hrem
        subst hrem
        exact Or.inl h2
  · -- the new parent is null
    rcases hrem : setParent_removeOld (Py_INCREF (setParent_newParentInfo s p) c) p c with _ | s3
    · simp [hrem] at h
    rw [hrem, Option.some_bind] at h
    simp only [Option.map_some', Option.some.injEq] at h
    subst h
    have h7 : parentOf (Py_DECREF s3 c) y = parentOf s3 y := by simp [parentOf]
    have h2 : parentOf (Py_INCREF (setParent_newParentInfo s p) c) y = parentOf s y := by
      rw [← hn1 y]; simp [parentOf]
    rw [h7]
    unfold setParent_removeOld at hrem
    split_ifs at hrem
    · obtain ⟨hf1, hf2, -⟩ := removeParent_frame _ _ _ _ _ hrem
      by_cases hy : y = c
      · subst hy
        rcases hf2 with hf2 | hf2
        · exact Or.inl (by rw [hf2, h2])
        · exact Or.inr (Or.inl hf2)
      · exact Or.inl (by rw [hf1 y hy, h2])
    · simp only [Option.some.injEq] at hrem
      subst hrem
      exact Or.inl h2

/-- C18 (amended): in every state reached from wrappers without parent by calls of `setParent`
and `removeParent`, no wrapper is its own parent. -/
theorem parent_not_self (s0 s : State) (h0 : ∀ o, parentOf s0 o = NULL)
    (hr : Relation.ReflTransGen ParentingCall s0 s) :
    ∀ c, parentOf s c ≠ NULL → parentOf s c ≠ c := by
  induction hr with
  | refl => intro c hc; exact absurd (h0 c) hc
  | @tail a b _ hstep ih =>
    rcases hstep with ⟨fuel, p, c, h⟩ | ⟨c, g, k, h⟩
    · have hR := setParent_induction
        (fun s s1 => ∀ y, parentOf s1 y = parentOf s y ∨ parentOf s1 y = NULL ∨
          (parentOf s1 y = p ∧ y ≠ p)) p
        (fun s y => Or.inl rfl)
        (fun s1 s2 s3 h12 h23 y => by
          rcases h23 y with e | e | e
          · rw [e]; exact h12 y
          · exact Or.inr (Or.inl e)
          · exact Or.inr (Or.inr e))
        (fun s c s1 _ _ hcp hs y => by
          rcases setParentOfWrapper_parentOf s s1 p c hs y with e | e | ⟨e1, e2⟩
          · exact Or.inl e
          · exact Or.inr (Or.inl e)
          · exact Or.inr (Or.inr ⟨e2, e1 ▸ hcp⟩))
        fuel a c b h
      intro y hy
      rcases hR y with e | e | ⟨e1, e2⟩
      · rw [e] at hy ⊢; exact ih y hy
      · exact absurd e hy
      · rw [e1]; exact Ne.symm e2
    · obtain ⟨hf1, hf2, -⟩ := removeParent_frame _ _ _ _ _ h
      intro y hy
      by_cases hyc : y = c
      · subst hyc
        rcases hf2 with e | e
        · rw [e] at hy ⊢; exact ih y hy
        · exact absurd e hy
      · rw [hf1 y hyc] at hy ⊢
        exact ih y hy

/-- C18, witness: `setParent(2, 3)` on wrappers without parent gives wrapper `3` the parent
`2`, which is another wrapper. -/
theorem parent_not_self_witness :
    parentOf ((setParent 1 baseState 2 3).getD baseState) 3 = 2 ∧
    parentOf ((setParent 1 baseState 2 3).getD baseState) 3 ≠ 3 :=
  ⟨by decide, parent_not_self baseState ((setParent 1 baseState 2 3).getD baseState)
    (fun _ => rfl) (Relation.ReflTransGen.single (Or.inl ⟨1, 2, 3, rfl⟩)) 3 (by decide)⟩

/-- C18, counterexample: from the wrappers `2` and `3` without parent, `setParent(2, 3)`
followed by `setParent(3, 2)` returns a state in which `2` is the parent of `3` and `3` is the
parent of `2`: following the parent links from `2` returns to `2`. -/
theorem parent_not_self_counterexample :
    ((setParent 1 baseState 2 3).bind fun s1 => setParent 1 s1 3 2).map
      (fun s2 => (parentOf s2 3, parentOf s2 2, parentOf s2 (parentOf s2 2))) =
      some (2, 3, 2) := by
  decide

/-! ## Frames of `invalidate` -/

theorem Untouched.untouched_refl (s : State) (y : Ptr) : Untouched s s y :=
  ⟨rfl, rfl, rfl, rfl, rfl⟩

theorem Untouched.untouched_trans {s s1 s2 : State} {y : Ptr} (h1 : Untouched s s1 y)
    (h2 : Untouched s1 s2 y) : Untouched s s2 y :=
  ⟨h2.1.trans h1.1, h2.2.1.trans h1.2.1, h2.2.2.1.trans h1.2.2.1,
    h2.2.2.2.1.trans h1.2.2.2.1, h2.2.2.2.2.trans h1.2.2.2.2⟩

theorem markInvalid_untouched (s : State) (x y : Ptr) : Untouched s (markInvalid s x) y := by
  have hp := markInvalid_parentInfo s x y
  refine ⟨?_, ?_, ?_, ?_, ?_⟩
  · unfold markInvalid; split_ifs <;> rfl
  · simp only [wrapperRefOf, hp]
  · simp only [parentOf, hp]
  · exact markInvalid_hasOwnership s x y
  · rw [hp]

theorem removeParent_untouched (s s1 : State) (c y : Ptr) (g k : Bool)
    (h : removeParent s c g k = some s1) (hy : y ≠ c) : Untouched s s1 y := by
  obtain ⟨h1, -, h3, -, -, -, -, h8, h9⟩ := removeParent_frame s s1 c g k h
  exact ⟨h3 y hy, h9 y hy, h1 y hy, (removeParent_facts s s1 c g k h).2.2.2 y hy, h8 y hy⟩

/-- The loop of `invalidate` leaves a wrapper alone that is in no children set of the subtree. -/
theorem invalidateChildren_untouched (n : Nat) (x y : Ptr) (s0 : State)
    (hy0 : ∀ p, InSubtree s0 x p → y ∉ childrenOf s0 p)
    (ih : ∀ s c s1, invalidate n s c = some s1 →
      (∀ p, InSubtree s c p → y ∉ childrenOf s p) → Untouched s s1 y) :
    ∀ (l : List Ptr) (st st1 : State), InvalidateStep s0 st → (∀ c ∈ l, c ∈ childrenOf s0 x) →
      invalidateChildren (invalidate n) x l st = some st1 → Untouched st st1 y := by
  intro l
  induction l with
  | nil =>
    intro st st1 _ _ h
    simp only [invalidateChildren, Option.some.injEq] at h
    subst h
    exact Untouched.untouched_refl st y
  | cons it rest ihl =>
    intro st st1 hstep hl h
    obtain ⟨sa, sb, hr, hb, hrest⟩ := (invalidateChildren_cons_iff _ _ _ _ _ _).1 h
    have hit : it ∈ childrenOf s0 x := hl it (List.mem_cons_self _ _)
    have hsub : ∀ p, childrenOf st p ⊆ childrenOf s0 p := fun p => (hstep.children p).subset
    have h1 : Untouched st sa y := ih st it sa hr (fun p hp hm =>
      hy0 p (Relation.ReflTransGen.head hit (InSubtree.of_subset hsub hp)) (hsub p hm))
    have hsa := invalidate_step n st it sa hr
    have h2 : Untouched sa sb y ∧ InvalidateStep sa sb := by
      split_ifs at hb
      · refine ⟨removeParent_untouched sa sb it y true true hb ?_,
          (removeParent_facts sa sb it true true hb).1⟩
        intro e
        exact hy0 x Relation.ReflTransGen.refl (e ▸ hit)
      · simp only [Option.some.injEq] at hb
        subst hb
        exact ⟨Untouched.untouched_refl sa y, InvalidateStep.step_refl sa⟩
    exact (h1.untouched_trans h2.1).untouched_trans
      (ihl sb st1 ((hstep.step_trans hsa).step_trans h2.2)
        (fun c hc => hl c (List.mem_cons_of_mem _ hc)) hrest)

/-- The call `invalidate(x)` leaves a wrapper alone that is in no children set of the subtree
of `x`. -/
theorem invalidate_untouched (y : Ptr) : ∀ (n : Nat) (s : State) (x : Ptr) (s1 : State),
    invalidate n s x = some s1 → (∀ p, InSubtree s x p → y ∉ childrenOf s p) →
    Untouched s s1 y := by
  intro n
  induction n with
  | zero => intro s x s1 h; simp [invalidate] at h
  | succ n ih =>
    intro s x s1 h hy
    by_cases hx : x = NULL ∨ x = Py_None
    · rw [invalidate_null n s x hx, Option.some.injEq] at h
      subst h
      exact Untouched.untouched_refl s y
    · rw [invalidate_succ n s x (fun e => hx (Or.inl e)) (fun e => hx (Or.inr e))] at h
      have hcm : ∀ p, childrenOf (markInvalid s x) p = childrenOf s p := fun p => by
        simp [childrenOf, markInvalid_parentInfo]
      have hy0 : ∀ p, InSubtree (markInvalid s x) x p → y ∉ childrenOf (markInvalid s x) p := by
        intro p hp
        rw [hcm]
        exact hy p (InSubtree.of_subset (fun q => by rw [hcm]; exact fun _ h => h) hp)
      exact (markInvalid_untouched s x y).untouched_trans
        (invalidateChildren_untouched n x y (markInvalid s x) hy0 ih (childrenOf s x)
          (markInvalid s x) s1 (InvalidateStep.step_refl _) (fun c hc => by rw [hcm]; exact hc) h)

/-! ## Detaching the children of an invalid parent -/

theorem wrapperRefOf_eq_true_iff (s : State) (c : Ptr) :
    wrapperRefOf s c = true ↔
      ((s.d c).parentInfo.map fun p => p.hasWrapperRef) = some true := by
  unfold wrapperRefOf
  rcases (s.d c).parentInfo with _ | p <;> simp

theorem TreeBelow.rank_le {s : State} {rank : Ptr → Nat} {R a p : Ptr}
    (hT : TreeBelow s rank R) (ha : InSubtree s R a) (hp : InSubtree s a p) :
    rank p ≤ rank a := by
  induction hp with
  | refl => exact le_refl _
  | @tail b c hb hc ih =>
    exact le_of_lt (lt_of_lt_of_le ((hT b (ha.trans hb)).2 c hc).2.2.2 ih)

theorem TreeBelow.ne_null {s : State} {rank : Ptr → Nat} {R p : Ptr}
    (hT : TreeBelow s rank R) (hR : R ≠ NULL) (hp : InSubtree s R p) : p ≠ NULL := by
  rcases Relation.ReflTransGen.cases_tail hp with e | ⟨b, hb, hc⟩
  · rw [e]; exact hR
  · exact ((hT b hb).2 p hc).2.1

/-- Below a tree, a child of `x` is in no children set of the subtree of a child of `x`. -/
theorem TreeBelow.not_child_below {s : State} {rank : Ptr → Nat} {R x a c : Ptr}
    (hT : TreeBelow s rank R) (hx : InSubtree s R x) (ha : a ∈ childrenOf s x)
    (hc : c ∈ childrenOf s x) : ∀ p, InSubtree s a p → c ∉ childrenOf s p := by
  intro p hp hm
  have haR : InSubtree s R a := Relation.ReflTransGen.tail hx ha
  have h1 : parentOf s c = p := ((hT p (haR.trans hp)).2 c hm).1
  have h2 : parentOf s c = x := ((hT x hx).2 c hc).1
  have hpx : p = x := h1.symm.trans h2
  have hle : rank p ≤ rank a := hT.rank_le haR hp
  have hlt : rank a < rank x := ((hT x hx).2 a ha).2.2.2
  rw [hpx] at hle
  exact absurd hlt (not_lt.2 hle)

/-- Below a tree, a wrapper without parent is in no children set. -/
theorem TreeBelow.not_child_detached {s : State} {rank : Ptr → Nat} {R c : Ptr}
    (hT : TreeBelow s rank R) (hR : R ≠ NULL) (hc : parentOf s c = NULL) :
    ∀ p, InSubtree s R p → c ∉ childrenOf s p := by
  intro p hp hm
  have h1 : parentOf s c = p := ((hT p hp).2 c hm).1
  exact hT.ne_null hR hp (h1.symm.trans hc)

/-- The loop of `invalidate(x)` below a tree when `x` is invalid: every child of the list is
detached. A detached child has no parent; its reference count is one lower when it does not
embed the native storage or holds the wrapper reference already, and is as before otherwise;
a child that embeds the native storage holds the wrapper reference afterwards. -/
theorem invalidateChildren_detach (rank : Ptr → Nat) (R : Ptr) (n : Nat) (x : Ptr)
    (hx : x ≠ NULL) (hR : R ≠ NULL) (hn : rank x ≤ n) :
    ∀ (l : List Ptr) (st st1 : State), TreeBelow st rank R → InSubtree st R x →
      (∀ c ∈ l, c ∈ childrenOf st x) → l.Nodup → (st.d x).validCppObject = false →
      invalidateChildren (invalidate n) x l st = some st1 →
      (∀ c, c ∈ childrenOf st1 x ↔ c ∈ childrenOf st x ∧ c ∉ l) ∧
      (∀ c ∈ l, parentOf st1 c = NULL ∧
        ((st.d c).containsCppWrapper = false → st1.ob_refcnt c = st.ob_refcnt c - 1) ∧
        ((st.d c).containsCppWrapper = true → wrapperRefOf st1 c = true ∧
          st1.ob_refcnt c =
            if wrapperRefOf st c = true then st.ob_refcnt c - 1 else st.ob_refcnt c)) := by
  intro l
  induction l with
  | nil =>
    intro st st1 _ _ _ _ _ h
    simp only [invalidateChildren, Option.some.injEq] at h
    subst h
    exact ⟨fun c => by simp, fun c hc => absurd hc (List.not_mem_nil c)⟩
  | cons it rest ihl =>
    intro st st1 hT hxR hl hnd hv h
    obtain ⟨sa, sb, hr, hb, hrest⟩ := (invalidateChildren_cons_iff _ _ _ _ _ _).1 h
    have hit : it ∈ childrenOf st x := hl it (List.mem_cons_self _ _)
    have hrk : rank it < rank x := ((hT x hxR).2 it hit).2.2.2
    have hitR : InSubtree st R it := Relation.ReflTransGen.tail hxR hit
    -- the recursive call
    obtain ⟨sa', hr', hTa, hca, -⟩ :=
      invalidate_total rank R n st it hT hitR (lt_of_lt_of_le hrk hn)
    have hsa : sa' = sa := Option.some.inj (hr'.symm.trans hr)
    subst hsa
    have hstepa := invalidate_step n st it sa' hr
    have hxa : childrenOf sa' x = childrenOf st x := hca x hrk
    have hxRa : InSubtree sa' R x :=
      InSubtree.of_frame hT hxR (fun y hy => hca y (lt_trans hrk hy))
    have hva : (sa'.d x).validCppObject = false := hstepa.invalid x hv
    rw [if_pos hva] at hb
    have hita : it ∈ childrenOf sa' x := by rw [hxa]; exact hit
    -- the detach step
    obtain ⟨sb', hb', hTb, hcb, -⟩ := removeParent_tree sa' rank R it x true true hTa hxRa hx hita
    have hsb : sb' = sb := Option.some.inj (hb'.symm.trans hb)
    subst hsb
    obtain ⟨sb'', hb'', -, -, hpb, hkeep, hdrop⟩ := removeParent_detach sa' it x true true
      ((hTa x hxRa).2 it hita).1 hx hita ((hTa x hxRa).1).nodup
    have hsb : sb'' = sb' := Option.some.inj (hb''.symm.trans hb)
    subst hsb
    have hstepb := (removeParent_facts sa' sb'' it true true hb).1
    have hvb : (sb''.d x).validCppObject = false := hstepb.invalid x hva
    have hxRb : InSubtree sb'' R x :=
      InSubtree.of_frame hTa hxRa (fun y hy => by
        rw [hcb, if_neg (fun e => by rw [e] at hy; exact lt_irrefl _ hy)])
    have hxb : childrenOf sb'' x = (childrenOf st x).erase it := by
      rw [hcb, if_pos rfl, hxa]
    have hndx : (childrenOf st x).Nodup := ((hT x hxR).1).nodup
    have hrestb : ∀ c ∈ rest, c ∈ childrenOf sb'' x := by
      intro c hc
      rw [hxb]
      have hne : c ≠ it := fun e => (List.nodup_cons.1 hnd).1 (e ▸ hc)
      exact (List.mem_erase_of_ne hne).2 (hl c (List.mem_cons_of_mem _ hc))
    obtain ⟨ih1, ih2⟩ := ihl sb'' st1 hTb hxRb hrestb (List.nodup_cons.1 hnd).2 hvb hrest
    -- the frame of the two steps for the children of `x`
    have hut : ∀ c, c ∈ childrenOf st x → Untouched st sa' c := fun c hc =>
      invalidate_untouched c n st it sa' hr (hT.not_child_below hxR hit hc)
    refine ⟨fun c => ?_, fun c hc => ?_⟩
    · rw [ih1 c, hxb, hndx.mem_erase_iff, List.mem_cons]
      constructor
      · rintro ⟨⟨h1, h2⟩, h3⟩
        exact ⟨h2, fun e => e.elim h1 h3⟩
      · rintro ⟨h1, h2⟩
        exact ⟨⟨fun e => h2 (Or.inl e), h1⟩, fun e => h2 (Or.inr e)⟩
    · rcases List.mem_cons.1 hc with e | hcr
      · subst e
        -- the child detached in this step is left alone by the rest of the loop
        have hu1 := hut c hit
        have hu2 : Untouched sb'' st1 c :=
          invalidateChildren_untouched n x c sb''
            (fun p hp => hTb.not_child_detached hR hpb p (hxRb.trans hp))
            (invalidate_untouched c n) rest sb'' st1 (InvalidateStep.step_refl _)
            hrestb hrest
        have hccw : (sa'.d c).containsCppWrapper = (st.d c).containsCppWrapper := hstepa.ccw c
        refine ⟨by rw [hu2.2.2.1]; exact hpb, fun hc0 => ?_, fun hc1 => ?_⟩
        · have := (hdrop (fun hh => by rw [hccw, hc0] at hh; exact Bool.noConfusion hh.2)).2
          rw [hu2.1, this, hu1.1]
        · obtain ⟨hk1, -, hk3⟩ := hkeep ⟨rfl, by rw [hccw]; exact hc1⟩
          refine ⟨by rw [hu2.2.1]; exact (wrapperRefOf_eq_true_iff _ _).2 hk1, ?_⟩
          rw [hu2.1, hk3, hu1.1]
          exact if_congr ((wrapperRefOf_eq_true_iff sa' c).symm.trans (by rw [hu1.2.1])) rfl rfl
      · have hne : c ≠ it := fun e => (List.nodup_cons.1 hnd).1 (e ▸ hcr)
        have hcx : c ∈ childrenOf st x := hl c (List.mem_cons_of_mem _ hcr)
        have hu1 := hut c hcx
        have hu2 := removeParent_untouched sa' sb'' it c true true hb hne
        have hccw : (sb''.d c).containsCppWrapper = (st.d c).containsCppWrapper :=
          (hstepb.ccw c).trans (hstepa.ccw c)
        have hrc : sb''.ob_refcnt c = st.ob_refcnt c := hu2.1.trans hu1.1
        have hwr : wrapperRefOf sb'' c = wrapperRefOf st c := hu2.2.1.trans hu1.2.1
        obtain ⟨g1, g2, g3⟩ := ih2 c hcr
        rw [hccw, hrc] at g2
        rw [hccw, hrc, hwr] at g3
        exact ⟨g1, g2, g3⟩

theorem markInvalid_invalid (s : State) (x : Ptr) (hc : (s.d x).containsCppWrapper = false) :
    ((markInvalid s x).d x).validCppObject = false := by
  simp [markInvalid, hc]

/-- Below a tree, `invalidate(x)` on a wrapper that does not embed its native storage returns,
leaves `x` invalid and without children, and has detached every child. -/
theorem invalidate_detach (rank : Ptr → Nat) (R : Ptr) (n : Nat) (s : State) (x : Ptr)
    (hT : TreeBelow s rank R) (hxR : InSubtree s R x) (hR : R ≠ NULL)
    (hx : x ≠ NULL ∧ x ≠ Py_None) (hn : rank x < n)
    (hc : (s.d x).containsCppWrapper = false) :
    ∃ s1, invalidate n s x = some s1 ∧ TreeBelow s1 rank R ∧ InvalidateStep s s1 ∧
      childrenOf s1 x = [] ∧ (s1.d x).validCppObject = false ∧
      (∀ c ∈ childrenOf s x, parentOf s1 c = NULL ∧
        ((s.d c).containsCppWrapper = false → s1.ob_refcnt c = s.ob_refcnt c - 1) ∧
        ((s.d c).containsCppWrapper = true → wrapperRefOf s1 c = true ∧
          s1.ob_refcnt c =
            if wrapperRefOf s c = true then s.ob_refcnt c - 1 else s.ob_refcnt c)) := by
  obtain ⟨s1, h1, hT1, -, -⟩ := invalidate_total rank R n s x hT hxR hn
  have hstep := invalidate_step n s x s1 h1
  obtain ⟨m, rfl⟩ : ∃ m, n = m + 1 := ⟨n - 1, by omega⟩
  have h1' := h1
  rw [invalidate_succ m s x hx.1 hx.2] at h1'
  have hTm : TreeBelow (markInvalid s x) rank R :=
    hT.of_parentInfo_eq (fun y => markInvalid_parentInfo s x y)
  have hcm : ∀ y, childrenOf (markInvalid s x) y = childrenOf s y := fun y => by
    simp [childrenOf, markInvalid_parentInfo]
  have hxRm : InSubtree (markInvalid s x) R x :=
    InSubtree.of_frame hT hxR (fun y _ => hcm y)
  obtain ⟨g1, g2⟩ := invalidateChildren_detach rank R m x hx.1 hR (Nat.lt_succ_iff.1 hn)
    (childrenOf s x) (markInvalid s x) s1 hTm hxRm (fun c hc => by rw [hcm]; exact hc)
    ((hT x hxR).1).nodup (markInvalid_invalid s x hc) h1'
  have hsm := markInvalid_step s x
  refine ⟨s1, h1, hT1, hstep, ?_, ?_, fun c hcm1 => ?_⟩
  · refine List.eq_nil_iff_forall_not_mem.2 (fun c hc1 => ?_)
    have := (g1 c).1 hc1
    rw [hcm] at this
    exact this.2 this.1
  · exact (invalidateChildren_step (invalidate m) x (invalidate_step m) _ _ s1 h1').invalid x
      (markInvalid_invalid s x hc)
  · obtain ⟨k1, k2, k3⟩ := g2 c hcm1
    have hu := markInvalid_untouched s x c
    rw [hsm.ccw c, hu.1] at k2
    rw [hsm.ccw c, hu.1, hu.2.1] at k3
    exact ⟨k1, k2, k3⟩

/-- C19 (amended): when the parent/child graph below `w` is a finite tree and `w` does not embed
its native storage, `invalidate(w)` followed by `makeValid(w)` (fuel above the rank of `w`)
returns and leaves `w` valid; `invalidate` has detached the children, so `makeValid` does not
reach them: `w` has no children afterwards, and every former child that does not embed its
native storage is still invalid and has no parent. -/
theorem invalidate_then_makeValid (rank : Ptr → Nat) (n : Nat) (s : State) (w : Ptr)
    (hT : TreeBelow s rank w) (hn : rank w < n) (hw : w ≠ NULL ∧ w ≠ Py_None)
    (hc : (s.d w).containsCppWrapper = false) :
    ∃ s1 s2, invalidate n s w = some s1 ∧ makeValid n s1 w = some s2 ∧
      (s2.d w).validCppObject = true ∧ childrenOf s2 w = [] ∧
      ∀ c ∈ childrenOf s w, (s.d c).containsCppWrapper = false →
        (s2.d c).validCppObject = false ∧ parentOf s2 c = NULL := by
  obtain ⟨s1, h1, -, hstep, hch, hv, hdet⟩ :=
    invalidate_detach rank w n s w hT Relation.ReflTransGen.refl hw.1 hw hn hc
  obtain ⟨-, hsub⟩ := invalidate_accounts s w
    (fun p hp c hc => ⟨((hT p hp).2 c hc).2.1, ((hT p hp).2 c hc).2.2.1⟩) n s w s1
    (InvalidateStep.step_refl s) (EdgesAccounted.edges_refl s) Relation.ReflTransGen.refl
    hw.1 hw.2 h1
  obtain ⟨m, rfl⟩ : ∃ m, n = m + 1 := ⟨n - 1, by omega⟩
  have h2 : makeValid (m + 1) s1 w = some (s1.setD w { s1.d w with validCppObject := true }) := by
    rw [makeValid_succ m s1 w (by simp [hw.1, hw.2, hv]), hch]
    rfl
  refine ⟨s1, _, h1, h2, by simp, ?_, fun c hcm hcc => ?_⟩
  · simpa [childrenOf] using hch
  · have hcw : c ≠ w := fun e => by
      have := ((hT w Relation.ReflTransGen.refl).2 c hcm).2.2.2
      rw [e] at this
      exact lt_irrefl _ this
    refine ⟨?_, ?_⟩
    · simp only [State.setD_d, if_neg hcw]
      exact hsub c (Relation.ReflTransGen.single hcm) hcc
    · have := (hdet c hcm).1
      simpa [parentOf, hcw] using this

/-- C19, witness: the root `2` of `treeState` is invalidated and made valid again. -/
theorem invalidate_then_makeValid_witness :
    ∃ s1 s2, invalidate 3 treeState 2 = some s1 ∧ makeValid 3 s1 2 = some s2 ∧
      (s2.d 2).validCppObject = true ∧ childrenOf s2 2 = [] ∧
      ∀ c ∈ childrenOf treeState 2, (treeState.d c).containsCppWrapper = false →
        (s2.d c).validCppObject = false ∧ parentOf s2 c = NULL :=
  invalidate_then_makeValid treeRank 3 treeState 2 tree_treeState (by decide)
    ⟨by decide, by decide⟩ (by decide)

/-- C19, counterexample: in `familyState` the wrapper `2` and its child `3` are valid and do not
embed native storage; after `invalidate(2)` and `makeValid(2)` the wrapper `2` is valid and the
child `3` is invalid. -/
theorem invalidate_then_makeValid_counterexample :
    (familyState.d 2).validCppObject = true ∧ (familyState.d 3).validCppObject = true ∧
    (familyState.d 2).containsCppWrapper = false ∧
    (familyState.d 3).containsCppWrapper = false ∧ childrenOf familyState 2 = [3] ∧
    ((invalidate 2 familyState 2).bind fun s1 => makeValid 2 s1 2).map
      (fun s2 => ((s2.d 2).validCppObject, (s2.d 3).validCppObject)) = some (true, false) := by
  decide

/-- C20 (amended): when the parent/child graph below `P` is a finite tree and `P` does not embed
its native storage, `invalidate(P)` (fuel above the rank of `P`) returns and every child `C` of
`P` is detached: `C` is not in the children set of `P` and has no parent. The reference `P`
held on `C` is kept only for a child that embeds its native storage and holds no wrapper
reference yet: its count is as before and it holds the wrapper reference afterwards. For a
child that does not embed native storage the reference is released: its count is one lower
than before the call. -/
theorem invalidate_child_refcnt (rank : Ptr → Nat) (n : Nat) (s : State) (P C : Ptr)
    (hT : TreeBelow s rank P) (hn : rank P < n) (hP : P ≠ NULL ∧ P ≠ Py_None)
    (hc : (s.d P).containsCppWrapper = false) (hC : C ∈ childrenOf s P) :
    ∃ s1, invalidate n s P = some s1 ∧ C ∉ childrenOf s1 P ∧ parentOf s1 C = NULL ∧
      ((s.d C).containsCppWrapper = false → s1.ob_refcnt C = s.ob_refcnt C - 1) ∧
      ((s.d C).containsCppWrapper = true → wrapperRefOf s1 C = true ∧
        s1.ob_refcnt C = if wrapperRefOf s C = true then s.ob_refcnt C - 1 else s.ob_refcnt C) := by
  obtain ⟨s1, h1, -, -, hch, -, hdet⟩ :=
    invalidate_detach rank P n s P hT Relation.ReflTransGen.refl hP.1 hP hn hc
  obtain ⟨k1, k2, k3⟩ := hdet C hC
  exact ⟨s1, h1, by rw [hch]; exact List.not_mem_nil C, k1, k2, k3⟩

/-- C20, witness: `invalidate(2)` on `treeState` detaches the child `3`, which embeds its native
storage, with its count kept, and the child `4`, which does not, with its count lowered. -/
theorem invalidate_child_refcnt_witness :
    (∃ s1, invalidate 3 treeState 2 = some s1 ∧ 4 ∉ childrenOf s1 2 ∧ parentOf s1 4 = NULL ∧
      ((treeState.d 4).containsCppWrapper = false →
        s1.ob_refcnt 4 = treeState.ob_refcnt 4 - 1) ∧
      ((treeState.d 4).containsCppWrapper = true → wrapperRefOf s1 4 = true ∧
        s1.ob_refcnt 4 =
          if wrapperRefOf treeState 4 = true then treeState.ob_refcnt 4 - 1
          else treeState.ob_refcnt 4)) ∧
    (invalidate 3 treeState 2).map (fun s1 => (s1.ob_refcnt 3, s1.ob_refcnt 4)) = some (1, 0) :=
  ⟨invalidate_child_refcnt treeRank 3 treeState 2 4 tree_treeState (by decide)
    ⟨by decide, by decide⟩ (by decide) (by decide), by decide⟩

/-- C20, counterexample: in `familyState` the parent `2` does not embed native storage and its
child `3` has the reference count `1`; after `invalidate(2)` the child is detached and its
count is `0`, so it has been handed to `tp_dealloc`. -/
theorem invalidate_child_refcnt_counterexample :
    (familyState.d 2).containsCppWrapper = false ∧ childrenOf familyState 2 = [3] ∧
    familyState.ob_refcnt 3 = 1 ∧
    (invalidate 2 familyState 2).map
      (fun s1 => (parentOf s1 3, childrenOf s1 2, s1.ob_refcnt 3, s1.tp_dealloc_log)) =
      some (NULL, [], 0, [3]) := by
  decide

/-! ## Frames of `invalidate` on the binding manager table -/

/-- A relation between states that is reflexive and transitive and holds for the two steps of
`invalidate` holds for `invalidate`. -/
theorem invalidate_induction (R : State → State → Prop) (hrefl : ∀ s, R s s)
    (htrans : ∀ a b c, R a b → R b c → R a c) (hmark : ∀ s x, R s (markInvalid s x))
    (hrem : ∀ s c s1, removeParent s c true true = some s1 → R s s1) :
    ∀ (n : Nat) (s : State) (x : Ptr) (s1 : State), invalidate n s x = some s1 → R s s1 := by
  intro n
  induction n with
  | zero => intro s x s1 h; simp [invalidate] at h
  | succ n ih =>
    intro s x s1 h
    by_cases hx : x = NULL ∨ x = Py_None
    · rw [invalidate_null n s x hx, Option.some.injEq] at h
      subst h
      exact hrefl s
    · rw [invalidate_succ n s x (fun e => hx (Or.inl e)) (fun e => hx (Or.inr e))] at h
      have key : ∀ (l : List Ptr) (st st1 : State),
          invalidateChildren (invalidate n) x l st = some st1 → R st st1 := by
        intro l
        induction l with
        | nil =>
          intro st st1 h
          simp only [invalidateChildren, Option.some.injEq] at h
          subst h
          exact hrefl st
        | cons it rest ihl =>
          intro st st1 h
          obtain ⟨sa, sb, hr, hb, hrest⟩ := (invalidateChildren_cons_iff _ _ _ _ _ _).1 h
          have h2 : R sa sb := by
            split_ifs at hb
            · exact hrem sa it sb hb
            · simp only [Option.some.injEq] at hb
              subst hb
              exact hrefl sa
          exact htrans _ _ _ (htrans _ _ _ (ih st it sa hr) h2) (ihl sb st1 hrest)
      exact htrans _ _ _ (hmark s x) (key _ _ s1 h)

theorem markInvalid_cptr (s : State) (x y : Ptr) :
    ((markInvalid s x).d y).cptr = (s.d y).cptr := by
  unfold markInvalid
  split_ifs <;> by_cases hy : y = x <;> simp_all

theorem markInvalid_wrapperMapper (s : State) (x : Ptr) :
    (∀ e ∈ (markInvalid s x).wrapperMapper, e ∈ s.wrapperMapper) ∧
    (∀ e ∈ s.wrapperMapper, e.2 ≠ x → e ∈ (markInvalid s x).wrapperMapper) := by
  unfold markInvalid
  split_ifs
  · simp only [BindingManager.releaseWrapper_wrapperMapper, State.setD_wrapperMapper]
    exact ⟨fun e he => (List.mem_filter.1 he).1,
      fun e he hx => List.mem_filter.2 ⟨he, by simpa using hx⟩⟩
  · exact ⟨fun _ h => h, fun _ h _ => h⟩

/-- The call `invalidate(x)` changes no array of native pointers and adds no entry to the
binding manager table. -/
theorem invalidate_cptr (n : Nat) (s : State) (x : Ptr) (s1 : State)
    (h : invalidate n s x = some s1) :
    (∀ y, (s1.d y).cptr = (s.d y).cptr) ∧ (∀ e ∈ s1.wrapperMapper, e ∈ s.wrapperMapper) :=
  invalidate_induction
    (fun s s1 => (∀ y, (s1.d y).cptr = (s.d y).cptr) ∧
      (∀ e ∈ s1.wrapperMapper, e ∈ s.wrapperMapper))
    (fun _ => ⟨fun _ => rfl, fun _ h => h⟩)
    (fun _ _ _ h1 h2 => ⟨fun y => (h2.1 y).trans (h1.1 y), fun e he => h1.2 e (h2.2 e he)⟩)
    (fun s x => ⟨markInvalid_cptr s x, (markInvalid_wrapperMapper s x).1⟩)
    (fun s c s1 h => by
      obtain ⟨-, -, -, -, h5, h6, -⟩ := removeParent_frame s s1 c true true h
      exact ⟨h5, fun e he => by rw [h6] at he; exact he⟩)
    n s x s1 h

/-- The call `invalidate(x)` keeps the entries of the binding manager table that belong to
wrappers outside the subtree of `x`. -/
theorem invalidate_wrapperMapper (e : Ptr × Ptr) :
    ∀ (n : Nat) (s : State) (x : Ptr) (s1 : State), invalidate n s x = some s1 →
      e ∈ s.wrapperMapper → ¬ InSubtree s x e.2 → e ∈ s1.wrapperMapper := by
  intro n
  induction n with
  | zero => intro s x s1 h; simp [invalidate] at h
  | succ n ih =>
    intro s x s1 h he hne
    by_cases hx : x = NULL ∨ x = Py_None
    · rw [invalidate_null n s x hx, Option.some.injEq] at h
      subst h
      exact he
    · rw [invalidate_succ n s x (fun e => hx (Or.inl e)) (fun e => hx (Or.inr e))] at h
      have hcm : ∀ p, childrenOf (markInvalid s x) p = childrenOf s p := fun p => by
        simp [childrenOf, markInvalid_parentInfo]
      have key : ∀ (l : List Ptr) (st st1 : State), InvalidateStep (markInvalid s x) st →
          (∀ c ∈ l, c ∈ childrenOf s x) →
          invalidateChildren (invalidate n) x l st = some st1 →
          e ∈ st.wrapperMapper → e ∈ st1.wrapperMapper := by
        intro l
        induction l with
        | nil =>
          intro st st1 _ _ h hm
          simp only [invalidateChildren, Option.some.injEq] at h
          subst h
          exact hm
        | cons it rest ihl =>
          intro st st1 hstep hl h hm
          obtain ⟨sa, sb, hr, hb, hrest⟩ := (invalidateChildren_cons_iff _ _ _ _ _ _).1 h
          have hit : it ∈ childrenOf s x := hl it (List.mem_cons_self _ _)
          have hsub : ∀ p, childrenOf st p ⊆ childrenOf s p := fun p => by
            rw [← hcm]; exact (hstep.children p).subset
          have h1 : e ∈ sa.wrapperMapper := ih st it sa hr hm (fun hin =>
            hne (Relation.ReflTransGen.head hit (InSubtree.of_subset hsub hin)))
          have hsa := invalidate_step n st it sa hr
          have h2 : e ∈ sb.wrapperMapper ∧ InvalidateStep sa sb := by
            split_ifs at hb
            · refine ⟨?_, (removeParent_facts sa sb it true true hb).1⟩
              rw [(removeParent_frame sa sb it true true hb).2.2.2.2.2.1]
              exact h1
            · simp only [Option.some.injEq] at hb
              subst hb
              exact ⟨h1, InvalidateStep.step_refl sa⟩
          exact ihl sb st1 ((hstep.step_trans hsa).step_trans h2.2)
            (fun c hc => hl c (List.mem_cons_of_mem _ hc)) hrest h2.1
      exact key _ _ s1 (InvalidateStep.step_refl _) (fun c hc => hc) h
        ((markInvalid_wrapperMapper s x).2 e he (fun e2 => hne (e2 ▸ Relation.ReflTransGen.refl)))

/-! ## Termination of `_destroyParentInfo` below a tree -/

theorem destroyChildren_nil (n : Nat) (s : State) (x : Ptr) (keep : Bool)
    (hp : (s.d x).parentInfo.isSome = true) (hc : childrenOf s x = []) :
    destroyChildren (n + 1) s x keep = some s := by
  rcases hpi : (s.d x).parentInfo with _ | pInfo
  · simp [hpi] at hp
  · have : pInfo.children = [] := by simpa [childrenOf, hpi] using hc
    simp [destroyChildren, hpi, this]

theorem destroyChildren_cons (n : Nat) (s : State) (x first : Ptr) (rest : List Ptr)
    (keep : Bool) (hc : childrenOf s x = first :: rest) :
    destroyChildren (n + 1) s x keep =
      (invalidate n s first).bind fun s1 =>
        (removeParent s1 first false keep).bind fun s2 => destroyChildren n s2 x keep := by
  rcases hpi : (s.d x).parentInfo with _ | pInfo
  · simp [childrenOf, hpi] at hc
  · have : pInfo.children = first :: rest := by simpa [childrenOf, hpi] using hc
    simp [destroyChildren, hpi, this]

/-- Below a tree, a wrapper is in no children set of the subtree of one of its children. -/
theorem TreeBelow.not_child_of_descendant {s : State} {rank : Ptr → Nat} {R x a : Ptr}
    (hT : TreeBelow s rank R) (hx : InSubtree s R x) (ha : a ∈ childrenOf s x) :
    ∀ p, InSubtree s a p → x ∉ childrenOf s p := by
  intro p hp hm
  have haR : InSubtree s R a := Relation.ReflTransGen.tail hx ha
  have h1 : rank x < rank p := ((hT p (haR.trans hp)).2 x hm).2.2.2
  have h2 : rank p ≤ rank a := hT.rank_le haR hp
  have h3 : rank a < rank x := ((hT x hx).2 a ha).2.2.2
  omega

/-- Below a tree the loop of `_destroyParentInfo` returns with fuel above the rank of the
wrapper plus the size of its children set: the children set is empty afterwards, the wrapper
itself is left alone, no array of native pointers has changed, and the binding manager table
has lost entries of wrappers of a smaller rank only. -/
theorem destroyChildren_total (rank : Ptr → Nat) (R : Ptr) (keep : Bool) (x : Ptr)
    (hx : x ≠ NULL) :
    ∀ (n : Nat) (s : State), TreeBelow s rank R → InSubtree s R x →
      (s.d x).parentInfo.isSome = true → rank x + (childrenOf s x).length < n →
      ∃ s1, destroyChildren n s x keep = some s1 ∧ TreeBelow s1 rank R ∧ InSubtree s1 R x ∧
        childrenOf s1 x = [] ∧ (s1.d x).parentInfo.isSome = true ∧ InvalidateStep s s1 ∧
        Untouched s s1 x ∧ (∀ y, (s1.d y).cptr = (s.d y).cptr) ∧
        (∀ e ∈ s1.wrapperMapper, e ∈ s.wrapperMapper) ∧
        (∀ e ∈ s.wrapperMapper, rank x ≤ rank e.2 → e ∈ s1.wrapperMapper) := by
  intro n
  induction n with
  | zero => intro s _ _ _ h; exact absurd h (Nat.not_lt_zero _)
  | succ n ih =>
    intro s hT hxR hp hn
    rcases hch : childrenOf s x with _ | ⟨first, rest⟩
    · exact ⟨s, destroyChildren_nil n s x keep hp hch, hT, hxR, hch, hp,
        InvalidateStep.step_refl s, Untouched.untouched_refl s x, fun _ => rfl,
        fun _ h => h, fun _ h _ => h⟩
    · rw [destroyChildren_cons n s x first rest keep hch]
      rw [hch, List.length_cons] at hn
      have hfirst : first ∈ childrenOf s x := by rw [hch]; exact List.mem_cons_self _ _
      have hrk : rank first < rank x := ((hT x hxR).2 first hfirst).2.2.2
      have hfR : InSubtree s R first := Relation.ReflTransGen.tail hxR hfirst
      -- Mark child as invalid
      obtain ⟨sa, hr, hTa, hca, -⟩ := invalidate_total rank R n s first hT hfR (by omega)
      have hstepa := invalidate_step n s first sa hr
      have hxa : childrenOf sa x = childrenOf s x := hca x hrk
      have hxRa : InSubtree sa R x :=
        InSubtree.of_frame hT hxR (fun y hy => hca y (lt_trans hrk hy))
      have hua : Untouched s sa x :=
        invalidate_untouched x n s first sa hr (hT.not_child_of_descendant hxR hfirst)
      have hfa : first ∈ childrenOf sa x := by rw [hxa]; exact hfirst
      -- removeParent(first, false, keepReference)
      obtain ⟨sb, hb, hTb, hcb, -⟩ :=
        removeParent_tree sa rank R first x false keep hTa hxRa hx hfa
      have hstepb := (removeParent_facts sa sb first false keep hb).1
      have hxf : x ≠ first := fun e => by rw [← e] at hrk; exact lt_irrefl _ hrk
      have hub : Untouched sa sb x := removeParent_untouched sa sb first x false keep hb hxf
      have hxRb : InSubtree sb R x :=
        InSubtree.of_frame hTa hxRa (fun y hy => by
          rw [hcb, if_neg (fun e => by rw [e] at hy; exact lt_irrefl _ hy)])
      have hxb : childrenOf sb x = rest := by
        rw [hcb, if_pos rfl, hxa, hch, List.erase_cons_head]
      have hpb : (sb.d x).parentInfo.isSome = true := by
        rw [hub.2.2.2.2, hua.2.2.2.2]; exact hp
      obtain ⟨s1, h1, hT1, hxR1, hc1, hp1, hstep1, hu1, hcp1, hm1, hm2⟩ :=
        ih sb hTb hxRb hpb (by rw [hxb]; omega)
      obtain ⟨hcpa, hma⟩ := invalidate_cptr n s first sa hr
      obtain ⟨-, -, -, -, hcpb, hmb, -⟩ := removeParent_frame sa sb first false keep hb
      refine ⟨s1, by rw [hr, Option.some_bind, hb, Option.some_bind]; exact h1, hT1, hxR1,
        hc1, hp1, (hstepa.step_trans hstepb).step_trans hstep1,
        (hua.untouched_trans hub).untouched_trans hu1,
        fun y => ((hcp1 y).trans (hcpb y)).trans (hcpa y),
        fun e he => hma e (by rw [← hmb]; exact hm1 e he), fun e he hre => ?_⟩
      refine hm2 e ?_ hre
      rw [hmb]
      refine invalidate_wrapperMapper e n s first sa hr he (fun hin => ?_)
      have := hT.rank_le hfR hin
      omega

/-! ## Release from the binding manager on teardown -/

/-- The loop of `_destroyParentInfo` changes no array of native pointers and adds no entry to
the binding manager table. -/
theorem destroyChildren_cptr (keep : Bool) (x : Ptr) : ∀ (n : Nat) (s s1 : State),
    destroyChildren n s x keep = some s1 →
    (∀ y, (s1.d y).cptr = (s.d y).cptr) ∧ (∀ e ∈ s1.wrapperMapper, e ∈ s.wrapperMapper) := by
  intro n
  induction n with
  | zero => intro s s1 h; simp [destroyChildren] at h
  | succ n ih =>
    intro s s1 h
    rcases hch : childrenOf s x with _ | ⟨first, rest⟩
    · rcases hpi : (s.d x).parentInfo with _ | pInfo
      · simp [destroyChildren, hpi] at h
      · rw [destroyChildren_nil n s x keep (by simp [hpi]) hch, Option.some.injEq] at h
        subst h
        exact ⟨fun _ => rfl, fun _ h => h⟩
    · rw [destroyChildren_cons n s x first rest keep hch] at h
      rcases hr : invalidate n s first with _ | sa
      · simp [hr] at h
      rw [hr, Option.some_bind] at h
      rcases hb : removeParent sa first false keep with _ | sb
      · simp [hb] at h
      rw [hb, Option.some_bind] at h
      obtain ⟨ha1, ha2⟩ := invalidate_cptr n s first sa hr
      obtain ⟨-, -, -, -, hb1, hb2, -⟩ := removeParent_frame sa sb first false keep hb
      obtain ⟨hc1, hc2⟩ := ih sb s1 h
      exact ⟨fun y => ((hc1 y).trans (hb1 y)).trans (ha1 y),
        fun e he => ha2 e (by rw [← hb2]; exact hc2 e he)⟩

theorem destroyParentInfo_cptr (keep : Bool) (x : Ptr) (n : Nat) (s s1 : State)
    (h : _destroyParentInfo n s x keep = some s1) :
    (∀ y, (s1.d y).cptr = (s.d y).cptr) ∧ (∀ e ∈ s1.wrapperMapper, e ∈ s.wrapperMapper) := by
  unfold _destroyParentInfo at h
  rcases hpi : (s.d x).parentInfo with _ | pInfo
  · simp only [hpi, Option.some.injEq] at h
    subst h
    exact ⟨fun _ => rfl, fun _ h => h⟩
  · simp only [hpi] at h
    rcases hd : destroyChildren n s x keep with _ | sa
    · simp [hd] at h
    rw [hd, Option.some_bind] at h
    obtain ⟨ha1, ha2⟩ := destroyChildren_cptr keep x n s sa hd
    obtain ⟨-, -, -, -, hb1, hb2, -⟩ := removeParent_frame sa s1 x false _ h
    exact ⟨fun y => (hb1 y).trans (ha1 y), fun e he => ha2 e (by rw [← hb2]; exact he)⟩

theorem clearReferences_cptr (s : State) (x : Ptr) :
    (∀ y, ((clearReferences s x).d y).cptr = (s.d y).cptr) ∧
    (clearReferences s x).wrapperMapper = s.wrapperMapper ∧
    (∀ y, ((clearReferences s x).d y).parentInfo = (s.d y).parentInfo) ∧
    (∀ y, ((clearReferences s x).d y).containsCppWrapper = (s.d y).containsCppWrapper) := by
  obtain ⟨rc, log, h⟩ := clearReferences_eq s x
  rw [h]
  refine ⟨fun y => ?_, rfl, fun y => ?_, fun y => ?_⟩ <;>
  · by_cases hy : y = x
    · subst hy; simp
    · simp [hy]

/-- Whenever `deallocData(w, true)` returns for a wrapper that has its array of native
pointers, no entry of the binding manager table refers to `w`. -/
theorem deallocData_released (n : Nat) (s s1 : State) (w : Ptr) (hc : (s.d w).cptr ≠ none)
    (h : deallocData n s w true = some s1) :
    ∀ e ∈ s1.wrapperMapper, e.2 ≠ w := by
  rw [deallocData_cleanup] at h
  rcases hr : removeParent s w removeParent_giveOwnershipBack removeParent_keepReference
    with _ | sa
  · simp [hr] at h
  rw [hr, Option.some_bind] at h
  have hca : (sa.d w).cptr = (s.d w).cptr := (removeParent_frame _ _ _ _ _ hr).2.2.2.2.1 w
  rcases hd : (if (sa.d w).parentInfo.isSome then _destroyParentInfo n sa w true
    else some sa) with _ | sb
  · simp [hd] at h
  rw [hd, Option.some_bind] at h
  have hcb : (sb.d w).cptr = (sa.d w).cptr := by
    split_ifs at hd
    · exact (destroyParentInfo_cptr true w n sa sb hd).1 w
    · simp only [Option.some.injEq] at hd
      subst hd
      rfl
  have hcc : ((clearReferences sb w).d w).cptr ≠ none := by
    rw [(clearReferences_cptr sb w).1 w, hcb, hca]; exact hc
  obtain ⟨s1', h1, -, h3, -⟩ := deallocData_release n (clearReferences sb w) w hcc
  have : s1' = s1 := Option.some.inj (h1.symm.trans h)
  subst this
  intro e he
  rw [h3] at he
  simpa using (List.mem_filter.1 he).2

theorem removeParent_of_parentless (s : State) (c : Ptr) (g k : Bool)
    (hp : parentOf s c = NULL) :
    ∃ s1, removeParent s c g k = some s1 ∧ s1.wrapperMapper = s.wrapperMapper ∧
      (s1 = s ∨ (s1.d c).parentInfo = none) := by
  unfold removeParent
  rcases hpc : (s.d c).parentInfo with _ | pInfo
  · exact ⟨s, rfl, rfl, Or.inl rfl⟩
  · have : pInfo.parent = NULL := by simpa [parentOf, hpc] using hp
    simp only [this, if_true]
    split_ifs
    · exact ⟨_, rfl, rfl, Or.inr (by simp [State.setParentInfo])⟩
    · exact ⟨_, rfl, rfl, Or.inl rfl⟩

/-- Below a tree `_destroyParentInfo` returns for a wrapper without parent; the binding manager
table has lost entries of wrappers of a smaller rank only. -/
theorem destroyParentInfo_total (rank : Ptr → Nat) (R : Ptr) (keep : Bool) (x : Ptr)
    (hx : x ≠ NULL) (n : Nat) (s : State) (hT : TreeBelow s rank R) (hxR : InSubtree s R x)
    (hp : parentOf s x = NULL) (hn : rank x + (childrenOf s x).length < n) :
    ∃ s1, _destroyParentInfo n s x keep = some s1 ∧
      (∀ e ∈ s1.wrapperMapper, e ∈ s.wrapperMapper) ∧
      (∀ e ∈ s.wrapperMapper, rank x ≤ rank e.2 → e ∈ s1.wrapperMapper) := by
  unfold _destroyParentInfo
  rcases hpi : (s.d x).parentInfo with _ | pInfo
  · exact ⟨s, rfl, fun _ h => h, fun _ h _ => h⟩
  · obtain ⟨sa, ha, -, -, -, -, -, hu, -, hm1, hm2⟩ :=
      destroyChildren_total rank R keep x hx n s hT hxR (by simp [hpi]) hn
    obtain ⟨s1, h1, hm, -⟩ := removeParent_of_parentless sa x false
      removeParent_keepReference (hu.2.2.1.trans hp)
    refine ⟨s1, by simp only [ha, Option.some_bind]; exact h1, ?_, ?_⟩
    · intro e he; rw [hm] at he; exact hm1 e he
    · intro e he hr; rw [hm]; exact hm2 e he hr

/-- Below a tree `deallocData(w, true)` returns for a wrapper without parent. -/
theorem deallocData_total (rank : Ptr → Nat) (n : Nat) (s : State) (w : Ptr) (hw : w ≠ NULL)
    (hT : TreeBelow s rank w) (hp : parentOf s w = NULL)
    (hn : rank w + (childrenOf s w).length < n) :
    ∃ s1, deallocData n s w true = some s1 := by
  rw [deallocData_cleanup]
  obtain ⟨sa, ha, -, hsa⟩ := removeParent_of_parentless s w removeParent_giveOwnershipBack
    removeParent_keepReference hp
  rw [ha, Option.some_bind]
  have key : ∃ sb, (if (sa.d w).parentInfo.isSome then _destroyParentInfo n sa w true
      else some sa) = some sb := by
    rcases hsa with e | e
    · subst e
      split_ifs
      · obtain ⟨sb, hb, -⟩ := destroyParentInfo_total rank w true w hw n sa hT
          Relation.ReflTransGen.refl hp hn
        exact ⟨sb, hb⟩
      · exact ⟨sa, rfl⟩
    · rw [e]
      exact ⟨sa, rfl⟩
  obtain ⟨sb, hb⟩ := key
  rw [hb, Option.some_bind]
  unfold deallocData
  simp

theorem LinksInverse.links_of_eq {s s1 : State} (h : LinksInverse s)
    (hp : ∀ y, parentOf s1 y = parentOf s y) (hc : ∀ y, childrenOf s1 y = childrenOf s y)
    (hw : ∀ y, wrapperRefOf s1 y = wrapperRefOf s y)
    (hcc : ∀ y, (s1.d y).containsCppWrapper = (s.d y).containsCppWrapper) :
    LinksInverse s1 where
  inverse c p := by rw [hc, hp]; exact h.inverse c p
  sorted p := by rw [hc]; exact h.sorted p
  irrefl c := by rw [hp]; exact h.irrefl c
  noWrapperRef c := by rw [hw]; exact h.noWrapperRef c
  noCppWrapper c := by rw [hcc]; exact h.noCppWrapper c

theorem LinksInverse.links_of_parentInfo_eq {s s1 : State} (h : LinksInverse s)
    (hp : ∀ y, (s1.d y).parentInfo = (s.d y).parentInfo)
    (hcc : ∀ y, (s1.d y).containsCppWrapper = (s.d y).containsCppWrapper) :
    LinksInverse s1 :=
  h.links_of_eq (fun y => by simp only [parentOf, hp]) (fun y => by simp only [childrenOf, hp])
    (fun y => by simp only [wrapperRefOf, hp]) hcc

theorem removeParent_no_wrapperRef (s s1 : State) (c : Ptr) (g k : Bool)
    (hcc : (s.d c).containsCppWrapper = false) (hw : wrapperRefOf s c = false)
    (h : removeParent s c g k = some s1) : wrapperRefOf s1 c = false := by
  unfold removeParent at h
  rcases hpc : (s.d c).parentInfo with _ | pInfo
  · simp only [hpc, Option.some.injEq] at h
    subst h
    exact hw
  have hwf : pInfo.hasWrapperRef = false := by simpa [wrapperRefOf, hpc] using hw
  simp only [hpc] at h
  by_cases hp0 : pInfo.parent = NULL
  · simp only [hp0, if_true, hwf, Bool.false_eq_true, if_false, Option.some.injEq] at h
    subst h
    exact hw
  · simp only [hp0, if_false] at h
    rcases hpY : (s.d pInfo.parent).parentInfo with _ | ppInfo
    · simp [hpY] at h
    simp only [hpY] at h
    by_cases hmem : c ∈ ppInfo.children
    · simp only [hmem, not_true_eq_false, if_false] at h
      by_cases hcY : c = pInfo.parent
      · have hpp : ppInfo = pInfo := by
          rw [← hcY, hpc] at hpY
          exact (Option.some.inj hpY).symm
        subst hpp
        rw [← hcY] at h
        clear hcY hpY hp0
        split_ifs at h <;> simp only [Option.some.injEq] at h <;> subst h <;>
        simp_all [State.setParentInfo, parentOf, childrenOf, wrapperRefOf]
      · have hYc : pInfo.parent ≠ c := Ne.symm hcY
        split_ifs at h <;> simp only [Option.some.injEq] at h <;> subst h <;>
        simp_all [State.setParentInfo, parentOf, childrenOf, wrapperRefOf]
    · simp only [hmem, not_false_eq_true, if_true, Option.some.injEq] at h
      subst h
      exact hw

/-- The call `removeParent` keeps the children sets the inverse of the parent links. -/
theorem LinksInverse.links_removeParent {s s1 : State} (h : LinksInverse s) (c : Ptr) (g k : Bool)
    (hr : removeParent s c g k = some s1) : LinksInverse s1 := by
  have hccw := (removeParent_facts s s1 c g k hr).1.ccw
  have hwr : ∀ y, wrapperRefOf s1 y = false := fun y => by
    by_cases hy : y = c
    · subst hy
      exact removeParent_no_wrapperRef s s1 y g k (h.noCppWrapper y) (h.noWrapperRef y) hr
    · rw [(removeParent_frame s s1 c g k hr).2.2.2.2.2.2.2.2 y hy]
      exact h.noWrapperRef y
  by_cases hp : parentOf s c = NULL
  · -- no parent and no wrapper reference: nothing happens
    have hs : s1 = s := by
      unfold Object.removeParent at hr
      rcases hpc : (s.d c).parentInfo with _ | pInfo
      · simp only [hpc, Option.some.injEq] at hr
        exact hr.symm
      · have h0 : pInfo.parent = NULL := by simpa [parentOf, hpc] using hp
        have hwf : pInfo.hasWrapperRef = false := by
          simpa [wrapperRefOf, hpc] using h.noWrapperRef c
        simp only [hpc, h0, if_true, hwf, Bool.false_eq_true, if_false,
          Option.some.injEq] at hr
        exact hr.symm
    rw [hs]; exact h
  · have hmem : c ∈ childrenOf s (parentOf s c) := (h.inverse c _).2 ⟨rfl, hp⟩
    have hne : c ≠ parentOf s c := Ne.symm (h.irrefl c hp)
    obtain ⟨s1', h1, hpar, hch, -⟩ :=
      removeParent_attached s c (parentOf s c) g k rfl hp hmem hne
    have : s1' = s1 := Option.some.inj (h1.symm.trans hr)
    subst this
    refine ⟨fun c' p => ?_, fun p => ?_, fun c' => ?_, hwr, fun y => ?_⟩
    · rw [hch, hpar]
      by_cases hpq : p = parentOf s c
      · rw [if_pos hpq, ← hpq, (h.sorted p).nodup.mem_erase_iff, h.inverse c' p]
        by_cases hc' : c' = c
        · simp [hc', hpq, hp]
          exact fun e => hp e.symm
        · simp [hc']
      · rw [if_neg hpq, h.inverse c' p]
        by_cases hc' : c' = c
        · subst hc'
          simp only [if_true]
          constructor
          · rintro ⟨e, -⟩; exact absurd e.symm hpq
          · rintro ⟨e, e2⟩; exact absurd e.symm e2
        · simp [hc']
    · rw [hch]
      split_ifs
      · exact (h.sorted _).sublist (List.erase_sublist _ _)
      · exact h.sorted p
    · rw [hpar]
      split_ifs
      · exact fun e => absurd rfl e
      · exact h.irrefl c'
    · rw [hccw]; exact h.noCppWrapper y

/-- The block of `setParent` that adds a parentless child to a wrapper keeps the children sets
the inverse of the parent links. -/
theorem LinksInverse.links_addChild {s3 s6 : State} (h : LinksInverse s3) (p c : Ptr)
    (hp : p ≠ NULL) (hcp : c ≠ p) (hc0 : parentOf s3 c = NULL)
    (ha : setParent_addChild s3 p c = some s6) : LinksInverse s6 := by
  obtain ⟨hpar, hch, hwr, hccw⟩ := setParent_addChild_facts s3 s6 p c ha
  refine ⟨fun c' p' => ?_, fun p' => ?_, fun c' => ?_, fun y => ?_, fun y => ?_⟩
  · rw [hch, hpar]
    by_cases hpp : p' = p
    · subst hpp
      rw [if_pos rfl, ChildrenList.mem_insert, h.inverse c' p']
      by_cases hc' : c' = c
      · simp [hc', hp]
      · simp [hc']
    · rw [if_neg hpp, h.inverse c' p']
      by_cases hc' : c' = c
      · subst hc'
        simp only [if_true]
        constructor
        · rintro ⟨e, e2⟩; rw [hc0] at e; exact absurd e.symm e2
        · rintro ⟨e, -⟩; exact absurd e.symm hpp
      · simp [hc']
  · rw [hch]
    split_ifs
    · exact ChildrenList.sorted_insert c _ (h.sorted p)
    · exact h.sorted p'
  · rw [hpar]
    split_ifs with hc'
    · subst hc'; exact fun _ => Ne.symm hcp
    · exact h.irrefl c'
  · rw [hwr]; exact h.noWrapperRef y
  · rw [hccw]; exact h.noCppWrapper y

/-- The body of `setParent` keeps the children sets the inverse of the parent links. -/
theorem LinksInverse.links_setParentOfWrapper {s s7 : State} (h : LinksInverse s) (p c : Ptr)
    (hcp : c ≠ p) (hs : setParentOfWrapper s p c = some s7) : LinksInverse s7 := by
  rw [setParentOfWrapper_blocks] at hs
  obtain ⟨hn1, hn2, hn3, hn4, -⟩ := setParent_newParentInfo_facts s p
  have h1 : LinksInverse (setParent_newParentInfo s p) := h.links_of_eq hn1 hn2 hn3 hn4
  have h2 : LinksInverse (Py_INCREF (setParent_newParentInfo s p) c) :=
    h1.links_of_parentInfo_eq (fun _ => rfl) (fun _ => rfl)
  have hdec : ∀ t : State, LinksInverse t → LinksInverse (Py_DECREF t c) := fun t ht =>
    ht.links_of_parentInfo_eq (fun _ => rfl) (fun _ => rfl)
  split_ifs at hs with hsame hnull
  · simp only [Option.some.injEq] at hs
    subst hs
    exact h1
  · -- the new parent is a wrapper
    have hp0 : p ≠ NULL ∧ p ≠ Py_None := by simpa using hnull
    rcases hrem : setParent_removeOld (Py_INCREF (setParent_newParentInfo s p) c) p c
      with _ | s3
    · simp [hrem] at hs
    rw [hrem, Option.some_bind] at hs
    rcases hadd : setParent_addChild s3 p c with _ | s6
    · simp [hadd] at hs
    rw [hadd] at hs
    simp only [Option.map_some', Option.some.injEq] at hs
    subst hs
    refine hdec s6 ?_
    -- after the removal the child has no parent
    have hpc2 : parentOf (Py_INCREF (setParent_newParentInfo s p) c) c ≠ p := by
      intro e
      apply hsame
      have : ((setParent_newParentInfo s p).d c).parentInfo.map (fun q => q.parent) =
          some p := by
        have e' : parentOf (setParent_newParentInfo s p) c = p := e
        unfold parentOf at e'
        rcases hpi : ((setParent_newParentInfo s p).d c).parentInfo with _ | pi
        · rw [hpi] at e'; exact absurd e'.symm hp0.1
        · rw [hpi] at e'; simpa using e'
      simp [hp0.1, hp0.2, this]
    unfold setParent_removeOld at hrem
    split_ifs at hrem with hcond
    · have h3 : LinksInverse s3 := h2.links_removeParent c _ _ hrem
      have hpar3 : parentOf s3 c = NULL := by
        by_cases hq : parentOf (Py_INCREF (setParent_newParentInfo s p) c) c = NULL
        · rcases (removeParent_frame _ _ _ _ _ hrem).2.1 with e | e
          · rw [e]; exact hq
          · exact e
        · have hmem := (h2.inverse c _).2 ⟨rfl, hq⟩
          obtain ⟨s3', h3', hpar, -⟩ := removeParent_attached _ c _
            removeParent_giveOwnershipBack removeParent_keepReference rfl hq hmem
            (Ne.symm (h2.irrefl c hq))
          have : s3' = s3 := Option.some.inj (h3'.symm.trans hrem)
          subst this
          rw [hpar, if_pos rfl]
      exact h3.links_addChild p c hp0.1 hcp hpar3 hadd
    · simp only [Option.some.injEq] at hrem
      subst hrem
      have hpar3 : parentOf (Py_INCREF (setParent_newParentInfo s p) c) c = NULL := by
        by_contra hq
        apply hcond
        have e' : parentOf (setParent_newParentInfo s p) c ≠ NULL := hq
        have e2 : parentOf (setParent_newParentInfo s p) c ≠ p := hpc2
        unfold parentOf at e' e2
        rcases hpi : ((setParent_newParentInfo s p).d c).parentInfo with _ | pi
        · rw [hpi] at e'; exact absurd rfl e'
        · rw [hpi] at e' e2
          simp [hpi, e', e2]
      exact h2.links_addChild p c hp0.1 hcp hpar3 hadd
  · -- the new parent is null
    rcases hrem : setParent_removeOld (Py_INCREF (setParent_newParentInfo s p) c) p c
      with _ | s3
    · simp [hrem] at hs
    rw [hrem, Option.some_bind] at hs
    simp only [Option.map_some', Option.some.injEq] at hs
    subst hs
    refine hdec s3 ?_
    unfold setParent_removeOld at hrem
    split_ifs at hrem
    · exact h2.links_removeParent c _ _ hrem
    · simp only [Option.some.injEq] at hrem
      subst hrem
      exact h2

/-- Whenever `makeValid` returns it has changed validity flags only. -/
theorem makeValid_onlyValidity : ∀ (n : Nat) (s : State) (x : Ptr) (s1 : State),
    makeValid n s x = some s1 → OnlyValidity s s1 := by
  intro n
  induction n with
  | zero => intro s x s1 h; simp [makeValid] at h
  | succ n ih =>
    intro s x s1 h
    by_cases hx : x = NULL ∨ x = Py_None ∨ (s.d x).validCppObject = true
    · have : makeValid (n + 1) s x = some s := by simp [makeValid, hx]
      rw [this, Option.some.injEq] at h
      subst h
      exact OnlyValidity.validity_refl s
    · rw [makeValid_succ n s x hx] at h
      have key : ∀ (l : List Ptr) (st st1 : State),
          makeValidChildren (makeValid n) l st = some st1 → OnlyValidity st st1 := by
        intro l
        induction l with
        | nil =>
          intro st st1 h
          simp only [makeValidChildren, Option.some.injEq] at h
          subst h
          exact OnlyValidity.validity_refl st
        | cons it rest ihl =>
          intro st st1 h
          simp only [makeValidChildren] at h
          rcases hr : makeValid n st it with _ | sa
          · simp [hr] at h
          · rw [hr, Option.some_bind] at h
            exact (ih st it sa hr).validity_trans (ihl sa st1 h)
      exact (OnlyValidity.setValid s x true).validity_trans (key _ _ s1 h)

theorem LinksInverse.links_setHasOwnership {s : State} (h : LinksInverse s) (w : Ptr) (b : Bool) :
    LinksInverse (s.setD w { s.d w with hasOwnership := b }) :=
  h.links_of_parentInfo_eq (fun y => setHasOwnership_parentInfo s w b y) (fun y => by
    by_cases hy : y = w
    · subst hy; simp
    · simp [hy])

theorem LinksInverse.links_invalidate {s s1 : State} (h : LinksInverse s) (n : Nat) (x : Ptr)
    (hi : invalidate n s x = some s1) : LinksInverse s1 :=
  invalidate_induction (fun s s1 => LinksInverse s → LinksInverse s1) (fun _ h => h)
    (fun _ _ _ h1 h2 h => h2 (h1 h))
    (fun s x h => h.links_of_parentInfo_eq (fun y => markInvalid_parentInfo s x y)
      (markInvalid_step s x).ccw)
    (fun _ c _ hr h => h.links_removeParent c true true hr) n s x s1 hi h

theorem LinksInverse.links_makeValid {s s1 : State} (h : LinksInverse s) (n : Nat) (x : Ptr)
    (hm : makeValid n s x = some s1) : LinksInverse s1 :=
  have hv := makeValid_onlyValidity n s x s1 hm
  h.links_of_parentInfo_eq hv.parentInfo_eq hv.containsCppWrapper_eq

/-- Every call of the six operations keeps the children sets the inverse of the parent links. -/
theorem LinksInverse.links_call {s s1 : State} (h : LinksInverse s) (hc : WrapperCall s s1) :
    LinksInverse s1 := by
  rcases hc with ⟨fuel, p, c, hs⟩ | ⟨c, g, k, hs⟩ | ⟨fuel, x, hs⟩ | ⟨fuel, x, hs⟩ |
    ⟨fuel, w, hs⟩ | ⟨fuel, w, hs⟩
  · exact setParent_induction (fun s s1 => LinksInverse s → LinksInverse s1) p (fun _ h => h)
      (fun _ _ _ h1 h2 h => h2 (h1 h))
      (fun s c s1 _ _ hcp hs h => h.links_setParentOfWrapper p c hcp hs) fuel s c s1 hs h
  · exact h.links_removeParent c g k hs
  · exact h.links_invalidate fuel x hs
  · exact h.links_makeValid fuel x hs
  · by_cases ho : (s.d w).hasOwnership = true
    · rw [getOwnership_owner fuel s w ho, Option.some.injEq] at hs
      subst hs; exact h
    have ho' : (s.d w).hasOwnership = false := by simpa using ho
    by_cases hp : parentOf s w = NULL
    · rw [getOwnership_makeValid fuel s w ho' hp (h.noCppWrapper w)] at hs
      exact (h.links_setHasOwnership w true).links_makeValid fuel w hs
    · have : getOwnership fuel s w = some s := by simp [getOwnership, ho', hp]
      rw [this, Option.some.injEq] at hs
      subst hs; exact h
  · by_cases h1 : (s.d w).hasOwnership = false ∨
        (s.typeD (s.ob_type w)).type_behaviour = BEHAVIOUR_VALUETYPE
    · rw [releaseOwnership_skip fuel s w h1, Option.some.injEq] at hs
      subst hs; exact h
    have ho : (s.d w).hasOwnership = true := by
      by_contra hne
      exact h1 (Or.inl (by simpa using hne))
    rw [releaseOwnership_invalidate fuel s w ho (fun e => h1 (Or.inr e))
      (h.noCppWrapper w)] at hs
    exact (h.links_setHasOwnership w false).links_invalidate fuel w hs

theorem LinksInverse.links_fresh (s0 : State)
    (h0 : ∀ o, (s0.d o).parentInfo = none ∧ (s0.d o).containsCppWrapper = false) :
    LinksInverse s0 where
  inverse c p := by simp [childrenOf, parentOf, (h0 p).1, (h0 c).1]; exact fun e => e.symm
  sorted p := by simp [childrenOf, (h0 p).1]
  irrefl c := by simp [parentOf, (h0 c).1]
  noWrapperRef c := by simp [wrapperRefOf, (h0 c).1]
  noCppWrapper c := (h0 c).2

/-- C17: in every state reached from freshly created wrappers (no `ParentInfo`, native storage
not embedded) by returning calls of `setParent`, `removeParent`, `invalidate`, `makeValid`,
`getOwnership` and `releaseOwnership`, a wrapper `c` is in the children set of a wrapper `p`
if and only if the `ParentInfo` of `c` names `p` as its parent. -/
theorem children_inverse_of_parent (s0 s : State)
    (h0 : ∀ o, (s0.d o).parentInfo = none ∧ (s0.d o).containsCppWrapper = false)
    (hr : Relation.ReflTransGen WrapperCall s0 s) :
    ∀ c p, p ≠ NULL → (c ∈ childrenOf s p ↔ parentOf s c = p) := by
  have h : LinksInverse s := by
    induction hr with
    | refl => exact LinksInverse.links_fresh s0 h0
    | tail _ hstep ih => exact ih.links_call hstep
  intro c p hp
  rw [h.inverse c p]
  exact ⟨fun e => e.1, fun e => ⟨e, hp⟩⟩

/-- C17, witness: after `setParent(2, 3)` and `invalidate(2)` on fresh wrappers, wrapper `3` is
not in the children set of `2` and does not name `2` as its parent. -/
theorem children_inverse_of_parent_witness :
    ((3 : Ptr) ∈ childrenOf (((setParent 1 baseState 2 3).bind
        fun s1 => invalidate 2 s1 2).getD baseState) 2 ↔
      parentOf (((setParent 1 baseState 2 3).bind
        fun s1 => invalidate 2 s1 2).getD baseState) 3 = 2) ∧
    parentOf (((setParent 1 baseState 2 3).bind
        fun s1 => invalidate 2 s1 2).getD baseState) 3 = NULL :=
  ⟨children_inverse_of_parent baseState _ (fun _ => ⟨rfl, rfl⟩)
    (Relation.ReflTransGen.tail
      (Relation.ReflTransGen.single
        (Or.inl ⟨1, 2, 3, (rfl : setParent 1 baseState 2 3 =
          some ((setParent 1 baseState 2 3).getD baseState))⟩))
      (Or.inr (Or.inr (Or.inl ⟨2, 2, rfl⟩)))) 3 2 (by decide), by decide⟩

/-- C17, the code at the failing input: the wrappers `2`, `3`, `4` of `ccwState` are freshly
created (no `ParentInfo`), `3` embeds its native storage. The calls `setParent(2, 3)`,
`invalidate(2)`, `setParent(3, 4)` and `removeParent(3, true, false)` all return; afterwards `4`
names `3` as its parent, but `3` has no `ParentInfo`, hence no children set that could hold
`4`. -/
theorem children_inverse_of_parent_counterexample :
    [2, 3, 4].map (fun o => (ccwState.d o).parentInfo) = [none, none, none] ∧
    (ccwState.d 3).containsCppWrapper = true ∧
    ((setParent 1 ccwState 2 3).bind fun s1 =>
      (invalidate 3 s1 2).bind fun s2 =>
        (setParent 1 s2 3 4).bind fun s3 =>
          (removeParent s3 3 true false).map fun s4 =>
            (wrapperRefOf s3 3, childrenOf s3 3, parentOf s4 4, childrenOf s4 3,
              (s4.d 3).parentInfo)) = some (true, [4], 3, [], none) ∧
    parentOf orphanState 4 = 3 ∧ (4 : Ptr) ∉ childrenOf orphanState 3 := by
  decide

/-! ## The number protocol table -/

/-- The table after the constructor has run: the entries in key order. -/
theorem m_nbFuncs_eq : m_nbFuncs =
    [("__add__", "nb_add"), ("__and__", "nb_and"), ("__div__", "nb_divide"),
     ("__iadd__", "nb_inplace_add"), ("__iand__", "nb_inplace_and"), ("__idiv__", "nb_divide"),
     ("__ilshift__", "nb_inplace_lshift"), ("__imod__", "nb_remainder"),
     ("__imul__", "nb_multiply"), ("__invert__", "nb_invert"), ("__ior__", "nb_inplace_or"),
     ("__irshift__", "nb_inplace_rshift"), ("__isub__", "nb_inplace_subtract"),
     ("__ixor__", "nb_inplace_xor"), ("__lshift__", "nb_lshift"), ("__mod__", "nb_remainder"),
     ("__mul__", "nb_multiply"), ("__neg__", "nb_negative"), ("__or__", "nb_or"),
     ("__pos__", "nb_positive"), ("__rshift__", "nb_rshift"), ("__sub__", "nb_subtract"),
     ("__xor__", "nb_xor"), ("bool", "nb_nonzero")] := by
  decide

/-- C30: seven of the ten in-place operator names are mapped to their `nb_inplace_*` member, but
`__imul__`, `__idiv__` and `__imod__` are mapped to `nb_multiply`, `nb_divide` and
`nb_remainder`, the members of `__mul__`, `__div__` and `__mod__`; for a class with both `*` and
`*=` the function `writeTypeAsNumberDefinition` assigns two different functions to
`nb_multiply`, the binary one last, and nothing to an in-place member. -/
theorem nbFuncs_inplace_slots :
    (["__iadd__", "__isub__", "__ilshift__", "__irshift__", "__iand__", "__ixor__",
        "__ior__"].map fun k => QMap.value k m_nbFuncs) =
      ["nb_inplace_add", "nb_inplace_subtract", "nb_inplace_lshift", "nb_inplace_rshift",
        "nb_inplace_and", "nb_inplace_xor", "nb_inplace_or"] ∧
    (["__imul__", "__idiv__", "__imod__"].map fun k => QMap.value k m_nbFuncs) =
      ["nb_multiply", "nb_divide", "nb_remainder"] ∧
    (["__mul__", "__div__", "__mod__"].map fun k => QMap.value k m_nbFuncs) =
      ["nb_multiply", "nb_divide", "nb_remainder"] ∧
    writeTypeAsNumberDefinition [("__mul__", "Sbk_V___mul__"), ("__imul__", "Sbk_V___imul__")] ""
      = [("nb_multiply", "Sbk_V___imul__"), ("nb_multiply", "Sbk_V___mul__")] := by
  refine ⟨?_, ?_, ?_, ?_⟩
  · rw [m_nbFuncs_eq]; decide
  · rw [m_nbFuncs_eq]; decide
  · rw [m_nbFuncs_eq]; decide
  · decide


/-! ## Native pointer slots -/

/-- C29: `setCppPointer(w, T, p)` on a wrapper whose pointer array holds the slot of `T`: when
the slot is null it stores `p` there, returns true and sets no error, and `cppPointer(w, T)`
then returns `p`; when the slot is not null it returns false, sets the RuntimeError
"You can't initialize an object twice!" and leaves every pointer of the wrapper unchanged. -/
theorem setCppPointer_once (idxOf : Ptr → Ptr → Nat) (s : State) (w T p old : Ptr)
    (arr : List Ptr) (harr : (s.d w).cptr = some arr)
    (hslot : arr.get? (cptrIndex idxOf s (s.ob_type w) T) = some old) :
    ∃ s1 r, setCppPointer idxOf s w T p = some (s1, r) ∧
      (old = NULL →
        r = (true, none) ∧
        (s1.d w).cptr = some (arr.set (cptrIndex idxOf s (s.ob_type w) T) p) ∧
        cppPointer idxOf s1 w T = some p) ∧
      (old ≠ NULL →
        r = (false, some ⟨.PyExc_RuntimeError, "You can't initialize an object twice!"⟩) ∧
        (s1.d w).cptr = (s.d w).cptr ∧
        cppPointer idxOf s1 w T = some old) := by
  have hlt : cptrIndex idxOf s (s.ob_type w) T < arr.length := by
    rcases Nat.lt_or_ge (cptrIndex idxOf s (s.ob_type w) T) arr.length with h | h
    · exact h
    · rw [List.get?_eq_none.2 h] at hslot; cases hslot
  by_cases ho : old = NULL
  · subst ho
    refine ⟨_, _, by simp only [setCppPointer, harr, hslot]; rfl, fun _ => ?_, fun h => (h rfl).elim⟩
    refine ⟨by simp, by simp, ?_⟩
    have hlt2 := hlt
    simp only [cptrIndex] at hlt2
    simp [cppPointer, cptrIndex, hlt2, List.getElem?_set]
  · refine ⟨_, _, by simp only [setCppPointer, harr, hslot]; rfl, fun h => (ho h).elim, fun _ => ?_⟩
    refine ⟨by simp [ho], by simp [ho, harr], ?_⟩
    have hs2 := hslot
    simp only [cptrIndex, List.get?_eq_getElem?] at hs2
    simp [cppPointer, cptrIndex, ho, harr, hs2]

theorem setCppPointer_once_witness :
    ∃ s1 r, setCppPointer (fun _ _ => 1) pointerState 2 30 0x2000 = some (s1, r) ∧
      (NULL = NULL →
        r = (true, none) ∧
        (s1.d 2).cptr
          = some ([0x1000, NULL].set (cptrIndex (fun _ _ => 1) pointerState
              (pointerState.ob_type 2) 30) 0x2000) ∧
        cppPointer (fun _ _ => 1) s1 2 30 = some 0x2000) ∧
      (NULL ≠ NULL →
        r = (false, some ⟨.PyExc_RuntimeError, "You can't initialize an object twice!"⟩) ∧
        (s1.d 2).cptr = (pointerState.d 2).cptr ∧
        cppPointer (fun _ _ => 1) s1 2 30 = some NULL) :=
  setCppPointer_once (fun _ _ => 1) pointerState 2 30 0x2000 NULL [0x1000, NULL] (by decide)
    (by decide)

/-! ## Round trip of the integer converters -/

theorem Primitive.type_bounds (T : Primitive) :
    0 < T.type.bits ∧ T.type.bits ≤ 64 ∧ LLONG_MIN ≤ T.type.min := by
  cases T <;> decide

/-- The Python integer `toPython` makes of a value of the type holds that value. -/
theorem Primitive.toPython_eq (T : Primitive) (x : Int) (h1 : T.type.min ≤ x)
    (h2 : x ≤ T.type.max) : T.toPython x = .PyLong x := by
  cases T <;>
    simp only [Primitive.toPython, IntPrimitive.toPython, UnsignedLongPrimitive.toPython,
      PyNumber.PyLong.injEq] <;>
    apply static_cast_of_fits _ (by decide) <;>
    simp only [Primitive.type, IntType.min, IntType.max, IntType.long, IntType.unsigned_long,
      if_true, Bool.false_eq_true, if_false] at h1 h2 ⊢ <;>
    omega

/-- C28: for each of the six integer types and every value `x` of the type that a
`PY_LONG_LONG` holds, `toCpp (toPython x)` returns `x` and sets no error; for every
`unsigned long` above the largest `PY_LONG_LONG` the round trip sets `OverflowError` and
returns the largest `unsigned long`. -/
theorem int_round_trip (conv : FloatConversion) :
    (∀ (T : Primitive) (x : Int), T.type.min ≤ x → x ≤ T.type.max → x ≤ LLONG_MAX →
      T.toCpp conv (T.toPython x) = (x, none)) ∧
    (∀ x : Int, LLONG_MAX < x → x ≤ IntType.unsigned_long.max →
      Primitive.unsigned_long.toCpp conv (Primitive.unsigned_long.toPython x)
        = (2 ^ 64 - 1, some .PyExc_OverflowError)) := by
  constructor
  · intro T x h1 h2 h3
    obtain ⟨hb, _, hmin⟩ := T.type_bounds
    have hc := check_iff T.type x h3
    have hk : OverFlowChecker.check T.type x = false := by
      cases h : OverFlowChecker.check T.type x
      · rfl
      · rcases hc.1 h with h | h <;> omega
    rw [Primitive.toPython_eq T x h1 h2]
    simp only [Primitive.toCpp, IntPrimitive.toCpp, PyLong_AsLongLong]
    rw [if_pos ⟨by omega, h3⟩]
    simp only [hk, Bool.false_eq_true, if_false]
    rw [static_cast_of_fits T.type hb x h1 h2]
  · intro x h1 h2
    rw [Primitive.toPython_eq .unsigned_long x (by
      simp only [Primitive.type, IntType.min, IntType.unsigned_long, Bool.false_eq_true,
        if_false]
      unfold LLONG_MAX at h1; omega) h2]
    simp only [Primitive.toCpp, IntPrimitive.toCpp, PyLong_AsLongLong]
    rw [if_neg (by omega)]
    decide

/-- C28, witness: `-5` as a `short` survives the round trip. -/
theorem int_round_trip_witness :
    Primitive.short.toCpp .indefinite (Primitive.short.toPython (-5)) = (-5, none) :=
  (int_round_trip .indefinite).1 .short (-5) (by decide) (by decide) (by decide)


/-! ## The string converters -/

/-- C25: `Primitive<const char*>::isConvertible` returns null or the converter's own `convert`,
and `convert` stores `toCpp(x)`, the null pointer for `None`; `Primitive<std::string>` does the
same for every string, but it accepts `None` as well and its `convert` is undefined there: the
`std::string` is constructed from the null pointer. -/
theorem string_convert_defined :
    (∀ x, PrimitiveConstCharPtr.isConvertible x = none ∨
      PrimitiveConstCharPtr.isConvertible x = some .const_char_ptr_convert) ∧
    (∀ x, PrimitiveConstCharPtr.convert x = PrimitiveConstCharPtr.toCpp x) ∧
    PrimitiveConstCharPtr.isConvertible .None = some .const_char_ptr_convert ∧
    PrimitiveConstCharPtr.convert .None = .null ∧
    (∀ chars, PrimitiveConstCharPtr.isConvertible (.PyString chars)
        = some .const_char_ptr_convert ∧
      PrimitiveConstCharPtr.convert (.PyString chars) = .chars chars) ∧
    (∀ x, PrimitiveStdString.isConvertible x = none ∨
      PrimitiveStdString.isConvertible x = some .std_string_convert) ∧
    (∀ chars, PrimitiveStdString.isConvertible (.PyString chars) = some .std_string_convert ∧
      PrimitiveStdString.convert (.PyString chars) = some chars) ∧
    PrimitiveStdString.isConvertible .None = some .std_string_convert ∧
    PrimitiveStdString.convert .None = none := by
  refine ⟨fun x => ?_, fun _ => rfl, by decide, by decide, fun c => ?_, fun x => ?_,
    fun c => ?_, by decide, by decide⟩
  · unfold PrimitiveConstCharPtr.isConvertible; split_ifs <;> simp
  · simp [PrimitiveConstCharPtr.isConvertible, PrimitiveConstCharPtr.convert,
      PrimitiveConstCharPtr.toCpp, PyString_AsString, PyString_Check]
  · unfold PrimitiveStdString.isConvertible; split_ifs <;> simp
  · simp [PrimitiveStdString.isConvertible, PrimitiveStdString.convert,
      PrimitiveStdString.toCpp, PyString_AsString, PyString_Check, std_string]


/-! ## Creation of a Python subclass -/

/-- On two wrappers that are each the only child of the other, `invalidate` returns for no
amount of fuel. -/
theorem invalidate_cycle : ∀ (n : Nat) (s : State) (A B : Ptr), A ≠ NULL → A ≠ Py_None →
    B ≠ NULL → B ≠ Py_None → childrenOf s A = [B] → childrenOf s B = [A] →
    invalidate n s A = none := by
  intro n
  induction n with
  | zero => intro s A B _ _ _ _ _ _; rfl
  | succ n ih =>
    intro s A B hA0 hA1 hB0 hB1 hAB hBA
    rw [invalidate_succ n s A hA0 hA1, hAB]
    have hc : ∀ y, childrenOf (markInvalid s A) y = childrenOf s y := fun y => by
      simp only [childrenOf, markInvalid_parentInfo]
    simp only [invalidateChildren]
    rw [ih (markInvalid s A) B A hB0 hB1 hA0 hA1 ((hc B).trans hBA) ((hc A).trans hAB)]
    rfl

/-- C26: below a finite tree (every wrapper of the subtree of `R` has a strictly increasing
children set whose members name it as their parent and have a smaller rank), `invalidate(w)`
returns for every wrapper `w` of the subtree once the fuel exceeds the rank of `w`, and the
loop of `_destroyParentInfo` over the children set of a wrapper `x` returns with the set empty
once the fuel exceeds the rank plus the size of the set. -/
theorem teardown_terminates (rank : Ptr → Nat) (R : Ptr) (s : State)
    (hT : TreeBelow s rank R) :
    (∀ w n, InSubtree s R w → rank w < n → ∃ s1, invalidate n s w = some s1) ∧
    (∀ x keep n, x ≠ NULL → InSubtree s R x → (s.d x).parentInfo.isSome = true →
      rank x + (childrenOf s x).length < n →
      ∃ s1, destroyChildren n s x keep = some s1 ∧ childrenOf s1 x = []) := by
  refine ⟨fun w n hw hn => ?_, fun x keep n hx hxR hp hn => ?_⟩
  · obtain ⟨s1, h1, -⟩ := invalidate_total rank R n s w hT hw hn
    exact ⟨s1, h1⟩
  · obtain ⟨s1, h1, -, -, hc, -⟩ := destroyChildren_total rank R keep x hx n s hT hxR hp hn
    exact ⟨s1, h1, hc⟩

/-- C26, witness: the tree `2 → {3, 4}`, `3 → {5}`. -/
theorem teardown_terminates_witness :
    (∀ w n, InSubtree treeState 2 w → treeRank w < n → ∃ s1, invalidate n treeState w = some s1) ∧
    (∀ x keep n, x ≠ NULL → InSubtree treeState 2 x →
      (treeState.d x).parentInfo.isSome = true →
      treeRank x + (childrenOf treeState x).length < n →
      ∃ s1, destroyChildren n treeState x keep = some s1 ∧ childrenOf s1 x = []) :=
  teardown_terminates treeRank 2 treeState tree_treeState

/-- C26, counterexample: after `setParent(2, 3)` and `setParent(3, 2)` the children sets are
the inverse of the parent links, `3` is the only child of `2` and `2` the only child of `3`;
neither `invalidate(2)` nor the loop of `_destroyParentInfo` on `2` returns, whatever the
fuel. -/
theorem teardown_terminates_counterexample :
    (∀ c p, c ∈ childrenOf cycleState p ↔ parentOf cycleState c = p ∧ p ≠ NULL) ∧
    childrenOf cycleState 2 = [3] ∧ childrenOf cycleState 3 = [2] ∧
    (∀ n, invalidate n cycleState 2 = none) ∧
    (∀ n, destroyChildren n cycleState 2 true = none) ∧
    (∀ n, _destroyParentInfo n cycleState 2 true = none) := by
  have h23 : childrenOf cycleState 2 = [3] := by decide
  have h32 : childrenOf cycleState 3 = [2] := by decide
  have hinv : ∀ n, invalidate n cycleState 3 = none := fun n =>
    invalidate_cycle n cycleState 3 2 (by decide) (by decide) (by decide) (by decide) h32 h23
  have hd : ∀ n, destroyChildren n cycleState 2 true = none := fun n => by
    cases n with
    | zero => rfl
    | succ n => rw [destroyChildren_cons n cycleState 2 3 [] true h23, hinv n]; rfl
  have hL : LinksInverse cycleState := by
    have e1 : setParent 1 baseState 2 3 = some ((setParent 1 baseState 2 3).getD baseState) :=
      rfl
    have e2 : setParent 1 ((setParent 1 baseState 2 3).getD baseState) 3 2 = some cycleState :=
      rfl
    exact ((LinksInverse.links_fresh baseState (fun _ => ⟨rfl, rfl⟩)).links_call
      (Or.inl ⟨1, 2, 3, e1⟩)).links_call (Or.inl ⟨1, 3, 2, e2⟩)
  refine ⟨hL.inverse, h23, h32, fun n => ?_, hd, fun n => ?_⟩
  · exact invalidate_cycle n cycleState 2 3 (by decide) (by decide) (by decide) (by decide)
      h23 h32
  · have hp : ∃ pInfo, (cycleState.d 2).parentInfo = some pInfo := by
      rcases h : (cycleState.d 2).parentInfo with _ | pInfo
      · simp [childrenOf, h] at h23
      · exact ⟨pInfo, rfl⟩
    obtain ⟨pInfo, hp⟩ := hp
    simp only [_destroyParentInfo, hp, hd n]
    rfl

/-! ## The reference-keeping invariant -/

theorem RefCountMap.mem_of_find (key : String) (v : List Ptr) :
    ∀ m : RefCountMap, RefCountMap.find key m = some v → (key, v) ∈ m := by
  intro m
  induction m with
  | nil => intro h; simp [RefCountMap.find] at h
  | cons e rest ih =>
    obtain ⟨k, u⟩ := e
    intro h
    by_cases hk : k = key
    · simp only [RefCountMap.find, hk, if_true, Option.some.injEq] at h
      simp [hk, h]
    · simp only [RefCountMap.find, hk, if_false] at h
      exact List.mem_cons_of_mem _ (ih h)

theorem RefCountMap.find_eq_none (key : String) :
    ∀ m : RefCountMap, (∀ e ∈ m, e.1 ≠ key) → RefCountMap.find key m = none := by
  intro m
  induction m with
  | nil => intro _; rfl
  | cons e rest ih =>
    obtain ⟨k, u⟩ := e
    intro h
    have hk : k ≠ key := h (k, u) (List.mem_cons_self _ _)
    simp only [RefCountMap.find, hk, if_false]
    exact ih fun e he => h e (List.mem_cons_of_mem _ he)

theorem RefCountMap.mem_assign (key : String) (v : List Ptr) (e : String × List Ptr) :
    ∀ m : RefCountMap, e ∈ RefCountMap.assign key v m → e = (key, v) ∨ e ∈ m := by
  intro m
  induction m with
  | nil => intro h; simpa [RefCountMap.assign] using h
  | cons a rest ih =>
    obtain ⟨k, u⟩ := a
    unfold RefCountMap.assign
    split_ifs with h1 h2
    · intro h
      rcases List.mem_cons.1 h with h | h
      · exact Or.inl h
      · exact Or.inr (List.mem_cons_of_mem _ h)
    · intro h
      rcases List.mem_cons.1 h with h | h
      · exact Or.inl h
      · exact Or.inr h
    · intro h
      rcases List.mem_cons.1 h with h | h
      · exact Or.inr (h ▸ List.mem_cons_self _ _)
      · rcases ih h with h | h
        · exact Or.inl h
        · exact Or.inr (List.mem_cons_of_mem _ h)

theorem RefCountMap.mem_erase (key : String) (e : String × List Ptr) :
    ∀ m : RefCountMap, e ∈ RefCountMap.erase key m → e ∈ m := by
  intro m
  induction m with
  | nil => intro h; simp [RefCountMap.erase] at h
  | cons a rest ih =>
    obtain ⟨k, u⟩ := a
    unfold RefCountMap.erase
    split_ifs with h1
    · exact fun h => List.mem_cons_of_mem _ h
    · intro h
      rcases List.mem_cons.1 h with h | h
      · exact h ▸ List.mem_cons_self _ _
      · exact List.mem_cons_of_mem _ (ih h)

theorem RefCountMap.sorted_assign (key : String) (v : List Ptr) :
    ∀ m : RefCountMap, (m.map Prod.fst).Sorted (· < ·) →
      ((RefCountMap.assign key v m).map Prod.fst).Sorted (· < ·) := by
  intro m
  induction m with
  | nil => intro _; simp [RefCountMap.assign]
  | cons a rest ih =>
    obtain ⟨k, u⟩ := a
    intro h
    rw [List.map_cons, List.sorted_cons] at h
    unfold RefCountMap.assign
    split_ifs with h1 h2
    · subst h1
      simpa [List.sorted_cons] using h
    · rw [List.map_cons, List.sorted_cons]
      refine ⟨?_, by rw [List.map_cons, List.sorted_cons]; exact h⟩
      intro b hb
      rcases List.mem_cons.1 hb with rfl | hb
      · exact h2
      · exact lt_trans h2 (h.1 b hb)
    · rw [List.map_cons, List.sorted_cons]
      refine ⟨?_, ih h.2⟩
      intro b hb
      obtain ⟨e, he, rfl⟩ := List.mem_map.1 hb
      rcases RefCountMap.mem_assign key v e rest he with rfl | he
      · exact lt_of_le_of_ne (not_lt.1 h2) h1
      · exact h.1 e.1 (List.mem_map_of_mem _ he)

theorem RefCountMap.sorted_erase (key : String) :
    ∀ m : RefCountMap, (m.map Prod.fst).Sorted (· < ·) →
      ((RefCountMap.erase key m).map Prod.fst).Sorted (· < ·) := by
  intro m
  induction m with
  | nil => intro _; simp [RefCountMap.erase]
  | cons a rest ih =>
    obtain ⟨k, u⟩ := a
    intro h
    rw [List.map_cons, List.sorted_cons] at h
    unfold RefCountMap.erase
    split_ifs with h1
    · exact h.2
    · rw [List.map_cons, List.sorted_cons]
      refine ⟨fun b hb => ?_, ih h.2⟩
      obtain ⟨e, he, rfl⟩ := List.mem_map.1 hb
      exact h.1 e.1 (List.mem_map_of_mem _ (RefCountMap.mem_erase key e rest he))

theorem heldCount_cons (e : String × List Ptr) (m : RefCountMap) (o : Ptr) :
    heldCount (e :: m) o = e.2.count o + heldCount m o := by
  simp [heldCount]

theorem heldCount_assign (key : String) (v : List Ptr) (o : Ptr) :
    ∀ m : RefCountMap, (m.map Prod.fst).Sorted (· < ·) →
      heldCount (RefCountMap.assign key v m) o + ((RefCountMap.find key m).getD []).count o
        = heldCount m o + v.count o := by
  intro m
  induction m with
  | nil => intro _; simp [RefCountMap.assign, RefCountMap.find, heldCount]
  | cons a rest ih =>
    obtain ⟨k, u⟩ := a
    intro h
    rw [List.map_cons, List.sorted_cons] at h
    unfold RefCountMap.assign
    split_ifs with h1 h2
    · simp only [heldCount_cons, RefCountMap.find, h1, if_true, Option.getD_some]
      omega
    · have hnone : RefCountMap.find key ((k, u) :: rest) = none := by
        apply RefCountMap.find_eq_none
        intro e he
        rcases List.mem_cons.1 he with rfl | he
        · exact h1
        · exact fun heq => lt_asymm h2 (heq ▸ h.1 e.1 (List.mem_map_of_mem _ he))
      rw [hnone]
      simp only [heldCount_cons, Option.getD_none, List.count_nil]
      omega
    · have := ih h.2
      simp only [heldCount_cons, RefCountMap.find, h1, if_false] at this ⊢
      omega

theorem heldCount_erase (key : String) (o : Ptr) :
    ∀ m : RefCountMap,
      heldCount (RefCountMap.erase key m) o + ((RefCountMap.find key m).getD []).count o
        = heldCount m o := by
  intro m
  induction m with
  | nil => simp [RefCountMap.erase, RefCountMap.find, heldCount]
  | cons a rest ih =>
    obtain ⟨k, u⟩ := a
    unfold RefCountMap.erase
    split_ifs with h1
    · simp only [heldCount_cons, RefCountMap.find, h1, if_true, Option.getD_some]
      omega
    · have := ih
      simp only [heldCount_cons, RefCountMap.find, h1, if_false] at this ⊢
      omega

theorem heldCount_eq_zero (m : RefCountMap) (o : Ptr) (h : ∀ e ∈ m, o ∉ e.2) :
    heldCount m o = 0 := by
  induction m with
  | nil => rfl
  | cons a rest ih =>
    rw [heldCount_cons, ih fun e he => h e (List.mem_cons_of_mem _ he),
      List.count_eq_zero_of_not_mem (h a (List.mem_cons_self _ _))]

theorem RefCountMap.erase_of_find_none (key : String) :
    ∀ m : RefCountMap, RefCountMap.find key m = none → RefCountMap.erase key m = m := by
  intro m
  induction m with
  | nil => intro _; rfl
  | cons e rest ih =>
    obtain ⟨k, v⟩ := e
    intro hf
    by_cases hk : k = key
    · simp [RefCountMap.find, hk] at hf
    · simp only [RefCountMap.find, hk, if_false] at hf
      simp [RefCountMap.erase, hk, ih hf]

/-- What a call of `keepReference` does to the table of the wrapper and to the reference
counts, by the branch taken. -/
theorem keepReference_obs (s : State) (w : Ptr) (key : String) (obj : Ptr) (append : Bool) :
    (referredTable (keepReference s w key obj append) w = referredTable s w ∧
      (keepReference s w key obj append).ob_refcnt = s.ob_refcnt) ∨
    (obj ≠ NULL ∧ obj ∉ (RefCountMap.find key (referredTable s w)).getD [] ∧
      referredTable (keepReference s w key obj append) w =
        RefCountMap.assign key ((RefCountMap.find key (referredTable s w)).getD [] ++ [obj])
          (referredTable s w) ∧
      (keepReference s w key obj append).ob_refcnt = (Py_INCREF s obj).ob_refcnt) ∨
    (referredTable (keepReference s w key obj append) w =
        RefCountMap.erase key (referredTable s w) ∧
      (keepReference s w key obj append).ob_refcnt =
        (decRefPyObjectList s ((RefCountMap.find key (referredTable s w)).getD []) NULL).ob_refcnt)
      ∨
    (obj ≠ NULL ∧ obj ∉ (RefCountMap.find key (referredTable s w)).getD [] ∧
      referredTable (keepReference s w key obj append) w =
        RefCountMap.assign key [obj] (referredTable s w) ∧
      (keepReference s w key obj append).ob_refcnt =
        (Py_INCREF (decRefPyObjectList s
          ((RefCountMap.find key (referredTable s w)).getD []) obj) obj).ob_refcnt) := by
  by_cases hpres : obj ∈ (RefCountMap.find key (referredTable s w)).getD []
  · left
    rcases hm : (s.d w).referredObjects with _ | m
    · simp [referredTable, hm, RefCountMap.find] at hpres
    · rcases hf : RefCountMap.find key m with _ | objects
      · simp [referredTable, hm, hf] at hpres
      · have hmem : obj ∈ objects := by simpa [referredTable, hm, hf] using hpres
        rw [keepReference_present s w key obj append objects (by simp [keptUnder, hm, hf]) hmem]
        exact ⟨rfl, rfl⟩
  · have hnew : obj ∉ (keptUnder s w key).getD [] := by
      rcases hm : (s.d w).referredObjects with _ | m
      · simp [keptUnder, hm]
      · simpa [keptUnder, referredTable, hm] using hpres
    have hk : (keptUnder s w key).getD [] = (RefCountMap.find key (referredTable s w)).getD [] := by
      rcases hm : (s.d w).referredObjects with _ | m
      · simp [keptUnder, referredTable, hm, RefCountMap.find]
      · simp [keptUnder, referredTable, hm]
    by_cases hN : obj = NULL ∨ obj = Py_None
    · cases append with
      | true =>
        left
        have hN2 : (obj = NULL || obj = Py_None) = true := by
          rcases hN with rfl | rfl <;> simp
        unfold keepReference
        rcases hm : (s.d w).referredObjects with _ | m
        · simp [referredTable, hm, hN2, setReferredObjects, RefCountMap.find]
        · have hno : ¬ ((RefCountMap.find key m).isSome = true ∧
              obj ∈ (RefCountMap.find key m).getD []) := by
            rintro ⟨_, h2⟩
            exact hpres (by simpa [referredTable, hm] using h2)
          simp [referredTable, hm, hN2, hno]
      | false =>
        right; right; left
        have hN2 : (obj = NULL || obj = Py_None) = true := by
          rcases hN with rfl | rfl <;> simp
        unfold keepReference
        rcases hm : (s.d w).referredObjects with _ | m
        · simp [referredTable, hm, setReferredObjects, RefCountMap.find, hN2,
            decRefPyObjectList, RefCountMap.erase]
        · rcases hf : RefCountMap.find key m with _ | objects
          · simp [referredTable, hm, hf, hN2, decRefPyObjectList,
              RefCountMap.erase_of_find_none key m hf]
          · have hno : obj ∉ objects := by simpa [referredTable, hm, hf] using hpres
            cases objects with
            | nil =>
              simp [referredTable, hm, hf, hN2, decRefPyObjectList, setReferredObjects]
            | cons a l =>
              simp [referredTable, hm, hf, hN2, hno, setReferredObjects,
                decRefPyObjectList_d] at hno ⊢
    · have h0 : obj ≠ NULL := fun e => hN (Or.inl e)
      have h1 : obj ≠ Py_None := fun e => hN (Or.inr e)
      cases append with
      | true =>
        right; left
        refine ⟨h0, hpres, ?_, ?_⟩ <;>
        · unfold keepReference
          rcases hm : (s.d w).referredObjects with _ | m
          · simp [referredTable, hm, setReferredObjects, RefCountMap.find, h0, h1, Py_INCREF]
          · rcases hf : RefCountMap.find key m with _ | objects
            · simp [referredTable, hm, hf, h0, h1, setReferredObjects, Py_INCREF]
            · have hno : obj ∉ objects := by simpa [referredTable, hm, hf] using hpres
              simp [referredTable, hm, hf, h0, h1, hno, setReferredObjects, Py_INCREF]
      | false =>
        right; right; right
        rw [keepReference_replace_eq s w key obj h0 h1 hnew, hk]
        refine ⟨h0, hpres, ?_, ?_⟩
        · simp [referredTable, setReferredObjects]
        · rfl

/-- What a call of `removeReference` does to the table and to the reference counts. -/
theorem removeReference_obs (s : State) (w : Ptr) (key : String) (obj : Ptr) :
    (referredTable (removeReference s w key obj) w = referredTable s w ∧
      (removeReference s w key obj).ob_refcnt = s.ob_refcnt) ∨
    (referredTable (removeReference s w key obj) w = RefCountMap.erase key (referredTable s w) ∧
      (removeReference s w key obj).ob_refcnt =
        (decRefPyObjectList s ((RefCountMap.find key (referredTable s w)).getD []) NULL).ob_refcnt)
      := by
  unfold removeReference
  split_ifs with h
  · exact Or.inl ⟨rfl, rfl⟩
  · rcases hm : (s.d w).referredObjects with _ | m
    · exact Or.inl ⟨rfl, rfl⟩
    · rcases hf : RefCountMap.find key m with _ | objects
      · left
        simp [hf]
      · right
        simp [referredTable, hm, hf, setReferredObjects, decRefPyObjectList_d]

theorem clearTable_ob_refcnt (o : Ptr) : ∀ (m : RefCountMap) (s : State),
    (m.foldl (fun st e => decRefPyObjectList st e.2 NULL) s).ob_refcnt o =
      s.ob_refcnt o - (if o = NULL then 0 else (heldCount m o : Int)) := by
  intro m
  induction m with
  | nil => intro s; simp [heldCount]
  | cons e rest ih =>
    intro s
    rw [List.foldl_cons, ih, decRefPyObjectList_ob_refcnt, heldCount_cons]
    split_ifs
    · simp
    · push_cast; ring

/-- What a call of `clearReferences` does to the table and to the reference counts. -/
theorem clearReferences_obs (s : State) (w : Ptr) :
    referredTable (clearReferences s w) w = [] ∧
    ∀ o, (clearReferences s w).ob_refcnt o =
      s.ob_refcnt o - (if o = NULL then 0 else (heldCount (referredTable s w) o : Int)) := by
  unfold clearReferences
  rcases hm : (s.d w).referredObjects with _ | m
  · simp [referredTable, hm, heldCount]
  · refine ⟨by simp [referredTable, setReferredObjects], fun o => ?_⟩
    simp only [setReferredObjects, State.setD_ob_refcnt, referredTable, hm, Option.getD_some]
    exact clearTable_ob_refcnt o m s

theorem ReferencesBalanced.balanced_fresh (s0 : State) (w : Ptr)
    (h0 : referredTable s0 w = []) : ReferencesBalanced s0 s0 w where
  sorted := by simp [h0]
  slots := by simp [h0]
  balance := by simp [h0, heldCount]

/-- The slot under a key of a balanced table, empty when there is none. -/
theorem ReferencesBalanced.slot_facts {s0 s : State} {w : Ptr} (h : ReferencesBalanced s0 s w)
    (key : String) :
    ((RefCountMap.find key (referredTable s w)).getD []).Nodup ∧
      NULL ∉ (RefCountMap.find key (referredTable s w)).getD [] := by
  rcases hf : RefCountMap.find key (referredTable s w) with _ | objs
  · simp
  · have := h.slots _ (RefCountMap.mem_of_find key objs _ hf)
    exact ⟨this.2.1, this.2.2⟩

/-- Every call of the three reference functions keeps the table balanced. -/
theorem ReferencesBalanced.balanced_call {s0 s s1 : State} {w : Ptr}
    (h : ReferencesBalanced s0 s w) (hc : ReferenceCall w s s1) : ReferencesBalanced s0 s1 w := by
  have erase_case : ∀ (key : String) (t : State),
      referredTable t w = RefCountMap.erase key (referredTable s w) →
      t.ob_refcnt = (decRefPyObjectList s
        ((RefCountMap.find key (referredTable s w)).getD []) NULL).ob_refcnt →
      ReferencesBalanced s0 t w := by
    intro key t ht hr
    obtain ⟨-, hnull⟩ := h.slot_facts key
    refine ⟨by rw [ht]; exact RefCountMap.sorted_erase key _ h.sorted,
      fun e he => h.slots e (RefCountMap.mem_erase key e _ (ht ▸ he)), fun o => ?_⟩
    have he := heldCount_erase key o (referredTable s w)
    rw [hr, decRefPyObjectList_ob_refcnt, ht, h.balance o]
    by_cases ho : o = NULL
    · subst ho
      rw [List.count_eq_zero_of_not_mem hnull] at he
      simp only [if_true, sub_zero]
      omega
    · simp only [ho, if_false]
      omega
  rcases hc with ⟨key, obj, append, rfl⟩ | ⟨key, obj, rfl⟩ | rfl
  · obtain ⟨hnd, hnull⟩ := h.slot_facts key
    rcases keepReference_obs s w key obj append with ⟨ht, hr⟩ | ⟨h0, hnew, ht, hr⟩ | ⟨ht, hr⟩ |
      ⟨h0, hnew, ht, hr⟩
    · exact ⟨by rw [ht]; exact h.sorted, fun e he => h.slots e (ht ▸ he),
        fun o => by rw [hr, ht]; exact h.balance o⟩
    · refine ⟨by rw [ht]; exact RefCountMap.sorted_assign key _ _ h.sorted, fun e he => ?_,
        fun o => ?_⟩
      · rw [ht] at he
        rcases RefCountMap.mem_assign key _ e _ he with rfl | he
        · refine ⟨by simp, ?_, ?_⟩
          · exact List.nodup_append.2 ⟨hnd, List.nodup_singleton _, by
              simpa [List.disjoint_singleton] using hnew⟩
          · simpa using ⟨hnull, Ne.symm h0⟩
        · exact h.slots e he
      · have ha := heldCount_assign key
          ((RefCountMap.find key (referredTable s w)).getD [] ++ [obj]) o _ h.sorted
        rw [hr, ht, Py_INCREF_ob_refcnt]
        rw [List.count_append, List.count_singleton] at ha
        have hb := h.balance o
        by_cases ho : o = obj
        · subst ho
          simp only [if_true, beq_self_eq_true] at ha ⊢
          omega
        · have ho2 : (obj == o) = false := by simpa using Ne.symm ho
          simp only [ho, if_false, ho2, Bool.false_eq_true] at ha ⊢
          omega
    · exact erase_case key _ ht hr
    · refine ⟨by rw [ht]; exact RefCountMap.sorted_assign key _ _ h.sorted, fun e he => ?_,
        fun o => ?_⟩
      · rw [ht] at he
        rcases RefCountMap.mem_assign key _ e _ he with rfl | he
        · exact ⟨by simp, List.nodup_singleton _, by simpa using Ne.symm h0⟩
        · exact h.slots e he
      · have ha := heldCount_assign key [obj] o _ h.sorted
        rw [hr, ht, Py_INCREF_ob_refcnt, decRefPyObjectList_ob_refcnt,
          decRefPyObjectList_ob_refcnt]
        rw [List.count_singleton] at ha
        have hb := h.balance o
        have hbo := h.balance obj
        by_cases ho : o = obj
        · subst ho
          rw [List.count_eq_zero_of_not_mem hnew] at ha
          simp only [if_true, beq_self_eq_true, sub_zero] at ha ⊢
          omega
        · have ho2 : (obj == o) = false := by simpa using Ne.symm ho
          simp only [ho, if_false, ho2, Bool.false_eq_true] at ha ⊢
          omega
  · rcases removeReference_obs s w key obj with ⟨ht, hr⟩ | ⟨ht, hr⟩
    · exact ⟨by rw [ht]; exact h.sorted, fun e he => h.slots e (ht ▸ he),
        fun o => by rw [hr, ht]; exact h.balance o⟩
    · exact erase_case key _ ht hr
  · obtain ⟨ht, hr⟩ := clearReferences_obs s w
    refine ⟨by simp [ht], by simp [ht], fun o => ?_⟩
    rw [hr, ht, h.balance o]
    by_cases ho : o = NULL
    · subst ho
      have : heldCount (referredTable s w) NULL = 0 :=
        heldCount_eq_zero _ _ fun e he => (h.slots e he).2.2
      rw [this]
      simp [heldCount]
    · simp [ho, heldCount]

/-- C27: in every state reached from a state in which the table of the wrapper `w` is empty by
calls of `keepReference`, `removeReference` and `clearReferences` on `w`, every slot of the
table holds a non-empty sequence without duplicates, and for every object `o` the reference
count of `o` has grown by exactly the number of slot entries that hold `o`; after
`clearReferences` the table is empty and every reference count is back at its first value. -/
theorem references_balanced (s0 s : State) (w : Ptr) (h0 : referredTable s0 w = [])
    (hr : Relation.ReflTransGen (ReferenceCall w) s0 s) :
    (∀ e ∈ referredTable s w, e.2 ≠ [] ∧ e.2.Nodup) ∧
    (∀ o, s.ob_refcnt o - s0.ob_refcnt o = heldCount (referredTable s w) o) ∧
    referredTable (clearReferences s w) w = [] ∧
    (∀ o, (clearReferences s w).ob_refcnt o - s0.ob_refcnt o = 0) := by
  have h : ReferencesBalanced s0 s w := by
    induction hr with
    | refl => exact ReferencesBalanced.balanced_fresh s0 w h0
    | tail _ hstep ih => exact ih.balanced_call hstep
  have hc : ReferencesBalanced s0 (clearReferences s w) w := h.balanced_call (Or.inr (Or.inr rfl))
  have ht := (clearReferences_obs s w).1
  refine ⟨fun e he => ⟨(h.slots e he).1, (h.slots e he).2.1⟩, fun o => ?_, ht, fun o => ?_⟩
  · rw [h.balance o]; simp
  · rw [hc.balance o, ht]; simp [heldCount]

/-- C27, witness: wrapper `2` keeps `5` and `6` under `"k"`, replaces them by `7`, and keeps
`5` under `"j"`. -/
theorem references_balanced_witness :
    (∀ e ∈ referredTable balancedState 2, e.2 ≠ [] ∧ e.2.Nodup) ∧
    (∀ o, balancedState.ob_refcnt o - baseState.ob_refcnt o
      = heldCount (referredTable balancedState 2) o) ∧
    referredTable (clearReferences balancedState 2) 2 = [] ∧
    (∀ o, (clearReferences balancedState 2).ob_refcnt o - baseState.ob_refcnt o = 0) := by
  have c1 : ReferenceCall 2 baseState (keepReference baseState 2 "k" 5 true) :=
    Or.inl ⟨"k", 5, true, rfl⟩
  have c2 : ReferenceCall 2 (keepReference baseState 2 "k" 5 true)
      (keepReference (keepReference baseState 2 "k" 5 true) 2 "k" 6 true) :=
    Or.inl ⟨"k", 6, true, rfl⟩
  have c3 : ReferenceCall 2 (keepReference (keepReference baseState 2 "k" 5 true) 2 "k" 6 true)
      (keepReference (keepReference (keepReference baseState 2 "k" 5 true) 2 "k" 6 true)
        2 "k" 7 false) :=
    Or.inl ⟨"k", 7, false, rfl⟩
  have c4 : ReferenceCall 2 (keepReference (keepReference (keepReference baseState 2 "k" 5 true)
      2 "k" 6 true) 2 "k" 7 false) balancedState :=
    Or.inl ⟨"j", 5, true, rfl⟩
  exact references_balanced baseState balancedState 2 rfl
    ((((Relation.ReflTransGen.single c1).tail c2).tail c3).tail c4)

/-! ## The destructor calls of a deallocation -/

/-- The teardown steps record no destructor call and leave the types alone. -/
theorem removeParent_dtorCalls (s s1 : State) (c : Ptr) (g k : Bool)
    (h : removeParent s c g k = some s1) :
    s1.dtorCalls = s.dtorCalls ∧ s1.typeD = s.typeD := by
  unfold removeParent at h
  rcases hpc : (s.d c).parentInfo with _ | pInfo
  · simp only [hpc, Option.some.injEq] at h
    subst h
    exact ⟨rfl, rfl⟩
  simp only [hpc] at h
  rcases hpY : (s.d pInfo.parent).parentInfo with _ | ppInfo
  · simp only [hpY] at h
    split_ifs at h <;> simp only [Option.some.injEq] at h <;> subst h <;> exact ⟨rfl, rfl⟩
  · simp only [hpY] at h
    split_ifs at h <;> simp only [Option.some.injEq] at h <;> subst h <;> exact ⟨rfl, rfl⟩

theorem markInvalid_dtorCalls (s : State) (x : Ptr) :
    (markInvalid s x).dtorCalls = s.dtorCalls ∧ (markInvalid s x).typeD = s.typeD := by
  unfold markInvalid
  split_ifs <;> exact ⟨rfl, rfl⟩

theorem invalidate_dtorCalls (n : Nat) (s : State) (x : Ptr) (s1 : State)
    (h : invalidate n s x = some s1) : s1.dtorCalls = s.dtorCalls ∧ s1.typeD = s.typeD :=
  invalidate_induction (fun a b => b.dtorCalls = a.dtorCalls ∧ b.typeD = a.typeD)
    (fun _ => ⟨rfl, rfl⟩) (fun _ _ _ h1 h2 => ⟨h2.1.trans h1.1, h2.2.trans h1.2⟩)
    markInvalid_dtorCalls (fun s c s1 h => removeParent_dtorCalls s s1 c true true h) n s x s1 h

theorem destroyChildren_dtorCalls (keep : Bool) (x : Ptr) : ∀ (n : Nat) (s s1 : State),
    destroyChildren n s x keep = some s1 →
    s1.dtorCalls = s.dtorCalls ∧ s1.typeD = s.typeD := by
  intro n
  induction n with
  | zero => intro s s1 h; simp [destroyChildren] at h
  | succ n ih =>
    intro s s1 h
    rcases hch : childrenOf s x with _ | ⟨first, rest⟩
    · rcases hpi : (s.d x).parentInfo with _ | pInfo
      · simp [destroyChildren, hpi] at h
      · rw [destroyChildren_nil n s x keep (by simp [hpi]) hch, Option.some.injEq] at h
        subst h
        exact ⟨rfl, rfl⟩
    · rw [destroyChildren_cons n s x first rest keep hch] at h
      rcases hr : invalidate n s first with _ | sa
      · simp [hr] at h
      rw [hr, Option.some_bind] at h
      rcases hb : removeParent sa first false keep with _ | sb
      · simp [hb] at h
      rw [hb, Option.some_bind] at h
      obtain ⟨a1, a2⟩ := invalidate_dtorCalls n s first sa hr
      obtain ⟨b1, b2⟩ := removeParent_dtorCalls sa sb first false keep hb
      obtain ⟨c1, c2⟩ := ih sb s1 h
      exact ⟨c1.trans (b1.trans a1), c2.trans (b2.trans a2)⟩

theorem destroyParentInfo_dtorCalls (keep : Bool) (x : Ptr) (n : Nat) (s s1 : State)
    (h : _destroyParentInfo n s x keep = some s1) :
    s1.dtorCalls = s.dtorCalls ∧ s1.typeD = s.typeD := by
  unfold _destroyParentInfo at h
  rcases hpi : (s.d x).parentInfo with _ | pInfo
  · simp only [hpi, Option.some.injEq] at h
    subst h
    exact ⟨rfl, rfl⟩
  · simp only [hpi] at h
    rcases hd : destroyChildren n s x keep with _ | sa
    · simp [hd] at h
    rw [hd, Option.some_bind] at h
    obtain ⟨a1, a2⟩ := destroyChildren_dtorCalls keep x n s sa hd
    obtain ⟨b1, b2⟩ := removeParent_dtorCalls sa s1 x false _ h
    exact ⟨b1.trans a1, b2.trans a2⟩

theorem deallocData_dtorCalls (n : Nat) (s s1 : State) (w : Ptr) (cleanup : Bool)
    (h : deallocData n s w cleanup = some s1) :
    s1.dtorCalls = s.dtorCalls ∧ s1.typeD = s.typeD := by
  have hfalse : ∀ t t1, deallocData n t w false = some t1 →
      t1.dtorCalls = t.dtorCalls ∧ t1.typeD = t.typeD := by
    intro t t1 ht
    unfold deallocData at ht
    simp only [Bool.false_eq_true, if_false, Option.map_some', Option.some.injEq] at ht
    subst ht
    constructor <;> simp [Py_XDECREF] <;> split_ifs <;> simp
  cases cleanup with
  | false => exact hfalse s s1 h
  | true =>
    rw [deallocData_cleanup] at h
    rcases hr : removeParent s w removeParent_giveOwnershipBack removeParent_keepReference
      with _ | sa
    · simp [hr] at h
    rw [hr, Option.some_bind] at h
    rcases hd : (if (sa.d w).parentInfo.isSome then _destroyParentInfo n sa w true
      else some sa) with _ | sb
    · simp [hd] at h
    rw [hd, Option.some_bind] at h
    obtain ⟨a1, a2⟩ := removeParent_dtorCalls s sa w _ _ hr
    have hb : sb.dtorCalls = sa.dtorCalls ∧ sb.typeD = sa.typeD := by
      split_ifs at hd
      · exact destroyParentInfo_dtorCalls true w n sa sb hd
      · simp only [Option.some.injEq] at hd
        subst hd
        exact ⟨rfl, rfl⟩
    obtain ⟨rc, log, hc⟩ := clearReferences_eq sb w
    obtain ⟨d1, d2⟩ := hfalse _ s1 h
    rw [hc] at d1 d2
    exact ⟨d1.trans (hb.1.trans a1), d2.trans (hb.2.trans a2)⟩

/-- Two visitors whose states correspond under `f` walk a hierarchy in step. -/
theorem walkBases_sim {σ τ : Type} (s : State) (v1 : HierarchyVisitor σ)
    (v2 : HierarchyVisitor τ) (f : τ → σ) (hv : ∀ a node, v1.visit (f a) node = f (v2.visit a node))
    (hf : ∀ a, v1.wasFinished (f a) = v2.wasFinished a)
    (r1 : Ptr → σ → Option σ) (r2 : Ptr → τ → Option τ)
    (hr : ∀ T a, r1 T (f a) = (r2 T a).map f) :
    ∀ (l : List Ptr) (a : τ), walkBases s v1 r1 l (f a) = (walkBases s v2 r2 l a).map f := by
  intro l
  induction l with
  | nil => intro a; rfl
  | cons type rest ih =>
    intro a
    unfold walkBases
    by_cases hsub : s.isSbkSubtype type = true
    · simp only [hsub, Bool.not_true, Bool.false_eq_true, if_false]
      by_cases hu : (s.typeD type).is_user_type = true
      · simp only [hu, if_true, hr]
        rcases r2 type a with _ | a1
        · rfl
        · simp only [Option.map_some', Option.some_bind, hf]
          split_ifs
          · rfl
          · exact ih a1
      · simp only [hu, Bool.false_eq_true, if_false, Option.some_bind, hv, hf]
        split_ifs
        · rfl
        · exact ih _
    · simp only [hsub, Bool.not_false, if_true]
      exact ih a

theorem walk_sim {σ τ : Type} (s : State) (v1 : HierarchyVisitor σ)
    (v2 : HierarchyVisitor τ) (f : τ → σ) (hv : ∀ a node, v1.visit (f a) node = f (v2.visit a node))
    (hf : ∀ a, v1.wasFinished (f a) = v2.wasFinished a) :
    ∀ (fuel : Nat) (T : Ptr) (a : τ),
      _walkThroughClassHierarchy s v1 fuel T (f a)
        = (_walkThroughClassHierarchy s v2 fuel T a).map f := by
  intro fuel
  induction fuel with
  | zero => intro T a; rfl
  | succ fuel ih =>
    intro T a
    unfold _walkThroughClassHierarchy
    exact walkBases_sim s v1 v2 f hv hf _ _ ih _ a

/-- The walk reads the types only. -/
theorem walk_congr {σ : Type} (s s1 : State) (v : HierarchyVisitor σ)
    (h1 : s1.tp_bases = s.tp_bases) (h2 : s1.isSbkSubtype = s.isSbkSubtype)
    (h3 : s1.typeD = s.typeD) :
    ∀ (fuel : Nat) (T : Ptr) (a : σ),
      _walkThroughClassHierarchy s1 v fuel T a = _walkThroughClassHierarchy s v fuel T a := by
  have hb : ∀ (r1 r2 : Ptr → σ → Option σ), (∀ T a, r1 T a = r2 T a) →
      ∀ (l : List Ptr) (a : σ), walkBases s1 v r1 l a = walkBases s v r2 l a := by
    intro r1 r2 hr l
    induction l with
    | nil => intro a; rfl
    | cons type rest ih =>
      intro a
      unfold walkBases
      rw [h2, h3, hr]
      simp only [ih]
  intro fuel
  induction fuel with
  | zero => intro T a; rfl
  | succ fuel ih =>
    intro T a
    unfold _walkThroughClassHierarchy
    rw [h1]
    exact hb _ _ ih _ a

/-- The pairs `DtorCallerVisitor` makes of the visited types. -/
theorem enumFrom_pairs (arr : List Ptr) : ∀ (Ts : List Ptr) (k : Nat),
    k + Ts.length ≤ arr.length →
    (Ts.enumFrom k).map (fun p => (arr.getD p.1 NULL, p.2)) = (arr.drop k).zip Ts := by
  intro Ts
  induction Ts with
  | nil => intro k _; simp
  | cons T rest ih =>
    intro k hk
    rw [List.length_cons] at hk
    have hlt : k < arr.length := by omega
    rw [List.enumFrom_cons, List.map_cons, ih (k + 1) (by omega), List.drop_eq_getElem_cons hlt,
      List.zip_cons_cons]
    simp [List.getD_eq_getElem?_getD, List.getElem?_eq_getElem hlt]

theorem dtorWalk_eq (s : State) (W : Ptr) (fuel : Nat) (T : Ptr) :
    _walkThroughClassHierarchy s (DtorCallerVisitor s W) fuel T []
      = (_walkThroughClassHierarchy s BaseAccumulatorVisitor fuel T []).map
          fun Ts => Ts.enum.map fun p => (cptrAt s W p.1, p.2) := by
  have := walk_sim s (DtorCallerVisitor s W) BaseAccumulatorVisitor
    (fun Ts => Ts.enum.map fun p => (cptrAt s W p.1, p.2))
    (fun a node => by
      simp [DtorCallerVisitor, BaseAccumulatorVisitor, List.enum_append, List.enumFrom_singleton])
    (fun _ => rfl) fuel T []
  simpa using this

/-- The destructors collected are run in order on the state the teardown left. -/
theorem callDestructors_eq : ∀ (l : List (Ptr × Ptr)) (s : State),
    (∀ e ∈ l, (s.typeD e.2).cpp_dtor ≠ NULL) →
    l.foldlM (fun st e => callDestructor st (st.typeD e.2).cpp_dtor e.1) s
      = some { s with
          dtorCalls := s.dtorCalls ++ l.map fun e => ((s.typeD e.2).cpp_dtor, e.1)
          dtorFreed := s.dtorFreed ++ List.replicate l.length s.tp_free_log } := by
  intro l
  induction l with
  | nil => intro s _; simp [List.foldlM]
  | cons a l ih =>
    intro s h
    have ha : (s.typeD a.2).cpp_dtor ≠ NULL := h a (List.mem_cons_self _ _)
    have hstep : callDestructor s (s.typeD a.2).cpp_dtor a.1
        = some { s with
            dtorCalls := s.dtorCalls ++ [((s.typeD a.2).cpp_dtor, a.1)]
            dtorFreed := s.dtorFreed ++ [s.tp_free_log] } := by
      simp [callDestructor, ha]
    rw [List.foldlM_cons, hstep]
    simp only [Option.bind_eq_bind, Option.some_bind]
    rw [ih { s with
        dtorCalls := s.dtorCalls ++ [((s.typeD a.2).cpp_dtor, a.1)]
        dtorFreed := s.dtorFreed ++ [s.tp_free_log] }
      fun e he => h e (List.mem_cons_of_mem _ he)]
    simp [List.replicate_succ]

/-- The teardown steps before the release free no wrapper and call no destructor. -/
theorem removeParent_freed (s s1 : State) (c : Ptr) (g k : Bool)
    (h : removeParent s c g k = some s1) :
    s1.tp_free_log = s.tp_free_log ∧ s1.dtorFreed = s.dtorFreed := by
  unfold removeParent at h
  rcases hpc : (s.d c).parentInfo with _ | pInfo
  · simp only [hpc, Option.some.injEq] at h
    subst h
    exact ⟨rfl, rfl⟩
  simp only [hpc] at h
  rcases hpY : (s.d pInfo.parent).parentInfo with _ | ppInfo
  · simp only [hpY] at h
    split_ifs at h <;> simp only [Option.some.injEq] at h <;> subst h <;> exact ⟨rfl, rfl⟩
  · simp only [hpY] at h
    split_ifs at h <;> simp only [Option.some.injEq] at h <;> subst h <;> exact ⟨rfl, rfl⟩

theorem markInvalid_freed (s : State) (x : Ptr) :
    (markInvalid s x).tp_free_log = s.tp_free_log ∧
      (markInvalid s x).dtorFreed = s.dtorFreed := by
  unfold markInvalid
  split_ifs <;> exact ⟨rfl, rfl⟩

theorem invalidate_freed (n : Nat) (s : State) (x : Ptr) (s1 : State)
    (h : invalidate n s x = some s1) :
    s1.tp_free_log = s.tp_free_log ∧ s1.dtorFreed = s.dtorFreed :=
  invalidate_induction (fun a b => b.tp_free_log = a.tp_free_log ∧ b.dtorFreed = a.dtorFreed)
    (fun _ => ⟨rfl, rfl⟩) (fun _ _ _ h1 h2 => ⟨h2.1.trans h1.1, h2.2.trans h1.2⟩)
    markInvalid_freed (fun s c s1 h => removeParent_freed s s1 c true true h) n s x s1 h

theorem destroyChildren_freed (keep : Bool) (x : Ptr) : ∀ (n : Nat) (s s1 : State),
    destroyChildren n s x keep = some s1 →
    s1.tp_free_log = s.tp_free_log ∧ s1.dtorFreed = s.dtorFreed := by
  intro n
  induction n with
  | zero => intro s s1 h; simp [destroyChildren] at h
  | succ n ih =>
    intro s s1 h
    rcases hch : childrenOf s x with _ | ⟨first, rest⟩
    · rcases hpi : (s.d x).parentInfo with _ | pInfo
      · simp [destroyChildren, hpi] at h
      · rw [destroyChildren_nil n s x keep (by simp [hpi]) hch, Option.some.injEq] at h
        subst h
        exact ⟨rfl, rfl⟩
    · rw [destroyChildren_cons n s x first rest keep hch] at h
      rcases hr : invalidate n s first with _ | sa
      · simp [hr] at h
      rw [hr, Option.some_bind] at h
      rcases hb : removeParent sa first false keep with _ | sb
      · simp [hb] at h
      rw [hb, Option.some_bind] at h
      obtain ⟨a1, a2⟩ := invalidate_freed n s first sa hr
      obtain ⟨b1, b2⟩ := removeParent_freed sa sb first false keep hb
      obtain ⟨c1, c2⟩ := ih sb s1 h
      exact ⟨c1.trans (b1.trans a1), c2.trans (b2.trans a2)⟩

theorem destroyParentInfo_freed (keep : Bool) (x : Ptr) (n : Nat) (s s1 : State)
    (h : _destroyParentInfo n s x keep = some s1) :
    s1.tp_free_log = s.tp_free_log ∧ s1.dtorFreed = s.dtorFreed := by
  unfold _destroyParentInfo at h
  rcases hpi : (s.d x).parentInfo with _ | pInfo
  · simp only [hpi, Option.some.injEq] at h
    subst h
    exact ⟨rfl, rfl⟩
  · simp only [hpi] at h
    rcases hd : destroyChildren n s x keep with _ | sa
    · simp [hd] at h
    rw [hd, Option.some_bind] at h
    obtain ⟨a1, a2⟩ := destroyChildren_freed keep x n s sa hd
    obtain ⟨b1, b2⟩ := removeParent_freed sa s1 x false _ h
    exact ⟨b1.trans a1, b2.trans a2⟩

/-- The last step of `deallocData(w, true)` frees `w`; it frees nothing else, and it calls no
destructor. -/
theorem deallocData_freed (n : Nat) (s s1 : State) (w : Ptr)
    (h : deallocData n s w true = some s1) :
    s1.tp_free_log = w :: s.tp_free_log ∧ s1.dtorFreed = s.dtorFreed := by
  have hfalse : ∀ t t1, deallocData n t w false = some t1 →
      t1.tp_free_log = w :: t.tp_free_log ∧ t1.dtorFreed = t.dtorFreed := by
    intro t t1 ht
    unfold deallocData at ht
    simp only [Bool.false_eq_true, if_false, Option.map_some', Option.some.injEq] at ht
    subst ht
    constructor <;> (simp only [Py_XDECREF]; split_ifs <;> rfl)
  rw [deallocData_cleanup] at h
  rcases hr : removeParent s w removeParent_giveOwnershipBack removeParent_keepReference
    with _ | sa
  · simp [hr] at h
  rw [hr, Option.some_bind] at h
  rcases hd : (if (sa.d w).parentInfo.isSome then _destroyParentInfo n sa w true
    else some sa) with _ | sb
  · simp [hd] at h
  rw [hd, Option.some_bind] at h
  obtain ⟨a1, a2⟩ := removeParent_freed s sa w _ _ hr
  have hb : sb.tp_free_log = sa.tp_free_log ∧ sb.dtorFreed = sa.dtorFreed := by
    split_ifs at hd
    · exact destroyParentInfo_freed true w n sa sb hd
    · simp only [Option.some.injEq] at hd
      subst hd
      exact ⟨rfl, rfl⟩
  obtain ⟨rc, log, hc⟩ := clearReferences_eq sb w
  obtain ⟨d1, d2⟩ := hfalse _ s1 h
  rw [hc] at d1 d2
  exact ⟨d1.trans (by rw [State.setD_tp_free_log, hb.1, a1]), d2.trans (hb.2.trans a2)⟩

/-- C23 (amended): for an owning, valid wrapper `W` of a multiple-inheritance type whose class
hierarchy walk visits the native types `Ts` in that order, with the native pointers `arr` (at
least one per visited type, no destructor null, a finite tree below `W`, enough fuel), when the
teardown drops the last reference of no object (`tp_dealloc_log` does not grow, so that no other
deallocation runs inside it): `SbkDeallocWrapper(W)` collects the pairs of `arr[i]` and `Ts[i]`;
`deallocData(W, true)` returns a state `s1` in which no destructor has been called, `W` has been
passed to `tp_free` and no entry of the binding manager refers to `W`; the final state is `s1`
with exactly the destructor calls of `Ts[i]` on `arr[i]` appended, in order, and each of these
calls was made when `W` had been freed. -/
theorem dtors_after_teardown (rank : Ptr → Nat) (fuel : Nat) (s : State) (W : Ptr)
    (Ts arr : List Ptr) (hW : W ≠ NULL)
    (hown : (s.d W).hasOwnership = true) (hvalid : (s.d W).validCppObject = true)
    (hmulti : (s.typeD (s.ob_type W)).is_multicpp = true)
    (hwalk : _walkThroughClassHierarchy s BaseAccumulatorVisitor fuel (s.ob_type W) [] = some Ts)
    (harr : (s.d W).cptr = some arr) (hlen : Ts.length ≤ arr.length)
    (hdtor : ∀ T ∈ Ts, (s.typeD T).cpp_dtor ≠ NULL)
    (hT : TreeBelow s rank W) (hp : parentOf s W = NULL)
    (hn : rank W + (childrenOf s W).length < fuel)
    (hlog : ∀ s1,
      deallocData fuel (if s.weakreflist W ≠ NULL then PyObject_ClearWeakRefs s W else s) W true
        = some s1 → s1.tp_dealloc_log = s.tp_dealloc_log) :
    _walkThroughClassHierarchy s (DtorCallerVisitor s W) fuel (s.ob_type W) []
      = some (arr.zip Ts) ∧
    ∃ s1,
      deallocData fuel (if s.weakreflist W ≠ NULL then PyObject_ClearWeakRefs s W else s) W true
        = some s1 ∧
      s1.dtorCalls = s.dtorCalls ∧ s1.dtorFreed = s.dtorFreed ∧
      s1.tp_dealloc_log = s.tp_dealloc_log ∧
      s1.tp_free_log = W :: s.tp_free_log ∧
      (∀ e ∈ s1.wrapperMapper, e.2 ≠ W) ∧
      SbkDeallocWrapper fuel s W = some { s1 with
        dtorCalls := s.dtorCalls ++ (arr.zip Ts).map fun e => ((s.typeD e.2).cpp_dtor, e.1)
        dtorFreed := s.dtorFreed ++ List.replicate Ts.length (W :: s.tp_free_log) } := by
  have hpairs : (Ts.enum.map fun p => (cptrAt s W p.1, p.2)) = arr.zip Ts := by
    have h := enumFrom_pairs arr Ts 0 (by simpa using hlen)
    simpa [cptrAt, harr, List.enum] using h
  have hwalk2 : _walkThroughClassHierarchy s (DtorCallerVisitor s W) fuel (s.ob_type W) []
      = some (arr.zip Ts) := by
    rw [dtorWalk_eq, hwalk, Option.map_some', hpairs]
  refine ⟨hwalk2, ?_⟩
  -- the state after the weak references are cleared
  obtain ⟨s0, hs0, hd, hty, hot, hdc, hb, hsub, hfl, hdf⟩ : ∃ s0 : State,
      s0 = (if s.weakreflist W ≠ NULL then PyObject_ClearWeakRefs s W else s) ∧
      s0.d = s.d ∧ s0.typeD = s.typeD ∧ s0.ob_type = s.ob_type ∧
      s0.dtorCalls = s.dtorCalls ∧ s0.tp_bases = s.tp_bases ∧
      s0.isSbkSubtype = s.isSbkSubtype ∧ s0.tp_free_log = s.tp_free_log ∧
      s0.dtorFreed = s.dtorFreed := by
    refine ⟨_, rfl, ?_, ?_, ?_, ?_, ?_, ?_, ?_, ?_⟩ <;> split_ifs <;> rfl
  rw [← hs0] at hlog ⊢
  have hvis : DtorCallerVisitor s0 W = DtorCallerVisitor s W := by
    simp [DtorCallerVisitor, cptrAt, hd]
  have hwalk0 : _walkThroughClassHierarchy s0 (DtorCallerVisitor s0 W) fuel (s0.ob_type W) []
      = some (arr.zip Ts) := by
    rw [hvis, hot, walk_congr s s0 _ hb hsub hty]
    exact hwalk2
  have hT0 : TreeBelow s0 rank W := hT.of_parentInfo_eq fun y => by rw [hd]
  have hp0 : parentOf s0 W = NULL := by simpa [parentOf, hd] using hp
  have hn0 : rank W + (childrenOf s0 W).length < fuel := by simpa [childrenOf, hd] using hn
  obtain ⟨s1, h1⟩ := deallocData_total rank fuel s0 W hW hT0 hp0 hn0
  obtain ⟨hdc1, hty1⟩ := deallocData_dtorCalls fuel s0 s1 W true h1
  obtain ⟨hfl1, hdf1⟩ := deallocData_freed fuel s0 s1 W h1
  have hrel := deallocData_released fuel s0 s1 W (by rw [hd, harr]; simp) h1
  have hcalls := callDestructors_eq (arr.zip Ts) s1 (fun e he => by
    rw [hty1, hty]
    exact hdtor e.2 (List.of_mem_zip he).2)
  have hzl : (arr.zip Ts).length = Ts.length := by
    rw [List.length_zip]; exact min_eq_right hlen
  refine ⟨s1, h1, hdc1.trans hdc, hdf1.trans hdf, hlog s1 h1, hfl1.trans (by rw [hfl]), hrel, ?_⟩
  unfold SbkDeallocWrapper
  simp only [← hs0, hd, hown, hvalid, Bool.and_self, if_true, hty, hot, hmulti]
  rw [← hty, ← hot, hwalk0, Option.some_bind]
  unfold DtorCallerVisitor.done
  rw [h1, Option.some_bind, hcalls, hdc1, hdc, hty1, hty, hdf1, hdf, hfl1, hfl, hzl]

/-- C23, witness: the wrapper `2` of `multiState`; the destructor `7` runs on `0x1000`, then the
destructor `8` on `0x2000`, both after `2` has been freed. -/
theorem dtors_after_teardown_witness :
    (_walkThroughClassHierarchy multiState (DtorCallerVisitor multiState 2) 2
        (multiState.ob_type 2) [] = some ([0x1000, 0x2000].zip [10, 11]) ∧
      ∃ s1,
        deallocData 2 (if multiState.weakreflist 2 ≠ NULL then PyObject_ClearWeakRefs multiState 2
          else multiState) 2 true = some s1 ∧
        s1.dtorCalls = multiState.dtorCalls ∧ s1.dtorFreed = multiState.dtorFreed ∧
        s1.tp_dealloc_log = multiState.tp_dealloc_log ∧
        s1.tp_free_log = 2 :: multiState.tp_free_log ∧
        (∀ e ∈ s1.wrapperMapper, e.2 ≠ 2) ∧
        SbkDeallocWrapper 2 multiState 2 = some { s1 with
          dtorCalls := multiState.dtorCalls ++
            (([0x1000, 0x2000] : List Ptr).zip [10, 11]).map
              fun e => ((multiState.typeD e.2).cpp_dtor, e.1)
          dtorFreed := multiState.dtorFreed ++
            List.replicate ([10, 11] : List Ptr).length (2 :: multiState.tp_free_log) }) ∧
    (SbkDeallocWrapper 2 multiState 2).map (fun s1 => (s1.dtorCalls, s1.dtorFreed))
      = some ([(7, 0x1000), (8, 0x2000)], [[2], [2]]) :=
  ⟨dtors_after_teardown (fun _ => 0) 2 multiState 2 [10, 11] [0x1000, 0x2000] (by decide)
    (by decide) (by decide) (by decide) (by decide) (by decide) (by decide) (by decide)
    (tree_of_no_children multiState _ 2 (fun p => by
      simp only [childrenOf, multiState, State.setD_d, baseState]
      split_ifs <;> rfl)) (by decide) (by decide)
    (fun s1 h => by
      have hl : (deallocData 2 (if multiState.weakreflist 2 ≠ NULL then
          PyObject_ClearWeakRefs multiState 2 else multiState) 2 true).map
            (fun t => t.tp_dealloc_log) = some [] := by decide
      rw [h] at hl
      simpa using hl), by decide⟩

/-- C23, counterexample: the wrapper `2` of `keptMultiState` keeps the owning wrapper `5`, which
has one reference. The teardown of `2` drops that reference and hands `5` to its deallocation
before any destructor of `2` is called; the model records the hand-off only, and the recorded
calls are those of `2`. The deallocation of `5`, which the interpreter runs at the hand-off,
calls the destructor `7` on `0x5000`, a pointer that is none of `2`. -/
theorem dtors_after_teardown_counterexample :
    (deallocData 2 keptMultiState 2 true).map (fun s1 => (s1.tp_dealloc_log, s1.dtorCalls))
      = some ([5], []) ∧
    ((deallocData 2 keptMultiState 2 true).bind fun s1 => SbkDeallocWrapper 2 s1 5).map
      (fun s2 => s2.dtorCalls) = some [(7, 0x5000)] ∧
    (SbkDeallocWrapper 2 keptMultiState 2).map (fun s2 => (s2.tp_dealloc_log, s2.dtorCalls))
      = some ([5], [(7, 0x1000), (8, 0x2000)]) := by
  decide

/-! ## Deallocation of a parent -/

/-- The loop of `_destroyParentInfo` accounts for every edge of the first state. -/
theorem destroyChildren_accounts (s0 : State) (R x : Ptr) (keep : Bool)
    (h0 : ∀ p, InSubtree s0 R p → ∀ c ∈ childrenOf s0 p, c ≠ NULL ∧ c ≠ Py_None)
    (hx : InSubtree s0 R x) :
    ∀ (n : Nat) (s s1 : State), InvalidateStep s0 s → EdgesAccounted s0 s →
      destroyChildren n s x keep = some s1 →
      InvalidateStep s0 s1 ∧ EdgesAccounted s0 s1 ∧ childrenOf s1 x = [] := by
  intro n
  induction n with
  | zero => intro s s1 _ _ h; simp [destroyChildren] at h
  | succ n ih =>
    intro s s1 hs he h
    rcases hch : childrenOf s x with _ | ⟨first, rest⟩
    · rcases hpi : (s.d x).parentInfo with _ | pInfo
      · simp [destroyChildren, hpi] at h
      · rw [destroyChildren_nil n s x keep (by simp [hpi]) hch, Option.some.injEq] at h
        subst h
        exact ⟨hs, he, hch⟩
    · rw [destroyChildren_cons n s x first rest keep hch] at h
      rcases hr : invalidate n s first with _ | sa
      · simp [hr] at h
      rw [hr, Option.some_bind] at h
      rcases hb : removeParent sa first false keep with _ | sb
      · simp [hb] at h
      rw [hb, Option.some_bind] at h
      have hmem : first ∈ childrenOf s0 x :=
        (hs.children x).subset (by rw [hch]; exact List.mem_cons_self _ _)
      obtain ⟨hf0, hf1⟩ := h0 x hx first hmem
      obtain ⟨hea, hia⟩ := invalidate_accounts s0 R h0 n s first sa hs he
        (Relation.ReflTransGen.tail hx hmem) hf0 hf1 hr
      have hsa : InvalidateStep s0 sa := hs.step_trans (invalidate_step n s first sa hr)
      have hsb : InvalidateStep s0 sb :=
        hsa.step_trans (removeParent_facts sa sb first false keep hb).1
      exact ih sb s1 hsb (hea.removeParent hia hb) h

theorem removeParent_noop (s : State) (c : Ptr) (g k : Bool) (hp : parentOf s c = NULL)
    (hwr : wrapperRefOf s c = false) : removeParent s c g k = some s := by
  unfold removeParent
  rcases hpc : (s.d c).parentInfo with _ | pInfo
  · rfl
  · have h1 : pInfo.parent = NULL := by simpa [parentOf, hpc] using hp
    have h2 : pInfo.hasWrapperRef = false := by simpa [wrapperRefOf, hpc] using hwr
    simp [h1, h2]

/-- Without `cleanup`, `deallocData` returns and touches neither a validity flag nor a
`ParentInfo`. -/
theorem deallocData_false_frame (n : Nat) (t : State) (W : Ptr) :
    ∃ s1, deallocData n t W false = some s1 ∧
      ∀ y, (s1.d y).validCppObject = (t.d y).validCppObject ∧
        (s1.d y).parentInfo = (t.d y).parentInfo := by
  unfold deallocData
  simp only [Bool.false_eq_true, if_false, Option.map_some']
  refine ⟨_, rfl, fun y => ?_⟩
  by_cases hy : y = W
  · subst hy
    constructor <;> simp [Py_XDECREF] <;> split_ifs <;> simp
  · constructor <;> simp [Py_XDECREF, hy] <;> split_ifs <;> simp [hy]

theorem clearReferences_validity (s : State) (x : Ptr) :
    ∀ y, ((clearReferences s x).d y).validCppObject = (s.d y).validCppObject ∧
      ((clearReferences s x).d y).parentInfo = (s.d y).parentInfo := by
  obtain ⟨rc, log, h⟩ := clearReferences_eq s x
  rw [h]
  intro y
  by_cases hy : y = x
  · subst hy; simp
  · simp [hy]

/-- Below a finite tree, the teardown `deallocData(W, true)` of a wrapper without parent that
does not hold the wrapper reference returns; the children set of `W` is empty afterwards, and
every former descendant that does not embed its native storage is invalid. -/
theorem deallocData_invalidates (rank : Ptr → Nat) (n : Nat) (s : State) (W : Ptr)
    (hW : W ≠ NULL) (hT : TreeBelow s rank W) (hp : parentOf s W = NULL)
    (hwr : wrapperRefOf s W = false) (hn : rank W + (childrenOf s W).length < n) :
    ∃ s1, deallocData n s W true = some s1 ∧ childrenOf s1 W = [] ∧
      ∀ d, InSubtree s W d → d ≠ W → (s.d d).containsCppWrapper = false →
        (s1.d d).validCppObject = false := by
  rw [deallocData_cleanup, removeParent_noop s W _ _ hp hwr, Option.some_bind]
  -- the state after the children are destroyed
  obtain ⟨sa, ha, hca, hia⟩ : ∃ sa,
      (if (s.d W).parentInfo.isSome then _destroyParentInfo n s W true else some s) = some sa ∧
      childrenOf sa W = [] ∧
      ∀ d, InSubtree s W d → d ≠ W → (s.d d).containsCppWrapper = false →
        (sa.d d).validCppObject = false := by
    rcases hpi : (s.d W).parentInfo with _ | pInfo
    · refine ⟨s, rfl, by simp [childrenOf, hpi], fun d hd hdW => ?_⟩
      rcases Relation.ReflTransGen.cases_head hd with e | ⟨q, hq, -⟩
      · exact absurd e.symm hdW
      · simp [childrenOf, hpi] at hq
    · have hsome : (s.d W).parentInfo.isSome = true := by simp [hpi]
      obtain ⟨sa, ha, -, -, -, -, -, hu, -⟩ := destroyChildren_total rank W true W hW n s hT
        Relation.ReflTransGen.refl hsome hn
      obtain ⟨-, hea, hca⟩ := destroyChildren_accounts s W W true
        (fun p hp c hc => ⟨((hT p hp).2 c hc).2.1, ((hT p hp).2 c hc).2.2.1⟩)
        Relation.ReflTransGen.refl n s sa (InvalidateStep.step_refl s)
        (EdgesAccounted.edges_refl s) ha
      have hrem : removeParent sa W false removeParent_keepReference = some sa :=
        removeParent_noop sa W _ _ (hu.2.2.1.trans hp) (hu.2.1.trans hwr)
      refine ⟨sa, ?_, hca, fun d hd hdW hccw => ?_⟩
      · simp only [Option.isSome_some, if_true, _destroyParentInfo, hpi, ha, Option.some_bind]
        exact hrem
      · rcases Relation.ReflTransGen.cases_head hd with e | ⟨q, hq, hqd⟩
        · exact absurd e.symm hdW
        · rcases hea W q hq with h1 | h1
          · rw [hca] at h1; exact absurd h1 (List.not_mem_nil q)
          · exact h1 d hqd hccw
  rw [ha, Option.some_bind]
  obtain ⟨s1, h1, hf⟩ := deallocData_false_frame n (clearReferences sa W) W
  have hc := clearReferences_validity sa W
  refine ⟨s1, h1, ?_, fun d hd hdW hccw => ?_⟩
  · have : (s1.d W).parentInfo = (sa.d W).parentInfo := ((hf W).2).trans (hc W).2
    simpa [childrenOf, this] using hca
  · rw [(hf d).1, (hc d).1]
    exact hia d hd hdW hccw

/-- C22: for an owning, valid wrapper `W` of a single-inheritance type, without parent and not
holding the wrapper reference, with a finite tree below it: `SbkDeallocWrapper(W)` runs
`deallocData(W, true)` to a state `s1` and calls the destructor in `s1`; in `s1` the children
set of `W` is empty and every former descendant of `W` that does not embed its native storage
is invalid. -/
theorem dealloc_children_invalidated (rank : Ptr → Nat) (fuel : Nat) (s : State)
    (W p : Ptr) (rest : List Ptr) (hW : W ≠ NULL)
    (hown : (s.d W).hasOwnership = true) (hvalid : (s.d W).validCppObject = true)
    (hmulti : (s.typeD (s.ob_type W)).is_multicpp = false)
    (hcptr : (s.d W).cptr = some (p :: rest))
    (hdtor : (s.typeD (s.ob_type W)).cpp_dtor ≠ NULL)
    (hT : TreeBelow s rank W) (hp : parentOf s W = NULL) (hwr : wrapperRefOf s W = false)
    (hn : rank W + (childrenOf s W).length < fuel) :
    ∃ s1,
      deallocData fuel (if s.weakreflist W ≠ NULL then PyObject_ClearWeakRefs s W else s) W true
        = some s1 ∧
      SbkDeallocWrapper fuel s W = some { s1 with
        dtorCalls := s.dtorCalls ++ [((s.typeD (s.ob_type W)).cpp_dtor, p)]
        dtorFreed := s1.dtorFreed ++ [s1.tp_free_log] } ∧
      childrenOf s1 W = [] ∧
      ∀ d, InSubtree s W d → d ≠ W → (s.d d).containsCppWrapper = false →
        (s1.d d).validCppObject = false := by
  -- the state after the weak references are cleared
  obtain ⟨s0, hs0, hd, hty, hot, hdc⟩ : ∃ s0 : State,
      s0 = (if s.weakreflist W ≠ NULL then PyObject_ClearWeakRefs s W else s) ∧
      s0.d = s.d ∧ s0.typeD = s.typeD ∧ s0.ob_type = s.ob_type ∧
      s0.dtorCalls = s.dtorCalls := by
    refine ⟨_, rfl, ?_, ?_, ?_, ?_⟩ <;> split_ifs <;> rfl
  have hch : childrenOf s0 = childrenOf s := by
    funext y; simp [childrenOf, hd]
  have hsub : ∀ d, InSubtree s W d → InSubtree s0 W d := fun d h => by
    unfold InSubtree at h ⊢
    rw [hch]
    exact h
  obtain ⟨s1, h1, hc1, hi1⟩ := deallocData_invalidates rank fuel s0 W hW
    (hT.of_parentInfo_eq fun y => by rw [hd]) (by simpa [parentOf, hd] using hp)
    (by simpa [wrapperRefOf, hd] using hwr) (by rw [hch]; exact hn)
  obtain ⟨hdc1, hty1⟩ := deallocData_dtorCalls fuel s0 s1 W true h1
  rw [← hs0]
  refine ⟨s1, h1, ?_, hc1, fun d hdW hne hccw => hi1 d (hsub d hdW) hne (by rw [hd]; exact hccw)⟩
  unfold SbkDeallocWrapper
  simp only [← hs0, hd, hown, hvalid, Bool.and_self, if_true, hty, hot, hmulti,
    Bool.false_eq_true, if_false, hcptr, cptrAt, h1, Option.some_bind, hty1, callDestructor,
    hdtor, Option.getD_some, List.getD_cons_zero, hdc1, hdc]

/-- C22, witness: the tree `2 → {3, 4}`, `3 → {5}` of `parentState`. -/
theorem dealloc_children_invalidated_witness :
    ∃ s1,
      deallocData 5 (if parentState.weakreflist 2 ≠ NULL then PyObject_ClearWeakRefs parentState 2
        else parentState) 2 true = some s1 ∧
      SbkDeallocWrapper 5 parentState 2 = some { s1 with
        dtorCalls := parentState.dtorCalls ++
          [((parentState.typeD (parentState.ob_type 2)).cpp_dtor, 0x2000)]
        dtorFreed := s1.dtorFreed ++ [s1.tp_free_log] } ∧
      childrenOf s1 2 = [] ∧
      ∀ d, InSubtree parentState 2 d → d ≠ 2 → (parentState.d d).containsCppWrapper = false →
        (s1.d d).validCppObject = false :=
  dealloc_children_invalidated treeRank 5 parentState 2 0x2000 [] (by decide) (by decide)
    (by decide) (by decide) (by decide) (by decide)
    (tree_treeState.of_parentInfo_eq fun y => by
      by_cases hy : y = 2
      · subst hy; rfl
      · simp [parentState, State.setD, hy])
    (by decide) (by decide) (by decide)

/-- C22, the code at the failing input: after `setParent(2, 3)`, `invalidate(2)`,
`getOwnership(3)` and `setParent(3, 4)` the wrapper `3` is owning and valid, holds the wrapper
reference and has the valid child `4`; `SbkDeallocWrapper(3)` calls the destructor of `3` while
`4` is still valid and still names `3` as its parent. -/
theorem dealloc_children_invalidated_counterexample :
    (wrapperRefState.d 3).hasOwnership = true ∧ (wrapperRefState.d 3).validCppObject = true ∧
    parentOf wrapperRefState 3 = NULL ∧ wrapperRefOf wrapperRefState 3 = true ∧
    childrenOf wrapperRefState 3 = [4] ∧ parentOf wrapperRefState 4 = 3 ∧
    childrenOf wrapperRefState 4 = [] ∧
    (wrapperRefState.d 4).containsCppWrapper = false ∧
    (SbkDeallocWrapper 3 wrapperRefState 3).map
      (fun s1 => (s1.dtorCalls, (s1.d 4).validCppObject, parentOf s1 4, (s1.d 3).parentInfo))
      = some ([(7, 0x3000)], true, 3, none) := by
  decide

end Shiboken
